import Mathlib

/-!
# Ribbit modem: encoder, decoder and CA-SCL polar wrapper

A shallow embedding of `Modem/encoder.hh`, `Modem/decoder.hh` and
`Modem/polar.hh`.  The classes are translated field by field and method by
method.  Floating point values and the signal-processing toolkit that the
headers include but the repository does not contain (FFT, MLS, PSK mappers,
Simplex code, Schmidl-Cox correlator, Hilbert filter, polar list decoder,
permutations, Xorshift32) are taken as parameters: a record of operations
over an arbitrary working state.  Every theorem holds for all such records.

Machine integers (`int`) are embedded as `Int`; all counters of the control
logic stay within small ranges in reachable states, so no wrap-around occurs.
-/

namespace Ribbit

/-! ## Fixed parameters (encoder.hh 29-39, decoder.hh 40-52, polar.hh 22-24) -/

/-- Samples per OFDM symbol. -/
def symbol_length : Nat := 256
/-- Guard interval, `symbol_length / 8`. -/
def guard_length : Nat := symbol_length / 8
/-- Symbol plus guard. -/
def extended_length : Nat := symbol_length + guard_length
/-- Active subcarriers. -/
def subcarrier_count : Nat := 64
/-- Payload symbols per frame. -/
def payload_symbols : Int := 32
/-- Leading noise symbols. -/
def noise_symbols : Int := 14
/-- Lowest active bin at the transmitter. -/
def first_subcarrier : Nat := 16
/-- Payload size in bytes. -/
def mesg_bytes : Nat := 256
/-- Polar code order. -/
def code_order : Nat := 12
/-- Polar code length, `1 << code_order`. -/
def code_len : Nat := 1 <<< code_order
/-- Information bits. -/
def data_bits : Nat := 2048
/-- Information bits plus CRC bits. -/
def mesg_bits : Nat := data_bits + 32
/-- The CRC polynomial passed to `CODE::CRC<uint32_t>` (polar.hh 34, 73). -/
def crc_poly : Nat := 0x8F6E37A0

/-- The function `nrz` of all three classes: `1 - 2 * bit`. -/
def nrz (bit : Bool) : Int := 1 - 2 * (if bit then 1 else 0)

/-! ## Output deque of the encoder -/

/-- Modelled from the spec: `DSP::Deque<float, 3 * extended_length>`
(`deque.hh` is not in src).  "Double-ended queue of floats, capacity
`3·extended_length`.  `push_front` during production, `pop_back` during
`read`."  The items are listed from the back (the next one popped) to the
front (the latest one pushed).  `push_front` is modelled without a capacity
check; the encoder never pushes beyond the capacity. -/
structure Deque (α : Type) where
  /-- queued items, back first -/
  items : List α

namespace Deque

variable {α : Type}

/-- `max_size()`: the capacity `3 * extended_length` of the encoder deque. -/
def max_size (_d : Deque α) : Nat := 3 * extended_length

/-- `size()`. -/
def size (d : Deque α) : Nat := d.items.length

/-- `push_front(x)`. -/
def push_front (d : Deque α) (x : α) : Deque α := ⟨d.items ++ [x]⟩

/-- `back()`; the fallback is returned on an empty deque only, where the
C++ call is not made. -/
def back (d : Deque α) (fallback : α) : α := d.items.headD fallback

/-- `pop_back()`. -/
def pop_back (d : Deque α) : Deque α := ⟨d.items.tail⟩

end Deque

/-! ## CRC-32 and bit access -/

namespace CRC

/-- Modelled from the spec: `CODE::CRC<uint32_t>::update` (`crc.hh` is not in
src): the reflected (right-shifting) CRC step for one data bit with the
polynomial in reflected form,
`(prev >> 1) ^ (((prev ^ data) & 1) * poly)`.  For `prev, poly < 2^32` the
result is below `2^32`, so no truncation is needed. -/
def update (poly prev : Nat) (data : Bool) : Nat :=
  (prev >>> 1) ^^^ (((prev ^^^ (if data then 1 else 0)) &&& 1) * poly)

/-- Modelled from the spec: the 256-entry table of the byte-wise CRC,
`lut[j]` is `j` after eight `update` steps with data bit 0. -/
def lut (poly j : Nat) : Nat :=
  (List.range 8).foldl (fun tmp _ => update poly tmp false) j

/-- Modelled from the spec: `CODE::CRC<uint32_t>::operator()(uint8_t)`, the
table-driven byte-wise step `(crc >> 8) ^ lut[(crc ^ data) & 255]`. -/
def byte (poly crc data : Nat) : Nat :=
  (crc >>> 8) ^^^ lut poly ((crc ^^^ data) &&& 255)

/-- The state after `reset()` followed by `crc(b)` for each data bit. -/
def bits (poly : Nat) (bs : List Bool) : Nat := bs.foldl (update poly) 0

/-- The state after `reset()` followed by `crc(m)` for each byte. -/
def bytes (poly : Nat) (ms : List Nat) : Nat := ms.foldl (byte poly) 0

end CRC

/-- Modelled from the spec: `CODE::get_le_bit` (`bitman.hh` is not in src),
bit `i` of a byte buffer in little-endian bit order:
`(buf[i / 8] >> (i % 8)) & 1`. -/
def get_le_bit (buf : List Nat) (i : Nat) : Bool :=
  ((buf.getD (i / 8) 0) >>> (i % 8)) &&& 1 = 1

/-- Modelled from the spec: `CODE::set_le_bit` (`bitman.hh` is not in src),
`buf[i / 8] = (~(1 << i % 8) & buf[i / 8]) | (val << i % 8)` on bytes. -/
def set_le_bit (buf : List Nat) (i : Nat) (val : Bool) : List Nat :=
  buf.set (i / 8)
    (((255 ^^^ (1 <<< (i % 8))) &&& buf.getD (i / 8) 0) ||| ((if val then 1 else 0) <<< (i % 8)))

/-! ## Polar encoder wrapper (polar.hh 20-46) -/

namespace PolarEncoder

/-- Lines 37-43 of `PolarEncoder::operator()`: the 2080 NRZ message values,
the 2048 data bits followed by the 32 bits of the byte-wise CRC. -/
def mesg (message : List Nat) : List Int :=
  (List.range data_bits).map (fun i => nrz (get_le_bit message i)) ++
  (List.range 32).map
    (fun i => nrz (((CRC.bytes crc_poly (message.take (data_bits / 8))) >>> i) &&& 1 = 1))

/-- `PolarEncoder::operator()`: the message values handed to the systematic
polar encoder `CODE::PolarSysEnc` (absent, a parameter). -/
def call (encode : List Int → List Int) (message : List Nat) : List Int :=
  encode (mesg message)

end PolarEncoder

/-! ## Polar decoder wrapper (polar.hh 48-106) -/

/-- The parts of the polar decoder that are not in the repository
(`polar_list_decoder.hh`, `polar_encoder.hh`, `polar_tables.hh`, the SIMD
vector type). -/
structure PolarKit where
  /-- `mesg_type::SIZE`, the list size (16 or 32 lanes) -/
  SIZE : Nat
  /-- the words of the frozen-bit table `frozen_4096_2080` -/
  frozen : Nat → Nat
  /-- `CODE::PolarListDecoder`: from the soft code values, the path metric
  `metric[k]` of every lane and the message values `mesg[i].v[k]` -/
  decode : List Int → (Nat → Int) × (Nat → Nat → Int)
  /-- `CODE::PolarEncoder<mesg_type>`: the values `mess[i].v[k]` re-encoded
  from the message values -/
  encode : (Nat → Nat → Int) → (Nat → Nat → Int)

namespace PolarDecoder

/-- The test `(frozen_bits[i / 32] >> (i % 32)) & 1` of lines 68 and 97. -/
def frozen_bit (P : PolarKit) (i : Nat) : Bool :=
  ((P.frozen (i / 32)) >>> (i % 32)) &&& 1 = 1

/-- `systematic(frozen_bits)`, lines 65-70: re-encode, then copy the values
at the non-frozen positions back into `mesg`, while `j < mesg_bits`. -/
def systematic (P : PolarKit) (mesg : Nat → Nat → Int) : Nat → Nat → Int :=
  let mess := P.encode mesg
  ((List.range code_len).foldl
    (fun (st : Nat × (Nat → Nat → Int)) i =>
      if st.1 < mesg_bits ∧ frozen_bit P i = false then
        (st.1 + 1, fun a => if a = st.1 then mess i else st.2 a)
      else st)
    (0, mesg)).2

/-- Lines 85-87: the CRC state after `crc.reset()` and `crc(mesg[i].v[k] < 0)`
for `i < mesg_bits`. -/
def crc_of (mesg : Nat → Nat → Int) (k : Nat) : Nat :=
  CRC.bits crc_poly ((List.range mesg_bits).map (fun i => decide (mesg i k < 0)))

/-- Lines 79-82: the lanes sorted ascending by metric.  `std::sort` leaves
the order of lanes with equal metric unspecified; insertion sort is one
admissible outcome.  What is proved about `call` does not depend on which
lane comes first among equal metrics; the choice of the accepted lane is
stated for `call_with`, for every sorted permutation of the lanes. -/
def sorted_order (P : PolarKit) (metric : Nat → Int) : List Nat :=
  (List.range P.SIZE).insertionSort (fun a b => metric a ≤ metric b)

/-- Lines 83-92: the first lane in `order` whose message has CRC zero;
`none` stands for `best == -1`. -/
def select (mesg : Nat → Nat → Int) (order : List Nat) : Option Nat :=
  order.find? (fun k => crc_of mesg k == 0)

/-- The `while` loop of lines 97-98 started at `j`: the first non-frozen
position from `j` on.  `none` when the search leaves the `code_len` positions
covered by the table (the C++ code would read outside `frozen_4096_2080` and
`code`). -/
def next_info (P : PolarKit) : Nat → Nat → Option Nat
  | 0, _ => none
  | fuel + 1, j =>
    if code_len ≤ j then none
    else if frozen_bit P j then next_info P fuel (j + 1)
    else some j

/-- The loop of lines 96-103 for the remaining `n` data bits, with the
current `i`, `j`, `flips` and `message`.  `none` when a read leaves the
table. -/
def flips_loop (P : PolarKit) (code : List Int) (mesg : Nat → Nat → Int) (best : Nat) :
    Nat → Nat → Nat → Nat → List Nat → Option (Nat × List Nat)
  | 0, _, _, flips, message => some (flips, message)
  | n + 1, i, j, flips, message =>
    match next_info P code_len j with
    | none => none
    | some j1 =>
      let received := decide (code.getD j1 0 < 0)
      let decoded := decide (mesg i best < 0)
      flips_loop P code mesg best n (i + 1) (j1 + 1)
        (flips + (if received ≠ decoded then 1 else 0)) (set_le_bit message i decoded)

/-- `PolarDecoder::operator()`, lines 75-105: the returned value and the
message buffer afterwards; `none` when the flips loop reads outside the
frozen table. -/
def call (P : PolarKit) (message : List Nat) (code : List Int) : Option (Int × List Nat) :=
  let d := P.decode code
  let mesg := systematic P d.2
  let order := sorted_order P d.1
  match select mesg order with
  | none => some (-1, message)
  | some best =>
    (flips_loop P code mesg best data_bits 0 0 0 message).map (fun r => ((r.1 : Int), r.2))

/-- The number of non-frozen positions among `j, ..., j + d - 1`. -/
def info_count (P : PolarKit) : Nat → Nat → Nat
  | 0, _ => 0
  | d + 1, j => (if frozen_bit P j then 0 else 1) + info_count P d (j + 1)

/-- A concrete instance on which the definitions can be evaluated: two
lanes, no frozen position, every decoded value `+1`. -/
def plain_kit : PolarKit where
  SIZE := 2
  frozen := fun _ => 0
  decode := fun _ => (fun k => (k : Int), fun _ _ => 1)
  encode := fun m => m

end PolarDecoder

/-! ## Encoder (encoder.hh) -/

/-- The toolkit used by `Encoder` that is not part of the repository
(`fft.hh`, `mls.hh`, `psk.hh`, `simplex_encoder.hh`, `polar_encoder.hh`,
`permute.hh`, `xorshift.hh`, `utils.hh`), over a working state `σ` holding
`temp`, `freq`, `guard`, `meta` and `noise_seq`, and a sample type `α`
standing for `float`. -/
structure EncoderKit (σ α : Type) where
  /-- the literal `0` written by `read` when nothing is queued -/
  zero : α
  /-- lines 59-61: fill the active bins from the noise MLS -/
  noise_fill : σ → σ
  /-- lines 66-69: fill the active bins with the Schmidl-Cox pilot -/
  schmidl_cox_fill : σ → σ
  /-- lines 75-79: Simplex-encode `data` and fill the active bins -/
  preamble_fill : Int → σ → σ
  /-- line 85: `freq[bin] *= qpsk::map(c)` for the two code values `c[0], c[1]` -/
  qpsk_mul : σ → Nat → Int → Int → σ
  /-- lines 90-91: clear the spectrum -/
  silence_fill : σ → σ
  /-- lines 96-98: inverse FFT into `temp` and scaling -/
  bwd : σ → σ
  /-- lines 100-104: the windowed guard sample number `i` -/
  guard_mix : σ → Nat → α
  /-- lines 107-108: keep the head of `temp` as the next guard -/
  save_guard : σ → σ
  /-- line 110: `temp[i].real()` -/
  temp_real : σ → Nat → α
  /-- lines 167-168: clear `guard` -/
  clear_guard : σ → σ
  /-- output number `i` of a freshly constructed `CODE::Xorshift32` -/
  scrambler : Nat → Nat
  /-- `CODE::PolarSysEnc` with `frozen_4096_2080` -/
  sys_encode : List Int → List Int
  /-- `CODE::FisherYatesShuffle<code_len>` -/
  shuffle : List Int → List Int

/-- The data members of `Encoder` (lines 40-52). -/
structure Encoder (σ α : Type) where
  /-- `temp`, `freq`, `guard`, `meta`, `noise_seq` and the FFT -/
  sig : σ
  /-- the output deque `buffer` -/
  buffer : Deque α
  /-- the scrambled message `mesg` -/
  mesg : List Nat
  /-- the interleaved code word `code` -/
  code : List Int
  /-- `symbol_number`, initially `payload_symbols` -/
  symbol_number : Int
  /-- `count_down`, initially 0 -/
  count_down : Int
  /-- `noise_count`, initially 0 -/
  noise_count : Int

namespace Encoder

variable {σ α : Type}

/-- The constructor `Encoder()`; `sig0` is the constructed toolkit state.
The arrays `mesg` and `code` are not initialised by the constructor; they
start at zero here and are not read before `init` fills them. -/
def fresh (sig0 : σ) : Encoder σ α :=
  { sig := sig0, buffer := ⟨[]⟩, mesg := List.replicate mesg_bytes 0,
    code := List.replicate code_len 0,
    symbol_number := payload_symbols, count_down := 0, noise_count := 0 }

/-- `symbol(output_guard)`, lines 95-111. -/
def symbol (K : EncoderKit σ α) (s : Encoder σ α) (output_guard : Bool) : Encoder σ α :=
  let sig1 := K.bwd s.sig
  let buffer1 :=
    if output_guard then
      (List.range guard_length).foldl (fun b i => b.push_front (K.guard_mix sig1 i)) s.buffer
    else s.buffer
  let sig2 := K.save_guard sig1
  let buffer2 :=
    (List.range symbol_length).foldl (fun b i => b.push_front (K.temp_real sig2 i)) buffer1
  { s with sig := sig2, buffer := buffer2 }

/-- `noise_symbol()`, lines 58-63. -/
def noise_symbol (K : EncoderKit σ α) (s : Encoder σ α) : Encoder σ α :=
  symbol K { s with sig := K.noise_fill s.sig } true

/-- `schmidl_cox()`, lines 65-72: one symbol with guard, one without. -/
def schmidl_cox (K : EncoderKit σ α) (s : Encoder σ α) : Encoder σ α :=
  symbol K (symbol K { s with sig := K.schmidl_cox_fill s.sig } true) false

/-- `preamble(data)`, lines 74-81. -/
def preamble (K : EncoderKit σ α) (s : Encoder σ α) (data : Int) : Encoder σ α :=
  symbol K { s with sig := K.preamble_fill data s.sig } true

/-- The index `2 * (subcarrier_count * symbol_number + i)` of line 85. -/
def code_index (symbol_number : Int) (i : Nat) : Int :=
  2 * ((subcarrier_count : Int) * symbol_number + (i : Int))

/-- `payload_symbol()`, lines 83-87.  A read outside `code` (which no
reachable state performs) yields 0. -/
def payload_symbol (K : EncoderKit σ α) (s : Encoder σ α) : Encoder σ α :=
  let sig1 := (List.range subcarrier_count).foldl
    (fun g i => K.qpsk_mul g (first_subcarrier + i)
      (s.code.getD (code_index s.symbol_number i).toNat 0)
      (s.code.getD ((code_index s.symbol_number i).toNat + 1) 0)) s.sig
  symbol K { s with sig := sig1 } true

/-- `silence()`, lines 89-93. -/
def silence (K : EncoderKit σ α) (s : Encoder σ α) : Encoder σ α :=
  symbol K { s with sig := K.silence_fill s.sig } true

/-- The body of `case 4:` of `produce`, lines 124-127, also reached by the
fall-through from `case 5:`. -/
def produce_case4 (K : EncoderKit σ α) (s : Encoder σ α) : Encoder σ α :=
  let s1 := schmidl_cox K s
  { s1 with count_down := s1.count_down - 1 }

/-- `produce()`, lines 113-145. -/
def produce (K : EncoderKit σ α) (s : Encoder σ α) : Bool × Encoder σ α :=
  if s.buffer.size > s.buffer.max_size - 2 * extended_length then (false, s)
  else if s.count_down = 5 then
    if s.noise_count ≠ 0 then
      (true, noise_symbol K { s with noise_count := s.noise_count - 1 })
    else
      (true, produce_case4 K { s with count_down := s.count_down - 1 })
  else if s.count_down = 4 then
    (true, produce_case4 K s)
  else if s.count_down = 3 then
    let s1 := preamble K s 1
    (true, { s1 with count_down := s1.count_down - 1 })
  else if s.count_down = 2 then
    let s1 := payload_symbol K s
    let s2 := { s1 with symbol_number := s1.symbol_number + 1 }
    if s2.symbol_number = payload_symbols then
      (true, { s2 with count_down := s2.count_down - 1 })
    else (true, s2)
  else if s.count_down = 1 then
    let s1 := silence K s
    (true, { s1 with count_down := s1.count_down - 1 })
  else (false, s)

/-- One iteration of the loop of `read`, lines 152-158: the sample written
to `audio_buffer[i]` and the state afterwards. -/
def read_sample (K : EncoderKit σ α) (s : Encoder σ α) : α × Encoder σ α :=
  let s1 := (produce K s).2
  if s1.buffer.size ≠ 0 then
    (s1.buffer.back K.zero, { s1 with buffer := s1.buffer.pop_back })
  else (K.zero, s1)

/-- The loop of `read`, lines 151-159, for `sample_count` iterations. -/
def read_loop (K : EncoderKit σ α) : Nat → Encoder σ α → List α × Encoder σ α
  | 0, s => ([], s)
  | n + 1, s =>
    let r := read_sample K s
    let rest := read_loop K n r.2
    (r.1 :: rest.1, rest.2)

/-- `read(audio_buffer, sample_count)`, lines 150-161: the returned flag,
the samples written and the state afterwards. -/
def read (K : EncoderKit σ α) (s : Encoder σ α) (sample_count : Nat) :
    Bool × List α × Encoder σ α :=
  let r := read_loop K sample_count s
  (r.2.buffer.size == 0, r.1, r.2)

/-- `init(payload)`, lines 163-174. -/
def init (K : EncoderKit σ α) (s : Encoder σ α) (payload : List Nat) : Encoder σ α :=
  let mesg1 := (List.range mesg_bytes).map
    (fun i => (payload.getD i 0 ^^^ K.scrambler i) % 256)
  { s with
    symbol_number := 0
    count_down := 5
    noise_count := noise_symbols
    sig := K.clear_guard s.sig
    mesg := mesg1
    code := K.shuffle (PolarEncoder.call K.sys_encode mesg1) }

/-- A call of the public interface of `Encoder`. -/
inductive Call where
  /-- `init(payload)` -/
  | init (payload : List Nat)
  /-- `read(audio_buffer, sample_count)` -/
  | read (sample_count : Nat)

/-- The state after a sequence of public calls. -/
def run (K : EncoderKit σ α) (s : Encoder σ α) : List Call → Encoder σ α
  | [] => s
  | Call.init payload :: cs => run K (init K s payload) cs
  | Call.read n :: cs => run K (read K s n).2.2 cs

/-- Any point of an execution between two samples: the state after a
sequence of public calls followed by `i` iterations of the loop of a further
`read` call. -/
def state_at (K : EncoderKit σ α) (sig0 : σ) (calls : List Call) (i : Nat) : Encoder σ α :=
  (read_loop K i (run K (fresh sig0) calls)).2

/-- The results (flag and samples) of a sequence of `read` calls. -/
def reads (K : EncoderKit σ α) (s : Encoder σ α) : List Nat → List (Bool × List α)
  | [] => []
  | n :: ns => ((read K s n).1, (read K s n).2.1) :: reads K (read K s n).2.2 ns

/-- The samples pushed by the produce steps that emit, from state `s` on,
ignoring the head-room gate (the deque is emptied before each step); `fuel`
bounds the number of steps. -/
def frame_samples (K : EncoderKit σ α) : Nat → Encoder σ α → List α
  | 0, _ => []
  | fuel + 1, s =>
    let r := produce K { s with buffer := ⟨[]⟩ }
    if r.1 then r.2.buffer.items ++ frame_samples K fuel r.2 else []

/-- The pairs (state before, state after) of the produce steps that emit
during `n` iterations of the loop of `read`. -/
def emitting_steps (K : EncoderKit σ α) : Nat → Encoder σ α → List (Encoder σ α × Encoder σ α)
  | 0, _ => []
  | n + 1, s =>
    if (produce K s).1 then (s, (produce K s).2) :: emitting_steps K n (read_sample K s).2
    else emitting_steps K n (read_sample K s).2

/-! ### Frame description and bookkeeping used by the statements -/

/-- The samples pushed by one call of `symbol` from toolkit state `sig`. -/
def symbol_out (K : EncoderKit σ α) (sig : σ) (output_guard : Bool) : List α :=
  (if output_guard then (List.range guard_length).map (K.guard_mix (K.bwd sig)) else []) ++
  (List.range symbol_length).map (K.temp_real (K.save_guard (K.bwd sig)))

/-- The kinds of emission of a frame, in the words of the specification. -/
inductive Emission where
  /-- one noise symbol -/
  | noise
  /-- the Schmidl-Cox pair: one symbol with guard, then one without -/
  | schmidl_cox_pair
  /-- the preamble symbol -/
  | preamble
  /-- the payload symbol with the given `symbol_number` -/
  | payload (symbol_number : Int)
  /-- the silence symbol -/
  | silence
deriving DecidableEq, Repr

/-- The frame of the specification:
`noise_symbols·Noise || SchmidlCoxPair || Preamble || 32·Payload || Silence`. -/
def frame : List Emission :=
  List.replicate 14 Emission.noise ++ [Emission.schmidl_cox_pair] ++ [Emission.preamble] ++
  (List.range 32).map (fun n => Emission.payload (n : Int)) ++ [Emission.silence]

/-- A produce step from `s` to `s1` emits `e`: toolkit state and deque of
`s1` are the ones left by the member function of that emission run on `s`
(for the pair: `symbol()` then `symbol(false)` on the pilot spectrum). -/
def Emits (K : EncoderKit σ α) (e : Emission) (s s1 : Encoder σ α) : Prop :=
  match e with
  | Emission.noise =>
    s1.sig = (noise_symbol K s).sig ∧ s1.buffer = (noise_symbol K s).buffer
  | Emission.schmidl_cox_pair =>
    s1.sig = (symbol K (symbol K { s with sig := K.schmidl_cox_fill s.sig } true) false).sig ∧
    s1.buffer =
      (symbol K (symbol K { s with sig := K.schmidl_cox_fill s.sig } true) false).buffer ∧
    s1.buffer.size = s.buffer.size + (extended_length + symbol_length)
  | Emission.preamble =>
    s1.sig = (preamble K s 1).sig ∧ s1.buffer = (preamble K s 1).buffer
  | Emission.payload n =>
    s.symbol_number = n ∧
    s1.sig = (payload_symbol K s).sig ∧ s1.buffer = (payload_symbol K s).buffer
  | Emission.silence =>
    s1.sig = (silence K s).sig ∧ s1.buffer = (silence K s).buffer

/-- The emission number `k` of a frame (counted from 0). -/
def emission_at (k : Nat) : Emission :=
  if k < 14 then Emission.noise
  else if k = 14 then Emission.schmidl_cox_pair
  else if k = 15 then Emission.preamble
  else if k < 48 then Emission.payload ((k : Int) - 16)
  else Emission.silence

/-- The value of `count_down` after `k` emissions of a frame. -/
def phase_count_down (k : Nat) : Int :=
  if k < 15 then 5 else if k = 15 then 3 else if k < 48 then 2 else if k = 48 then 1 else 0

/-- The value of `noise_count` after `k` emissions of a frame. -/
def phase_noise_count (k : Nat) : Int := if k < 14 then 14 - (k : Int) else 0

/-- The value of `symbol_number` after `k` emissions of a frame. -/
def phase_symbol_number (k : Nat) : Int :=
  if k ≤ 16 then 0 else if k ≤ 48 then (k : Int) - 16 else 32

/-- The control state of the encoder after `k` emissions of a frame. -/
structure Phase (k : Nat) (s : Encoder σ α) : Prop where
  /-- at most 49 emissions -/
  le : k ≤ 49
  /-- `count_down` -/
  cd : s.count_down = phase_count_down k
  /-- `noise_count` -/
  nc : s.noise_count = phase_noise_count k
  /-- `symbol_number` -/
  sn : s.symbol_number = phase_symbol_number k

/-- Number of samples still to be produced after `k` emissions. -/
def phase_pending (k : Nat) : Nat :=
  if k ≤ 14 then (14 - k) * 288 + 544 + 34 * 288 else (49 - k) * 288

/-- Queued samples followed by the samples still to be produced. -/
def stream (K : EncoderKit σ α) (k : Nat) (s : Encoder σ α) : List α :=
  s.buffer.items ++ frame_samples K (49 - k) s

/-- A concrete toolkit on which the definitions can be evaluated: the working
state counts the inverse transforms, sample `i` of transform number `c` is
`1000 * c + i + 1`, guard samples are negative. -/
def counting_kit : EncoderKit Nat Int where
  zero := 0
  noise_fill := id
  schmidl_cox_fill := id
  preamble_fill := fun _ g => g
  qpsk_mul := fun g _ _ _ => g
  silence_fill := id
  bwd := fun c => c + 1
  guard_mix := fun c i => -(1000 * (c : Int) + (i : Int) + 1)
  save_guard := id
  temp_real := fun c i => 1000 * (c : Int) + (i : Int) + 1
  clear_guard := id
  scrambler := fun _ => 0
  sys_encode := id
  shuffle := id

end Encoder

/-! ## Decoder (decoder.hh) -/

/-- The toolkit used by `Decoder` that is not part of the repository
(`schmidl_cox.hh`, `bip_buffer.hh`, `hilbert.hh`, `blockdc.hh`, `fft.hh`,
`phasor.hh`, `simplex_decoder.hh`, `psk.hh`, `mls.hh`, `permute.hh`,
`xorshift.hh`), over a working state `δ` (filters, ring buffer, correlator,
oscillator, `temp`, `freq`, `prev`, `cons`, `meta`), samples `α`, angles
`ρ` (both `float`) and ring windows `β` (`const cmplx *`). -/
structure DecoderKit (δ α ρ β : Type) where
  /-- line 186: `correlator(buffer(analytic(x)))`, the state afterwards and
  whether the correlator reports a hit -/
  correlate : δ → α → δ × Bool
  /-- `correlator.cfo_rad` -/
  cfo_rad : δ → ρ
  /-- `correlator.symbol_pos` -/
  symbol_pos : δ → Int
  /-- line 192: `buffer()`, the current read window of the ring -/
  window : δ → β
  /-- lines 126-138: demodulate and Simplex-decode the preamble found in `buf`
  at `staged_position + extended_length` with `staged_cfo_rad`; the state
  afterwards and the decoded value -/
  preamble : δ → β → Int → ρ → δ × Int
  /-- line 145: `osc.omega(-staged_cfo_rad)` -/
  set_omega : δ → ρ → δ
  /-- lines 153-155: mix `buf[symbol_position + i]` with the oscillator, FFT -/
  transform : δ → β → Int → δ
  /-- lines 157-158: `cons[i] = demod_or_erase(freq[bin(i)], prev[i])` -/
  demod : δ → δ
  /-- line 120: `precision()` -/
  precision : δ → ρ
  /-- line 122: the two soft values `qpsk::soft` writes for `cons[i]` -/
  soft : δ → Nat → ρ → Int × Int
  /-- lines 163-164: `prev[i] = freq[bin(i)]` -/
  capture_prev : δ → δ
  /-- `CODE::ReverseFisherYatesShuffle<code_len>` -/
  shuffle : List Int → List Int
  /-- output number `i` of a freshly constructed `CODE::Xorshift32` -/
  scrambler : Nat → Nat

/-- The data members of `Decoder` (lines 53-73). -/
structure Decoder (δ ρ β : Type) where
  /-- the toolkit state -/
  dsp : δ
  /-- the ring window `buf` snapshotted at the last boundary -/
  buf : β
  /-- the soft code word `code` -/
  code : List Int
  /-- `symbol_number`, initially `payload_symbols` -/
  symbol_number : Int
  /-- `symbol_position`, initially `search_position` -/
  symbol_position : Int
  /-- `stored_position` -/
  stored_position : Int
  /-- `staged_position` -/
  staged_position : Int
  /-- `accumulated` -/
  accumulated : Int
  /-- `stored_cfo_rad` -/
  stored_cfo_rad : ρ
  /-- `staged_cfo_rad` -/
  staged_cfo_rad : ρ
  /-- `stored_check` -/
  stored_check : Bool
  /-- `staged_check` -/
  staged_check : Bool

namespace Decoder

variable {δ α ρ β : Type}

/-- `search_position = 2 * extended_length` (line 52). -/
def search_position : Int := 2 * (extended_length : Int)

/-- The constructor `Decoder()`: `dsp0` is the constructed toolkit state,
`buf0` the (uninitialised) pointer `buf`, `cfo0` the float `0`.  The array
`code` is not initialised by the constructor; it starts at zero here. -/
def fresh (dsp0 : δ) (buf0 : β) (cfo0 : ρ) : Decoder δ ρ β :=
  { dsp := dsp0, buf := buf0, code := List.replicate code_len 0,
    symbol_number := payload_symbols, symbol_position := search_position,
    stored_position := 0, staged_position := 0, accumulated := 0,
    stored_cfo_rad := cfo0, staged_cfo_rad := cfo0,
    stored_check := false, staged_check := false }

/-- The index `2 * (symbol_number * subcarrier_count + i)` of line 122. -/
def code_index (symbol_number : Int) (i : Nat) : Int :=
  2 * (symbol_number * (subcarrier_count : Int) + (i : Int))

/-- `demap()`, lines 119-123: the soft values of subcarrier `i` go to
`code[index]` and `code[index + 1]`. -/
def demap (K : DecoderKit δ α ρ β) (s : Decoder δ ρ β) : Decoder δ ρ β :=
  let pre := K.precision s.dsp
  let code1 := (List.range subcarrier_count).foldl
    (fun c i =>
      (c.set (code_index s.symbol_number i).toNat (K.soft s.dsp i pre).1).set
        ((code_index s.symbol_number i).toNat + 1) (K.soft s.dsp i pre).2)
    s.code
  { s with code := code1 }

/-- Lines 151-166 of `process()`: demodulate one payload symbol when a frame
is in progress. -/
def demodulate (K : DecoderKit δ α ρ β) (s : Decoder δ ρ β) : Bool × Decoder δ ρ β :=
  if s.symbol_number < payload_symbols then
    let s1 := { s with dsp := K.transform s.dsp s.buf s.symbol_position }
    let s2 := if s1.symbol_number ≥ 0 then demap K { s1 with dsp := K.demod s1.dsp } else s1
    let s3 := { s2 with symbol_number := s2.symbol_number + 1 }
    (decide (s3.symbol_number = payload_symbols), { s3 with dsp := K.capture_prev s3.dsp })
  else (false, s)

/-- `process()`, lines 141-167. -/
def process (K : DecoderKit δ α ρ β) (s : Decoder δ ρ β) : Bool × Decoder δ ρ β :=
  if s.staged_check then
    let s1 := { s with staged_check := false }
    let r := K.preamble s1.dsp s1.buf s1.staged_position s1.staged_cfo_rad
    let s2 := { s1 with dsp := r.1 }
    if r.2 = 1 then
      (false, { s2 with
        dsp := K.set_omega s2.dsp s2.staged_cfo_rad
        symbol_position := s2.staged_position
        symbol_number := -1 })
    else demodulate K s2
  else demodulate K s

/-- The body of the loop of `feed`, lines 186-192, for one sample. -/
def feed_sample (K : DecoderKit δ α ρ β) (s : Decoder δ ρ β) (x : α) : Decoder δ ρ β :=
  let r := K.correlate s.dsp x
  let s1 := { s with dsp := r.1 }
  let s2 :=
    if r.2 then
      { s1 with
        stored_cfo_rad := K.cfo_rad s1.dsp
        stored_position := K.symbol_pos s1.dsp + s1.accumulated - (extended_length : Int)
        stored_check := true }
    else s1
  let s3 := { s2 with accumulated := s2.accumulated + 1 }
  if s3.accumulated = (extended_length : Int) then { s3 with buf := K.window s3.dsp } else s3

/-- Lines 194-201 of `feed`: at a boundary, rewind `accumulated` and move a
stored event to staged. -/
def migrate (s : Decoder δ ρ β) : Decoder δ ρ β :=
  let s1 := { s with accumulated := s.accumulated - (extended_length : Int) }
  if s1.stored_check then
    { s1 with
      staged_cfo_rad := s1.stored_cfo_rad
      staged_position := s1.stored_position
      staged_check := true
      stored_check := false }
  else s1

/-- `feed(audio_buffer, sample_count)`, lines 183-205; `audio` lists the
`sample_count` samples. -/
def feed (K : DecoderKit δ α ρ β) (s : Decoder δ ρ β) (audio : List α) :
    Bool × Decoder δ ρ β :=
  let s1 := audio.foldl (feed_sample K) s
  if s1.accumulated ≥ (extended_length : Int) then process K (migrate s1)
  else (false, s1)

/-- `fetch(payload)`, lines 174-181: the polar decoder's result with the
descrambled buffer (`none` when the polar decoder reads outside the frozen
table), and the state afterwards. -/
def fetch (K : DecoderKit δ α ρ β) (P : PolarKit) (s : Decoder δ ρ β) (payload : List Nat) :
    Option (Int × List Nat) × Decoder δ ρ β :=
  let code1 := K.shuffle s.code
  let r := PolarDecoder.call P payload code1
  (r.map (fun p => (p.1, (List.range mesg_bytes).map
      (fun i => (p.2.getD i 0 ^^^ K.scrambler i) % 256))),
    { s with code := code1 })

/-- A call of the public interface of `Decoder`. -/
inductive Call (α : Type) where
  /-- `feed(audio_buffer, sample_count)` -/
  | feed (audio : List α)
  /-- `fetch(payload)` -/
  | fetch (payload : List Nat)

/-- The state after a sequence of public calls. -/
def run (K : DecoderKit δ α ρ β) (P : PolarKit) (s : Decoder δ ρ β) :
    List (Call α) → Decoder δ ρ β
  | [] => s
  | Call.feed audio :: cs => run K P (feed K s audio).2 cs
  | Call.fetch payload :: cs => run K P (fetch K P s payload).2 cs

/-- The state after a sequence of `feed` calls. -/
def feeds (K : DecoderKit δ α ρ β) (s : Decoder δ ρ β) : List (List α) → Decoder δ ρ β
  | [] => s
  | audio :: rest => feeds K (feed K s audio).2 rest

/-- The sync events (`cfo_rad`, position as written to `stored_position`)
of the correlator hits during the samples `audio`, in order. -/
def hits (K : DecoderKit δ α ρ β) (s : Decoder δ ρ β) : List α → List (ρ × Int)
  | [] => []
  | x :: xs =>
    (if (K.correlate s.dsp x).2 then
      [(K.cfo_rad (K.correlate s.dsp x).1,
        K.symbol_pos (K.correlate s.dsp x).1 + s.accumulated - (extended_length : Int))]
    else []) ++ hits K (feed_sample K s x) xs

/-- The samples of a call up to and including the one at which
`accumulated` reaches `extended_length`. -/
def up_to_boundary (s : Decoder δ ρ β) (audio : List α) : List α :=
  audio.take ((extended_length : Int) - s.accumulated).toNat

/-- The toolkit `K` with a counter of the evaluations of the preamble gate
added to its working state; everything else is passed through. -/
def counting (K : DecoderKit δ α ρ β) : DecoderKit (δ × Nat) α ρ β where
  correlate := fun d x => (((K.correlate d.1 x).1, d.2), (K.correlate d.1 x).2)
  cfo_rad := fun d => K.cfo_rad d.1
  symbol_pos := fun d => K.symbol_pos d.1
  window := fun d => K.window d.1
  preamble := fun d b p c => (((K.preamble d.1 b p c).1, d.2 + 1), (K.preamble d.1 b p c).2)
  set_omega := fun d c => (K.set_omega d.1 c, d.2)
  transform := fun d b p => (K.transform d.1 b p, d.2)
  demod := fun d => (K.demod d.1, d.2)
  precision := fun d => K.precision d.1
  soft := fun d i c => K.soft d.1 i c
  capture_prev := fun d => (K.capture_prev d.1, d.2)
  shuffle := K.shuffle
  scrambler := K.scrambler

/-- The decoder state with the counter of `counting` dropped. -/
def uncount (s : Decoder (δ × Nat) ρ β) : Decoder δ ρ β :=
  { dsp := s.dsp.1, buf := s.buf, code := s.code, symbol_number := s.symbol_number,
    symbol_position := s.symbol_position, stored_position := s.stored_position,
    staged_position := s.staged_position, accumulated := s.accumulated,
    stored_cfo_rad := s.stored_cfo_rad, staged_cfo_rad := s.staged_cfo_rad,
    stored_check := s.stored_check, staged_check := s.staged_check }

/-- A concrete toolkit on which the definitions can be evaluated: each
sample carries the report of the correlator (`none`: no hit, `some (c, p)`:
a hit with `cfo_rad = c` and `symbol_pos = p`), the working state keeps the
last report, and the preamble gate always decodes `gate`. -/
def scripted_kit (gate : Int) : DecoderKit (Int × Int) (Option (Int × Int)) Int Unit where
  correlate := fun d x =>
    match x with
    | some e => (e, true)
    | none => (d, false)
  cfo_rad := fun d => d.1
  symbol_pos := fun d => d.2
  window := fun _ => ()
  preamble := fun d _ _ _ => (d, gate)
  set_omega := fun d _ => d
  transform := fun d _ _ => d
  demod := fun d => d
  precision := fun _ => 1
  soft := fun _ _ _ => (1, 1)
  capture_prev := fun d => d
  shuffle := id
  scrambler := fun _ => 0

/-- The instrumented decoder after a sequence of `feed` calls on a newly
constructed decoder. -/
def latched (K : DecoderKit δ α ρ β) (dsp0 : δ) (buf0 : β) (cfo0 : ρ)
    (audios : List (List α)) : Decoder (δ × Nat) ρ β :=
  feeds (counting K) (fresh (dsp0, 0) buf0 cfo0) audios

/-- A decoder on the scripted toolkit one sample before a boundary: newly
constructed, then fed 287 samples without a correlator hit in one call. -/
def boundary_state : Decoder (Int × Int) Int Unit :=
  (feed (scripted_kit 0) (fresh (0, 0) () 0) (List.replicate 287 none)).2

/-- A call of two samples, each with a correlator hit: the first sample is
the one at which `accumulated` reaches `extended_length`. -/
def boundary_audio : List (Option (Int × Int)) := [some (1, 100), some (2, 200)]

end Decoder


end Ribbit

namespace Ribbit

namespace Decoder

/-- A concrete toolkit on which the definitions can be evaluated, like
`scripted_kit`, but the preamble gate decodes the staged `cfo_rad` itself: a
hit reported with `cfo_rad = 1` passes the gate, any other fails it. -/
def echo_kit : DecoderKit (Int × Int) (Option (Int × Int)) Int Unit where
  correlate := fun d x =>
    match x with
    | some e => (e, true)
    | none => (d, false)
  cfo_rad := fun d => d.1
  symbol_pos := fun d => d.2
  window := fun _ => ()
  preamble := fun d _ _ c => (d, c)
  set_omega := fun d _ => d
  transform := fun d _ _ => d
  demod := fun d => d
  precision := fun _ => 1
  soft := fun _ _ _ => (1, 1)
  capture_prev := fun d => d
  shuffle := id
  scrambler := fun _ => 0

/-- A decoder on `echo_kit` with a frame in progress: newly constructed, fed
288 samples with one hit that passes the gate (`symbol_number` becomes -1),
then 288 samples without a hit (the warm-up step, `symbol_number` becomes 0). -/
def synced_state : Decoder (Int × Int) Int Unit :=
  (feed echo_kit (feed echo_kit (fresh (0, 0) () 0)
    (some (1, 0) :: List.replicate 287 none)).2 (List.replicate 288 none)).2

/-- The state on entry to `process` in a further call of 288 samples on
`synced_state` whose first sample is a hit that fails the gate
(`cfo_rad = 0`). -/
def false_sync_entry : Decoder (Int × Int) Int Unit :=
  migrate ((some (0, 0) :: List.replicate 287 none).foldl (feed_sample echo_kit) synced_state)

variable {δ α ρ β : Type}

/-- The value decoded by the preamble gate in `process()`, line 144; `none`
when nothing is staged and the gate is not evaluated. -/
def gate_value (K : DecoderKit δ α ρ β) (s : Decoder δ ρ β) : Option Int :=
  if s.staged_check then
    some (K.preamble s.dsp s.buf s.staged_position s.staged_cfo_rad).2
  else none

/-- The decoder after lines 142-150 of `process()` when the gate does not
succeed: a staged event has been consumed by `preamble()`. -/
def after_gate (K : DecoderKit δ α ρ β) (s : Decoder δ ρ β) : Decoder δ ρ β :=
  if s.staged_check then
    { s with staged_check := false,
             dsp := (K.preamble s.dsp s.buf s.staged_position s.staged_cfo_rad).1 }
  else s

/-- The state on entry to `process()` in a `feed` call that reaches line
202; `none` when the call returns at line 204. -/
def process_entry (K : DecoderKit δ α ρ β) (s : Decoder δ ρ β) (audio : List α) :
    Option (Decoder δ ρ β) :=
  if (audio.foldl (feed_sample K) s).accumulated ≥ (extended_length : Int) then
    some (migrate (audio.foldl (feed_sample K) s))
  else none

/-- The `process()` steps of a sequence of `feed` calls, one for each call
that reaches line 202: state on entry, returned flag, state afterwards. -/
def process_steps (K : DecoderKit δ α ρ β) (s : Decoder δ ρ β) :
    List (List α) → List (Decoder δ ρ β × Bool × Decoder δ ρ β)
  | [] => []
  | audio :: rest =>
    (match process_entry K s audio with
      | some e => [(e, (process K e).1, (process K e).2)]
      | none => []) ++ process_steps K (feed K s audio).2 rest

/-- The values decoded by the preamble gate during a sequence of `feed`
calls. -/
def gate_values (K : DecoderKit δ α ρ β) (s : Decoder δ ρ β) (audios : List (List α)) :
    List Int :=
  (process_steps K s audios).filterMap (fun p => gate_value K p.1)

/-- The values returned by a sequence of `feed` calls. -/
def feed_results (K : DecoderKit δ α ρ β) (s : Decoder δ ρ β) : List (List α) → List Bool
  | [] => []
  | audio :: rest => (feed K s audio).1 :: feed_results K (feed K s audio).2 rest

/-- For each sample of a call, whether line 192, `buf = buffer()`, runs at
it. -/
def snapshot_flags (K : DecoderKit δ α ρ β) (s : Decoder δ ρ β) : List α → List Bool
  | [] => []
  | x :: xs =>
    decide ((feed_sample K s x).accumulated = (extended_length : Int)) ::
      snapshot_flags K (feed_sample K s x) xs

/-- For each sample of a sequence of `feed` calls, whether line 192 runs at
it. -/
def snapshots (K : DecoderKit δ α ρ β) (s : Decoder δ ρ β) : List (List α) → List Bool
  | [] => []
  | audio :: rest => snapshot_flags K s audio ++ snapshots K (feed K s audio).2 rest

/-- The number of samples in a sequence of calls. -/
def total_samples (audios : List (List α)) : Nat := (audios.map List.length).sum

end Decoder



end Ribbit

namespace Ribbit

namespace PolarDecoder

/-- The non-frozen code positions in ascending order: the positions at
which the tests of lines 68 and 97 fail. -/
def info_positions (P : PolarKit) : List Nat :=
  (List.range code_len).filter (fun j => !frozen_bit P j)

/-- The number of frozen positions among the `code_len` code positions. -/
def frozen_count (P : PolarKit) : Nat :=
  ((List.range code_len).filter (fun j => frozen_bit P j)).length

/-- The copy loop of `systematic` (lines 67-69) run over the positions `l`
instead of `0, ..., code_len - 1`. -/
def systematic_on (P : PolarKit) (mesg : Nat → Nat → Int) (l : List Nat) : Nat → Nat → Int :=
  let mess := P.encode mesg
  (l.foldl
    (fun (st : Nat × (Nat → Nat → Int)) i =>
      if st.1 < mesg_bits ∧ frozen_bit P i = false then
        (st.1 + 1, fun a => if a = st.1 then mess i else st.2 a)
      else st)
    (0, mesg)).2

/-- The code positions `j` at which the loop of lines 96-103 reads `code[j]`,
in loop order, for `n` data bits starting the search at `j`; `none` when a
read leaves the table. -/
def flips_positions (P : PolarKit) : Nat → Nat → Option (List Nat)
  | 0, _ => some []
  | n + 1, j =>
    match next_info P code_len j with
    | none => none
    | some j1 => (flips_positions P n (j1 + 1)).map (fun js => j1 :: js)

/-- The number of data bits `i` whose received sign at `positions[i]`
differs from the hard decision of candidate `best`. -/
def flips_count (code : List Int) (mesg : Nat → Nat → Int) (best : Nat)
    (positions : List Nat) : Nat :=
  ((List.range data_bits).filter
    (fun i => decide (code.getD (positions.getD i 0) 0 < 0) != decide (mesg i best < 0))).length

/-- Modelled from the spec: the table `frozen_4096_2080` (`polar_tables.hh`
is not in src).  The spec's words for it are that it "contains 2080 frozen
positions, leaving 2080 = 2048+32 information positions"; this is that
statement for the table of `P`. -/
def spec_mask_counts (P : PolarKit) : Prop :=
  frozen_count P = 2080 ∧ (info_positions P).length = 2080

instance (P : PolarKit) : Decidable (spec_mask_counts P) :=
  inferInstanceAs (Decidable (_ ∧ _))

/-- A concrete instance whose table leaves exactly the first 2080 positions
non-frozen (65 zero words, then 63 words of ones). -/
def mask_kit : PolarKit where
  SIZE := 2
  frozen := fun w => if w < 65 then 0 else 4294967295
  decode := fun _ => (fun k => (k : Int), fun _ _ => 1)
  encode := fun m => m

/-- A concrete instance whose two candidates both fail the CRC: no frozen
position, every decoded value `-1`. -/
def failing_kit : PolarKit where
  SIZE := 2
  frozen := fun _ => 0
  decode := fun _ => (fun k => (k : Int), fun _ _ => -1)
  encode := fun m => m

end PolarDecoder

end Ribbit

namespace Ribbit

/-! ## Interleaver (permute.hh, not in src) -/

namespace Permute

variable {α : Type}

/-- Modelled from the spec: `std::swap(array[i], array[j])` on a list; an
index outside the list (which the shuffles never produce on an array of
`SIZE` values) leaves it unchanged. -/
def swap (array : List α) (i j : Nat) : List α :=
  match array[i]?, array[j]? with
  | some a, some b => (array.set i b).set j a
  | _, _ => array

/-- Modelled from the spec: the position swapped with position `i` by the
Fisher-Yates shuffle over `size` positions, `i + prng() % (size - i)`, where
`prng i` is output number `i` of a freshly constructed `CODE::Xorshift32`
(`xorshift.hh` is not in src; the sequence is a parameter). -/
def partner (prng : Nat → Nat) (size i : Nat) : Nat := i + prng i % (size - i)

/-- Modelled from the spec: `CODE::FisherYatesShuffle<SIZE>` (`permute.hh` is
not in src), the Fisher-Yates shuffle "driven by the Xorshift32 sequence":
for `i = 0, ..., SIZE - 2` swap `array[i]` with `array[partner i]`. -/
def FisherYatesShuffle (prng : Nat → Nat) (size : Nat) (array : List α) : List α :=
  (List.range (size - 1)).foldl (fun a i => swap a i (partner prng size i)) array

/-- Modelled from the spec: `CODE::ReverseFisherYatesShuffle<SIZE>`
(`permute.hh` is not in src), the same swaps from the same sequence, done
in the opposite order `i = SIZE - 2, ..., 0`. -/
def ReverseFisherYatesShuffle (prng : Nat → Nat) (size : Nat) (array : List α) : List α :=
  (List.range (size - 1)).foldr (fun i a => swap a i (partner prng size i)) array

end Permute

end Ribbit

namespace Ribbit

namespace PolarDecoder

/-- `PolarDecoder::operator()`, lines 75-105, with the outcome `order` of
`std::sort` (line 82) as a parameter.  The C++ standard leaves the order of
lanes with equal metric open, so every list that is a permutation of the
lanes and ascending in metric can be this outcome. -/
def call_with (P : PolarKit) (order : List Nat) (message : List Nat) (code : List Int) :
    Option (Int × List Nat) :=
  let d := P.decode code
  let mesg := systematic P d.2
  match select mesg order with
  | none => some (-1, message)
  | some best =>
    (flips_loop P code mesg best data_bits 0 0 0 message).map (fun r => ((r.1 : Int), r.2))

/-- A concrete instance with two lanes of equal metric, no frozen position
and every decoded value `+1`, so that both lanes have CRC zero. -/
def tie_kit : PolarKit where
  SIZE := 2
  frozen := fun _ => 0
  decode := fun _ => (fun _ => 0, fun _ _ => 1)
  encode := fun m => m

end PolarDecoder

end Ribbit

namespace Ribbit

namespace Decoder

/-- A concrete toolkit like `echo_kit` whose soft values tell the
subcarriers apart: subcarrier `i` yields `(2 i + 1, -(2 i + 1))`. -/
def ramp_kit : DecoderKit (Int × Int) (Option (Int × Int)) Int Unit :=
  { echo_kit with soft := fun _ i _ => (2 * (i : Int) + 1, -(2 * (i : Int) + 1)) }

/-- A decoder on `ramp_kit` right after a sync: newly constructed, then fed
288 samples with one hit that passes the gate. -/
def ramp_sync : Decoder (Int × Int) Int Unit :=
  (feed ramp_kit (fresh (0, 0) () 0) (some (1, 0) :: List.replicate 287 none)).2

/-- 33 calls of 288 samples without a hit. -/
def frame_calls : List (List (Option (Int × Int))) :=
  List.replicate 33 (List.replicate 288 none)

end Decoder

end Ribbit

namespace Ribbit

/-! ## Parameter values -/

@[simp] theorem symbol_length_eq : symbol_length = 256 := rfl
@[simp] theorem guard_length_eq : guard_length = 32 := rfl
@[simp] theorem extended_length_eq : extended_length = 288 := rfl
@[simp] theorem subcarrier_count_eq : subcarrier_count = 64 := rfl
@[simp] theorem payload_symbols_eq : payload_symbols = 32 := rfl
@[simp] theorem noise_symbols_eq : noise_symbols = 14 := rfl
@[simp] theorem mesg_bytes_eq : mesg_bytes = 256 := rfl
@[simp] theorem code_len_eq : code_len = 4096 := rfl
@[simp] theorem data_bits_eq : data_bits = 2048 := rfl
@[simp] theorem mesg_bits_eq : mesg_bits = 2080 := rfl

/-! ## CRC-32 -/

namespace CRC

theorem and_one_cases (x : Nat) : x &&& 1 = 0 ∨ x &&& 1 = 1 := by
  rw [Nat.and_one_is_mod]
  omega

theorem xor_mul_of_le_one (u v p : Nat) (hu : u = 0 ∨ u = 1) (hv : v = 0 ∨ v = 1) :
    (u ^^^ v) * p = (u * p) ^^^ (v * p) := by
  rcases hu with rfl | rfl <;> rcases hv with rfl | rfl <;> simp

theorem shiftRight_xor (a b k : Nat) : (a ^^^ b) >>> k = (a >>> k) ^^^ (b >>> k) := by
  apply Nat.eq_of_testBit_eq
  intro i
  simp only [Nat.testBit_shiftRight, Nat.testBit_xor]

/-- The step for a zero data bit is linear over xor. -/
theorem update_false_xor (poly a b : Nat) :
    update poly (a ^^^ b) false = update poly a false ^^^ update poly b false := by
  simp only [update, Bool.false_eq_true, if_false, Nat.xor_zero]
  rw [shiftRight_xor, Nat.and_xor_distrib_right,
    xor_mul_of_le_one _ _ _ (and_one_cases a) (and_one_cases b)]
  simp only [Nat.xor_assoc]
  congr 1
  rw [← Nat.xor_assoc, Nat.xor_comm (b >>> 1), Nat.xor_assoc]

/-- A data bit enters the step through the lowest bit of the state. -/
theorem update_eq (poly c : Nat) (bit : Bool) :
    update poly c bit = update poly (c ^^^ (if bit then 1 else 0)) false := by
  cases bit
  · simp
  · simp only [update, if_true, Bool.false_eq_true, if_false, Nat.xor_zero]
    congr 1
    rw [shiftRight_xor]
    simp

theorem iterate_xor (poly : Nat) (k a b : Nat) :
    (fun t => update poly t false)^[k] (a ^^^ b) =
      (fun t => update poly t false)^[k] a ^^^ (fun t => update poly t false)^[k] b := by
  induction k generalizing a b with
  | zero => rfl
  | succ k ih => simp only [Function.iterate_succ, Function.comp, update_false_xor, ih]

theorem iterate_shiftLeft (poly : Nat) (k y : Nat) :
    (fun t => update poly t false)^[k] (y <<< k) = y := by
  induction k generalizing y with
  | zero => simp
  | succ k ih =>
    simp only [Function.iterate_succ, Function.comp]
    have h : update poly (y <<< (k + 1)) false = y <<< k := by
      simp only [update, Bool.false_eq_true, if_false, Nat.xor_zero]
      have h1 : (y <<< (k + 1)) &&& 1 = 0 := by
        rw [Nat.and_one_is_mod, Nat.shiftLeft_eq, Nat.pow_succ, ← Nat.mul_assoc]
        exact Nat.mul_mod_left _ _
      have h2 : (y <<< (k + 1)) >>> 1 = y <<< k := by
        rw [Nat.shiftLeft_eq, Nat.shiftLeft_eq, Nat.shiftRight_eq_div_pow, Nat.pow_succ,
          ← Nat.mul_assoc]
        simp
      rw [h1, h2]
      simp
    rw [h, ih]

theorem lut_eq_iterate (poly j : Nat) : lut poly j = (fun t => update poly t false)^[8] j := by
  simp [lut, List.range_succ, Function.iterate_succ]

theorem split_low (x : Nat) : x = ((x >>> 8) <<< 8) ^^^ (x &&& 255) := by
  apply Nat.eq_of_testBit_eq
  intro i
  have h255 : (255 : Nat) = 2 ^ 8 - 1 := by norm_num
  rw [Nat.testBit_xor, Nat.testBit_shiftLeft, Nat.testBit_shiftRight, Nat.testBit_and, h255,
    Nat.testBit_two_pow_sub_one]
  by_cases h : i < 8
  · have : ¬ i ≥ 8 := by omega
    simp [h, this]
  · have h8 : i ≥ 8 := by omega
    have e : 8 + (i - 8) = i := by omega
    simp [h, h8, e]

/-- The table-driven byte step is eight bit steps on `crc ^ data`. -/
theorem byte_eq_iterate (poly crc data : Nat) (hd : data < 256) :
    byte poly crc data = (fun t => update poly t false)^[8] (crc ^^^ data) := by
  have hs : (crc ^^^ data) >>> 8 = crc >>> 8 := by
    rw [shiftRight_xor]
    have : data >>> 8 = 0 := by
      rw [Nat.shiftRight_eq_div_pow]
      exact Nat.div_eq_of_lt hd
    rw [this, Nat.xor_zero]
  conv_rhs => rw [split_low (crc ^^^ data)]
  rw [iterate_xor, iterate_shiftLeft, hs, byte, lut_eq_iterate]

/-- The eight data bits of a byte, least significant first. -/
theorem bits_of_byte (poly : Nat) (k c d : Nat) (hd : d < 2 ^ k) :
    ((List.range k).map (fun i => decide ((d >>> i) &&& 1 = 1))).foldl (update poly) c =
      (fun t => update poly t false)^[k] (c ^^^ d) := by
  induction k generalizing c d with
  | zero =>
    have : d = 0 := by simpa using hd
    subst this
    simp
  | succ k ih =>
    rw [List.range_succ_eq_map, List.map_cons, List.foldl_cons, List.map_map]
    have hmap : (List.range k).map ((fun i => decide ((d >>> i) &&& 1 = 1)) ∘ Nat.succ) =
        (List.range k).map (fun i => decide (((d >>> 1) >>> i) &&& 1 = 1)) := by
      apply List.map_congr_left
      intro i _
      have e : d >>> (i + 1) = (d >>> 1) >>> i := by rw [Nat.add_comm, Nat.shiftRight_add]
      simp only [Function.comp, Nat.succ_eq_add_one, e]
    rw [hmap, ih _ (d >>> 1) (by
      rw [Nat.shiftRight_eq_div_pow, Nat.pow_one]
      rw [Nat.pow_succ] at hd
      omega)]
    simp only [Function.iterate_succ, Function.comp]
    congr 1
    rw [update_eq, Nat.shiftRight_zero]
    have hbit : (if decide (d &&& 1 = 1) = true then 1 else 0) = d &&& 1 := by
      rcases and_one_cases d with h | h <;> simp [h]
    rw [hbit]
    simp only [update, Bool.false_eq_true, if_false, Nat.xor_zero]
    rw [shiftRight_xor, shiftRight_xor, Nat.and_xor_distrib_right,
      Nat.and_xor_distrib_right, Nat.and_assoc, Nat.and_self]
    have h0 : (d &&& 1) >>> 1 = 0 := by
      rcases and_one_cases d with h | h <;> simp [h]
    rw [h0, Nat.xor_zero, Nat.xor_assoc, Nat.xor_assoc, Nat.xor_comm (d >>> 1)]

/-- Feeding a state its own bits, least significant first, shifts it out. -/
theorem feed_own_bits (poly c n : Nat) :
    ((List.range n).map (fun i => decide ((c >>> i) &&& 1 = 1))).foldl (update poly) c =
      c >>> n := by
  induction n with
  | zero => simp
  | succ n ih =>
    rw [List.range_succ, List.map_append, List.foldl_append, ih]
    simp only [List.map_cons, List.map_nil, List.foldl_cons, List.foldl_nil]
    rw [update_eq]
    have hbit : (if decide ((c >>> n) &&& 1 = 1) = true then 1 else 0) = (c >>> n) &&& 1 := by
      rcases and_one_cases (c >>> n) with h | h <;> simp [h]
    rw [hbit]
    simp only [update, Bool.false_eq_true, if_false, Nat.xor_zero]
    rw [Nat.and_xor_distrib_right, Nat.and_assoc, Nat.and_self, Nat.xor_self, Nat.zero_mul,
      Nat.xor_zero, shiftRight_xor]
    have h0 : ((c >>> n) &&& 1) >>> 1 = 0 := by
      rcases and_one_cases (c >>> n) with h | h <;> simp [h]
    rw [h0, Nat.xor_zero, ← Nat.shiftRight_add]

theorem update_lt (poly c : Nat) (bit : Bool) (hp : poly < 2 ^ 32) (hc : c < 2 ^ 32) :
    update poly c bit < 2 ^ 32 := by
  unfold update
  apply Nat.xor_lt_two_pow
  · rw [Nat.shiftRight_eq_div_pow]
    omega
  · rcases and_one_cases (c ^^^ (if bit then 1 else 0)) with h | h <;> rw [h] <;> omega

theorem iterate_lt (poly : Nat) (k c : Nat) (hp : poly < 2 ^ 32) (hc : c < 2 ^ 32) :
    (fun t => update poly t false)^[k] c < 2 ^ 32 := by
  induction k generalizing c with
  | zero => exact hc
  | succ k ih =>
    simp only [Function.iterate_succ, Function.comp]
    exact ih _ (update_lt poly c false hp hc)

theorem bytes_foldl_lt (poly : Nat) (ms : List Nat) (c : Nat) (hp : poly < 2 ^ 32)
    (hc : c < 2 ^ 32) (hb : ∀ m ∈ ms, m < 256) : ms.foldl (byte poly) c < 2 ^ 32 := by
  induction ms generalizing c with
  | nil => exact hc
  | cons m ms ih =>
    rw [List.foldl_cons]
    apply ih
    · rw [byte_eq_iterate poly c m (hb m (List.mem_cons_self _ _))]
      apply iterate_lt poly 8 _ hp
      apply Nat.xor_lt_two_pow hc
      have := hb m (List.mem_cons_self _ _)
      omega
    · exact fun x hx => hb x (List.mem_cons_of_mem _ hx)

end CRC

/-! ## The CRC of the message formed by the polar encoder -/

theorem nrz_neg (b : Bool) : decide (nrz b < 0) = b := by
  cases b <;> simp [nrz]

theorem get_le_bit_cons_low (m : Nat) (ms : List Nat) (i : Nat) (hi : i < 8) :
    get_le_bit (m :: ms) i = decide ((m >>> i) &&& 1 = 1) := by
  have h1 : i / 8 = 0 := by omega
  have h2 : i % 8 = i := by omega
  simp only [get_le_bit, h1, h2, List.getD_cons_zero]

theorem get_le_bit_cons_high (m : Nat) (ms : List Nat) (i : Nat) :
    get_le_bit (m :: ms) (8 + i) = get_le_bit ms i := by
  have h1 : (8 + i) / 8 = i / 8 + 1 := by omega
  have h2 : (8 + i) % 8 = i % 8 := by omega
  simp only [get_le_bit, h1, h2, List.getD_cons_succ]

/-- The bit-serial CRC over the bits of a byte buffer, in little-endian bit
order, is the byte-wise CRC over its bytes. -/
theorem crc_bits_eq_bytes (poly : Nat) (ms : List Nat) (c : Nat) (hb : ∀ m ∈ ms, m < 256) :
    ((List.range (8 * ms.length)).map (get_le_bit ms)).foldl (CRC.update poly) c =
      ms.foldl (CRC.byte poly) c := by
  induction ms generalizing c with
  | nil => simp
  | cons m ms ih =>
    have e : 8 * (m :: ms).length = 8 + 8 * ms.length := by
      simp only [List.length_cons]; omega
    rw [e, List.range_add, List.map_append, List.foldl_append, List.map_map, List.foldl_cons]
    have h1 : (List.range 8).map (get_le_bit (m :: ms)) =
        (List.range 8).map (fun i => decide ((m >>> i) &&& 1 = 1)) := by
      apply List.map_congr_left
      intro i hi
      exact get_le_bit_cons_low m ms i (List.mem_range.1 hi)
    have h2 : (List.range (8 * ms.length)).map (get_le_bit (m :: ms) ∘ fun x => 8 + x) =
        (List.range (8 * ms.length)).map (get_le_bit ms) := by
      apply List.map_congr_left
      intro i _
      exact get_le_bit_cons_high m ms i
    have hm : m < 2 ^ 8 := hb m (List.mem_cons_self _ _)
    rw [h1, h2, CRC.bits_of_byte poly 8 c m hm,
      ← CRC.byte_eq_iterate poly c m (hb m (List.mem_cons_self _ _))]
    exact ih _ (fun x hx => hb x (List.mem_cons_of_mem _ hx))

theorem map_getD_range (l : List Int) (n : Nat) (h : l.length = n) (f : Int → Bool) :
    (List.range n).map (fun i => f (l.getD i 0)) = l.map f := by
  subst h
  apply List.ext_getElem
  · simp
  · intro i h1 h2
    simp only [List.length_map, List.length_range] at h1
    simp [List.getD_eq_getElem?_getD, List.getElem?_eq_getElem h1]

/-- The hard decisions of the message formed by `PolarEncoder`. -/
theorem mesg_hard (message : List Nat) :
    (PolarEncoder.mesg message).map (fun v => decide (v < 0)) =
      (List.range data_bits).map (get_le_bit message) ++
      (List.range 32).map (fun i => decide
        (((CRC.bytes crc_poly (message.take (data_bits / 8))) >>> i) &&& 1 = 1)) := by
  simp only [PolarEncoder.mesg, List.map_append, List.map_map, Function.comp_def, nrz_neg]

/-- C8 (CRC closure): for every 256-byte message, the 2080 values formed by
`PolarEncoder` (the 2048 data bits in little-endian bit order, then the 32
bits of the byte-wise CRC-32 with polynomial `0x8F6E37A0` from reset state
0, least significant bit first) have CRC zero under the bit-by-bit check
that `PolarDecoder` applies to the hard decisions of a candidate. -/
theorem crc_closure (message : List Nat) (hlen : message.length = mesg_bytes)
    (hb : ∀ m ∈ message, m < 256) :
    (PolarEncoder.mesg message).length = mesg_bits ∧
    (∀ i, i < data_bits →
      (PolarEncoder.mesg message).getD i 0 = nrz (get_le_bit message i)) ∧
    (∀ i, i < 32 →
      (PolarEncoder.mesg message).getD (data_bits + i) 0 =
        nrz (decide ((CRC.bytes crc_poly message >>> i) &&& 1 = 1))) ∧
    CRC.bits crc_poly ((PolarEncoder.mesg message).map (fun v => decide (v < 0))) = 0 ∧
    ∀ k, PolarDecoder.crc_of (fun i _ => (PolarEncoder.mesg message).getD i 0) k = 0 := by
  have htake : message.take (data_bits / 8) = message := by
    apply List.take_of_length_le
    rw [hlen]
    decide
  have hl : (PolarEncoder.mesg message).length = mesg_bits := by
    simp [PolarEncoder.mesg]
  have hcrc : CRC.bits crc_poly ((PolarEncoder.mesg message).map (fun v => decide (v < 0))) = 0 := by
    rw [mesg_hard, htake, CRC.bits, List.foldl_append]
    have hd : data_bits = 8 * message.length := by rw [hlen]; rfl
    rw [hd, crc_bits_eq_bytes crc_poly message 0 hb]
    show ((List.range 32).map _).foldl (CRC.update crc_poly) (CRC.bytes crc_poly message) = 0
    rw [CRC.feed_own_bits, Nat.shiftRight_eq_div_pow]
    apply Nat.div_eq_of_lt
    exact CRC.bytes_foldl_lt crc_poly message 0 (by decide) (by decide) hb
  refine ⟨hl, ?_, ?_, hcrc, ?_⟩
  · intro i hi
    simp only [PolarEncoder.mesg, List.getD_eq_getElem?_getD]
    rw [List.getElem?_append_left (by simpa using hi), List.getElem?_map,
      List.getElem?_range hi]
    rfl
  · intro i hi
    simp only [PolarEncoder.mesg, List.getD_eq_getElem?_getD, htake]
    rw [List.getElem?_append_right (by simp), List.getElem?_map]
    simp only [List.length_map, List.length_range, Nat.add_sub_cancel_left]
    rw [List.getElem?_range hi]
    rfl
  · intro k
    unfold PolarDecoder.crc_of
    rw [map_getD_range _ _ hl (fun v => decide (v < 0))]
    exact hcrc

/-- C8 witness: the all-zero message. -/
theorem crc_closure_witness :
    (List.replicate 256 0).length = mesg_bytes ∧ (∀ m ∈ List.replicate 256 0, m < 256) ∧
    CRC.bits crc_poly
      ((PolarEncoder.mesg (List.replicate 256 0)).map (fun v => decide (v < 0))) = 0 :=
  ⟨List.length_replicate 256 0,
    fun m hm => by have := (List.mem_replicate.1 hm).2; omega,
    (crc_closure (List.replicate 256 0) (List.length_replicate 256 0)
      (fun m hm => by have := (List.mem_replicate.1 hm).2; omega)).2.2.2.1⟩

/-! ## Bit access -/

theorem get_le_bit_eq_testBit (buf : List Nat) (i : Nat) :
    get_le_bit buf i = (buf.getD (i / 8) 0).testBit (i % 8) := by
  unfold get_le_bit Nat.testBit
  generalize buf.getD (i / 8) 0 >>> (i % 8) = x
  rw [Nat.and_comm 1]
  rcases CRC.and_one_cases x with h | h <;> rw [h] <;> rfl

theorem testBit_set_byte (b k j : Nat) (v : Bool) (hj : j < 8) :
    (((255 ^^^ (1 <<< k)) &&& b) ||| ((if v then 1 else 0) <<< k)).testBit j =
      if j = k then v else b.testBit j := by
  have h255 : (255 : Nat) = 2 ^ 8 - 1 := by norm_num
  rw [Nat.one_shiftLeft, Nat.testBit_or, Nat.testBit_and, Nat.testBit_xor,
    Nat.testBit_shiftLeft, Nat.testBit_two_pow, h255, Nat.testBit_two_pow_sub_one]
  by_cases hjk : j = k
  · subst hjk
    cases v <;> simp [hj]
  · have hkj : ¬ k = j := fun h => hjk h.symm
    by_cases hge : j ≥ k
    · have hne : j - k ≠ 0 := by omega
      have h1 : (1 : Nat).testBit (j - k) = false := by
        cases h : (1 : Nat).testBit (j - k)
        · rfl
        · exact absurd (Nat.testBit_one_eq_true_iff_self_eq_zero.1 h) hne
      cases v <;> simp [hj, hjk, hkj, h1]
    · simp [hj, hjk, hkj, hge]

/-- Reading a bit after `set_le_bit`. -/
theorem get_set_le_bit (buf : List Nat) (i t : Nat) (v : Bool) (hi : i / 8 < buf.length) :
    get_le_bit (set_le_bit buf i v) t = if t = i then v else get_le_bit buf t := by
  rw [get_le_bit_eq_testBit, get_le_bit_eq_testBit]
  unfold set_le_bit
  rw [List.getD_eq_getElem?_getD, List.getElem?_set]
  by_cases hq : i / 8 = t / 8
  · rw [if_pos hq, if_pos hi, Option.getD_some, testBit_set_byte _ _ _ _ (Nat.mod_lt _ (by omega))]
    by_cases ht : t = i
    · subst ht
      simp
    · have : ¬ t % 8 = i % 8 := by omega
      rw [if_neg this, if_neg ht, ← hq]
  · rw [if_neg hq]
    have ht : ¬ t = i := fun h => hq (by rw [h])
    rw [if_neg ht, List.getD_eq_getElem?_getD]

/-! ## Polar decoder wrapper -/

namespace PolarDecoder

theorem sorted_order_perm (P : PolarKit) (metric : Nat → Int) :
    (sorted_order P metric).Perm (List.range P.SIZE) :=
  List.perm_insertionSort _ _

theorem sorted_order_sorted (P : PolarKit) (metric : Nat → Int) :
    (sorted_order P metric).Sorted (fun a b => metric a ≤ metric b) := by
  haveI : IsTotal Nat (fun a b => metric a ≤ metric b) :=
    ⟨fun a b => le_total (metric a) (metric b)⟩
  haveI : IsTrans Nat (fun a b => metric a ≤ metric b) :=
    ⟨fun a b c h1 h2 => le_trans h1 h2⟩
  exact List.sorted_insertionSort _ _

theorem mem_sorted_order (P : PolarKit) (metric : Nat → Int) (k : Nat) :
    k ∈ sorted_order P metric ↔ k < P.SIZE := by
  rw [(sorted_order_perm P metric).mem_iff, List.mem_range]

/-- No lane is selected exactly when no lane has CRC zero. -/
theorem select_eq_none (P : PolarKit) (metric : Nat → Int) (mesg : Nat → Nat → Int) :
    select mesg (sorted_order P metric) = none ↔ ∀ k, k < P.SIZE → crc_of mesg k ≠ 0 := by
  unfold select
  rw [List.find?_eq_none]
  constructor
  · intro h k hk
    have := h k ((mem_sorted_order P metric k).2 hk)
    simpa using this
  · intro h k hk
    have := h k ((mem_sorted_order P metric k).1 hk)
    simpa using this

/-- The selected lane has CRC zero, comes first among such lanes in the
sorted order, and no lane with CRC zero has a smaller metric. -/
theorem select_eq_some (P : PolarKit) (metric : Nat → Int) (mesg : Nat → Nat → Int)
    (best : Nat) (h : select mesg (sorted_order P metric) = some best) :
    best < P.SIZE ∧ crc_of mesg best = 0 ∧
    (∃ pre post, sorted_order P metric = pre ++ best :: post ∧
      ∀ k ∈ pre, crc_of mesg k ≠ 0) ∧
    ∀ k, k < P.SIZE → crc_of mesg k = 0 → metric best ≤ metric k := by
  unfold select at h
  obtain ⟨h1, pre, post, h2, h3⟩ := List.find?_eq_some.1 h
  have hb : best ∈ sorted_order P metric := by rw [h2]; simp
  have h3n : ∀ k ∈ pre, crc_of mesg k ≠ 0 := by
    intro k hk
    have := h3 k hk
    simpa using this
  refine ⟨(mem_sorted_order P metric best).1 hb, by simpa using h1, ⟨pre, post, h2, h3n⟩, ?_⟩
  intro k hk hz
  have hmem : k ∈ pre ++ best :: post := by
    rw [← h2]; exact (mem_sorted_order P metric k).2 hk
  have hs := sorted_order_sorted P metric
  rw [h2] at hs
  rcases List.mem_append.1 hmem with hp | hp
  · exact absurd hz (h3n k hp)
  · rcases List.mem_cons.1 hp with he | hq
    · rw [he]
    · have := (List.pairwise_append.1 hs).2.1
      exact (List.pairwise_cons.1 this).1 k hq

theorem next_info_some (P : PolarKit) (d j fuel : Nat) (hd : j + d ≤ code_len) (hf : d ≤ fuel)
    (hc : 1 ≤ info_count P d j) :
    ∃ j1 d1, next_info P fuel j = some j1 ∧ j1 + 1 + d1 = j + d ∧
      info_count P d1 (j1 + 1) + 1 = info_count P d j ∧ frozen_bit P j1 = false := by
  induction d generalizing j fuel with
  | zero => simp [info_count] at hc
  | succ d ih =>
    cases fuel with
    | zero => omega
    | succ fuel =>
      have hj : ¬ code_len ≤ j := by omega
      have hj4 : j < 4096 := by rw [code_len_eq] at hj; omega
      cases hfz : frozen_bit P j
      · refine ⟨j, d, ?_, by omega, ?_, hfz⟩
        · simp [next_info, hj4, hfz]
        · simp [info_count, hfz]; omega
      · have hc2 : 1 ≤ info_count P d (j + 1) := by
          simpa [info_count, hfz] using hc
        obtain ⟨j1, d1, h1, h2, h3, h4⟩ := ih (j + 1) fuel (by omega) (by omega) hc2
        refine ⟨j1, d1, ?_, by omega, ?_, h4⟩
        · simp [next_info, hj4, hfz, h1]
        · simp [info_count, hfz, h3]

/-- With enough non-frozen positions left, the flips loop completes, counts
at most one flip per data bit and writes the hard decisions of `best`. -/
theorem flips_loop_spec (P : PolarKit) (code : List Int) (mesg : Nat → Nat → Int) (best : Nat)
    (n i j flips : Nat) (message : List Nat) (d : Nat) (hd : j + d = code_len)
    (hc : n ≤ info_count P d j) :
    ∃ fl out, flips_loop P code mesg best n i j flips message = some (fl, out) ∧
      flips ≤ fl ∧ fl ≤ flips + n ∧ out.length = message.length ∧
      (i + n ≤ 8 * message.length →
        (∀ t, i ≤ t → t < i + n → get_le_bit out t = decide (mesg t best < 0)) ∧
        (∀ t, t < i → get_le_bit out t = get_le_bit message t)) := by
  induction n generalizing i j flips message d with
  | zero =>
    refine ⟨flips, message, rfl, le_refl _, le_refl _, rfl, ?_⟩
    intro _
    exact ⟨fun t h1 h2 => by omega, fun t _ => rfl⟩
  | succ n ih =>
    obtain ⟨j1, d1, h1, h2, h3, _⟩ := next_info_some P d j code_len (by omega) (by omega)
      (by omega)
    obtain ⟨fl, out, r1, r2, r3, r4, r5⟩ := ih (i + 1) (j1 + 1)
      (flips + (if decide (code.getD j1 0 < 0) ≠ decide (mesg i best < 0) then 1 else 0))
      (set_le_bit message i (decide (mesg i best < 0))) d1 (by omega) (by omega)
    have hlen : (set_le_bit message i (decide (mesg i best < 0))).length = message.length := by
      simp [set_le_bit]
    refine ⟨fl, out, ?_, ?_, ?_, by rw [r4, hlen], ?_⟩
    · rw [flips_loop, h1]
      exact r1
    · have : flips ≤ flips +
          (if decide (code.getD j1 0 < 0) ≠ decide (mesg i best < 0) then 1 else 0) := by omega
      omega
    · have : (if decide (code.getD j1 0 < 0) ≠ decide (mesg i best < 0) then 1 else 0) ≤ 1 := by
        split_ifs <;> omega
      omega
    · intro hb
      rw [hlen] at r5
      obtain ⟨b1, b2⟩ := r5 (by omega)
      have hi : i / 8 < message.length := by omega
      constructor
      · intro t ht1 ht2
        by_cases hti : t = i
        · subst hti
          rw [b2 t (by omega), get_set_le_bit _ _ _ _ hi, if_pos rfl]
        · exact b1 t (by omega) (by omega)
      · intro t ht
        rw [b2 t (by omega), get_set_le_bit _ _ _ _ hi, if_neg (by omega)]

theorem info_count_plain (d j : Nat) : info_count plain_kit d j = d := by
  induction d generalizing j with
  | zero => rfl
  | succ d ih =>
    have : frozen_bit plain_kit j = false := by simp [frozen_bit, plain_kit]
    simp [info_count, this, ih]
    omega

/-- C6 (polar decoder result): with a frozen table that leaves at least
`data_bits` non-frozen positions, `PolarDecoder::operator()` returns for
every soft input and every list-decoder output; it returns -1 exactly when
none of the `SIZE` candidates has CRC-32 zero over its 2080 hard-decision
message bits, and otherwise a flips count in `[0, 2048]`. -/
theorem polar_result (P : PolarKit) (message : List Nat) (code : List Int)
    (hinfo : data_bits ≤ info_count P code_len 0) :
    ∃ r out, call P message code = some (r, out) ∧
      (r = -1 ↔ ∀ k, k < P.SIZE → crc_of (systematic P (P.decode code).2) k ≠ 0) ∧
      (r ≠ -1 → 0 ≤ r ∧ r ≤ 2048) := by
  unfold call
  simp only
  cases hsel : select (systematic P (P.decode code).2) (sorted_order P (P.decode code).1) with
  | none =>
    refine ⟨-1, message, rfl, ?_, fun h => absurd rfl h⟩
    simp only [true_iff]
    exact (select_eq_none P _ _).1 hsel
  | some best =>
    obtain ⟨fl, out, h1, _, h3, _, _⟩ := flips_loop_spec P code
      (systematic P (P.decode code).2) best data_bits 0 0 0 message code_len
      (Nat.zero_add _) hinfo
    obtain ⟨hb, hz, _, _⟩ := select_eq_some P _ _ best hsel
    refine ⟨(fl : Int), out, ?_, ?_, ?_⟩
    · simp only [h1, Option.map_some']
    · constructor
      · intro h
        omega
      · intro h
        exact absurd hz (h best hb)
    · intro _
      rw [data_bits_eq] at h3
      omega

/-- C6 witness: the plain instance (no frozen position). -/
theorem polar_result_witness :
    data_bits ≤ info_count plain_kit code_len 0 ∧
    ∃ r out, call plain_kit (List.replicate 256 0) (List.replicate 4096 1) = some (r, out) ∧
      (r = -1 ↔ ∀ k, k < plain_kit.SIZE →
        crc_of (systematic plain_kit (plain_kit.decode (List.replicate 4096 1)).2) k ≠ 0) ∧
      (r ≠ -1 → 0 ≤ r ∧ r ≤ 2048) :=
  ⟨by rw [info_count_plain]; decide,
    polar_result plain_kit (List.replicate 256 0) (List.replicate 4096 1)
      (by rw [info_count_plain]; decide)⟩

end PolarDecoder

/-! ## Encoder: deque and symbol emission -/

namespace Deque

variable {α : Type}

theorem foldl_push_front_items (f : Nat → α) (l : List Nat) (d : Deque α) :
    (l.foldl (fun b i => b.push_front (f i)) d).items = d.items ++ l.map f := by
  induction l generalizing d with
  | nil => simp
  | cons x xs ih =>
    simp only [List.foldl, List.map]
    rw [ih]
    simp [push_front]

theorem ext_items {d e : Deque α} (h : d.items = e.items) : d = e := by
  cases d; cases e; simp_all

end Deque

namespace Encoder

variable {σ α : Type}

@[simp] theorem symbol_items (K : EncoderKit σ α) (s : Encoder σ α) (g : Bool) :
    (symbol K s g).buffer.items = s.buffer.items ++ symbol_out K s.sig g := by
  cases g <;> simp [symbol, symbol_out, Deque.foldl_push_front_items]

@[simp] theorem symbol_sig (K : EncoderKit σ α) (s : Encoder σ α) (g : Bool) :
    (symbol K s g).sig = K.save_guard (K.bwd s.sig) := rfl

@[simp] theorem symbol_count_down (K : EncoderKit σ α) (s : Encoder σ α) (g : Bool) :
    (symbol K s g).count_down = s.count_down := rfl

@[simp] theorem symbol_noise_count (K : EncoderKit σ α) (s : Encoder σ α) (g : Bool) :
    (symbol K s g).noise_count = s.noise_count := rfl

@[simp] theorem symbol_symbol_number (K : EncoderKit σ α) (s : Encoder σ α) (g : Bool) :
    (symbol K s g).symbol_number = s.symbol_number := rfl

@[simp] theorem symbol_code (K : EncoderKit σ α) (s : Encoder σ α) (g : Bool) :
    (symbol K s g).code = s.code := rfl

@[simp] theorem symbol_mesg (K : EncoderKit σ α) (s : Encoder σ α) (g : Bool) :
    (symbol K s g).mesg = s.mesg := rfl

@[simp] theorem symbol_out_length (K : EncoderKit σ α) (sig : σ) (g : Bool) :
    (symbol_out K sig g).length = (if g then 32 else 0) + 256 := by
  cases g <;> simp [symbol_out]

theorem symbol_size (K : EncoderKit σ α) (s : Encoder σ α) (g : Bool) :
    (symbol K s g).buffer.size = s.buffer.size + ((if g then 32 else 0) + 256) := by
  simp [Deque.size]

/-! ### The branches of `produce` -/

theorem gate_iff (s : Encoder σ α) :
    s.buffer.size > s.buffer.max_size - 2 * extended_length ↔ 288 < s.buffer.size := by
  simp only [Deque.max_size, extended_length_eq]

theorem produce_gated (K : EncoderKit σ α) (s : Encoder σ α) (h : 288 < s.buffer.size) :
    produce K s = (false, s) := by
  rw [produce, if_pos ((gate_iff s).2 h)]

theorem produce_noise (K : EncoderKit σ α) (s : Encoder σ α) (h : s.buffer.size ≤ 288)
    (hc : s.count_down = 5) (hn : s.noise_count ≠ 0) :
    produce K s = (true, noise_symbol K { s with noise_count := s.noise_count - 1 }) := by
  rw [produce, if_neg (fun g => by have := (gate_iff s).1 g; omega), if_pos hc, if_pos hn]

theorem produce_fall_through (K : EncoderKit σ α) (s : Encoder σ α) (h : s.buffer.size ≤ 288)
    (hc : s.count_down = 5) (hn : s.noise_count = 0) :
    produce K s = (true, produce_case4 K { s with count_down := s.count_down - 1 }) := by
  rw [produce, if_neg (fun g => by have := (gate_iff s).1 g; omega), if_pos hc,
    if_neg (fun g => g hn)]

theorem produce_four (K : EncoderKit σ α) (s : Encoder σ α) (h : s.buffer.size ≤ 288)
    (hc : s.count_down = 4) :
    produce K s = (true, produce_case4 K s) := by
  rw [produce, if_neg (fun g => by have := (gate_iff s).1 g; omega),
    if_neg (by omega), if_pos hc]

theorem produce_three (K : EncoderKit σ α) (s : Encoder σ α) (h : s.buffer.size ≤ 288)
    (hc : s.count_down = 3) :
    produce K s = (true, { preamble K s 1 with count_down := (preamble K s 1).count_down - 1 }) := by
  rw [produce, if_neg (fun g => by have := (gate_iff s).1 g; omega),
    if_neg (by omega), if_neg (by omega), if_pos hc]

theorem produce_two_last (K : EncoderKit σ α) (s : Encoder σ α) (h : s.buffer.size ≤ 288)
    (hc : s.count_down = 2) (hs : s.symbol_number + 1 = payload_symbols) :
    produce K s = (true, { payload_symbol K s with
      symbol_number := (payload_symbol K s).symbol_number + 1,
      count_down := (payload_symbol K s).count_down - 1 }) := by
  rw [produce, if_neg (fun g => by have := (gate_iff s).1 g; omega),
    if_neg (by omega), if_neg (by omega), if_neg (by omega), if_pos hc]
  show (if s.symbol_number + 1 = payload_symbols then _ else _) = _
  rw [if_pos hs]

theorem produce_two (K : EncoderKit σ α) (s : Encoder σ α) (h : s.buffer.size ≤ 288)
    (hc : s.count_down = 2) (hs : s.symbol_number + 1 ≠ payload_symbols) :
    produce K s = (true, { payload_symbol K s with
      symbol_number := (payload_symbol K s).symbol_number + 1 }) := by
  rw [produce, if_neg (fun g => by have := (gate_iff s).1 g; omega),
    if_neg (by omega), if_neg (by omega), if_neg (by omega), if_pos hc]
  show (if s.symbol_number + 1 = payload_symbols then _ else _) = _
  rw [if_neg hs]

theorem produce_one (K : EncoderKit σ α) (s : Encoder σ α) (h : s.buffer.size ≤ 288)
    (hc : s.count_down = 1) :
    produce K s = (true, { silence K s with count_down := (silence K s).count_down - 1 }) := by
  rw [produce, if_neg (fun g => by have := (gate_iff s).1 g; omega),
    if_neg (by omega), if_neg (by omega), if_neg (by omega), if_neg (by omega), if_pos hc]

theorem produce_idle (K : EncoderKit σ α) (s : Encoder σ α)
    (hc : s.count_down < 1 ∨ 5 < s.count_down) :
    produce K s = (false, s) := by
  rw [produce]
  split_ifs <;> first | rfl | omega

/-- The cases of `produce`, by gate and `count_down`. -/
theorem produce_cases (s : Encoder σ α) :
    288 < s.buffer.size ∨ (s.count_down < 1 ∨ 5 < s.count_down) ∨
    (s.buffer.size ≤ 288 ∧
      ((s.count_down = 5 ∧ s.noise_count ≠ 0) ∨ (s.count_down = 5 ∧ s.noise_count = 0) ∨
       s.count_down = 4 ∨ s.count_down = 3 ∨
       (s.count_down = 2 ∧ s.symbol_number + 1 = payload_symbols) ∨
       (s.count_down = 2 ∧ s.symbol_number + 1 ≠ payload_symbols) ∨ s.count_down = 1)) := by
  by_cases hn : s.noise_count = 0 <;> by_cases hs : s.symbol_number + 1 = payload_symbols <;>
    simp only [hn, hs, ne_eq, not_true_eq_false, not_false_eq_true, and_true, and_false,
      or_false, false_or] <;> omega

/-- One produce step never leaves more than `288 + 544` queued samples when
it emits, and leaves the deque alone otherwise. -/
theorem produce_size (K : EncoderKit σ α) (s : Encoder σ α) :
    ((produce K s).1 = false ∧ (produce K s).2 = s) ∨
    ((produce K s).1 = true ∧ s.buffer.size ≤ 288 ∧
      s.buffer.size + 256 ≤ (produce K s).2.buffer.size ∧
      (produce K s).2.buffer.size ≤ s.buffer.size + 544) := by
  rcases produce_cases s with h | h | ⟨h, h1 | h1 | h1 | h1 | h1 | h1 | h1⟩
  · left; rw [produce_gated K s h]; exact ⟨rfl, rfl⟩
  · left; rw [produce_idle K s h]; exact ⟨rfl, rfl⟩
  · right; rw [produce_noise K s h h1.1 h1.2]
    simp only [noise_symbol, symbol_size, true_and, if_true]; omega
  · right; rw [produce_fall_through K s h h1.1 h1.2]
    simp only [produce_case4, schmidl_cox, symbol_size, true_and, if_true]
    simp; omega
  · right; rw [produce_four K s h h1]
    simp only [produce_case4, schmidl_cox, symbol_size, true_and, if_true]
    simp; omega
  · right; rw [produce_three K s h h1]
    simp only [preamble, symbol_size, true_and, if_true]; omega
  · right; rw [produce_two_last K s h h1.1 h1.2]
    simp only [payload_symbol, symbol_size, true_and, if_true]; omega
  · right; rw [produce_two K s h h1.1 h1.2]
    simp only [payload_symbol, symbol_size, true_and, if_true]; omega
  · right; rw [produce_one K s h h1]
    simp only [silence, symbol_size, true_and, if_true]; omega

/-! ### The deque bound -/

theorem max_size_eq (d : Deque α) : d.max_size = 864 := by
  simp only [Deque.max_size, extended_length_eq]

theorem produce_size_le (K : EncoderKit σ α) (s : Encoder σ α) (h : s.buffer.size ≤ 864) :
    (produce K s).2.buffer.size ≤ 864 := by
  rcases produce_size K s with ⟨_, h2⟩ | ⟨_, h2, _, h4⟩
  · rw [h2]; exact h
  · omega

theorem read_sample_size_le (K : EncoderKit σ α) (s : Encoder σ α) (h : s.buffer.size ≤ 864) :
    (read_sample K s).2.buffer.size ≤ 864 := by
  have hp := produce_size_le K s h
  unfold read_sample
  simp only
  split_ifs
  · simp only [Deque.pop_back, Deque.size, List.length_tail]
    simp only [Deque.size] at hp
    omega
  · exact hp

theorem read_loop_size_le (K : EncoderKit σ α) (n : Nat) (s : Encoder σ α)
    (h : s.buffer.size ≤ 864) : (read_loop K n s).2.buffer.size ≤ 864 := by
  induction n generalizing s with
  | zero => exact h
  | succ n ih => exact ih _ (read_sample_size_le K s h)

theorem run_size_le (K : EncoderKit σ α) (calls : List Call) (s : Encoder σ α)
    (h : s.buffer.size ≤ 864) : (run K s calls).buffer.size ≤ 864 := by
  induction calls generalizing s with
  | nil => exact h
  | cons c cs ih =>
    cases c with
    | init payload => exact ih _ h
    | read n => exact ih _ (read_loop_size_le K n s h)

/-- C2 (encoder deque bound): at every point of every sequence of `init`
and `read` calls on a constructed encoder, before and immediately after the
produce step, the deque holds at most `3 * extended_length = 864` floats;
produce emits only when at most `max_size - 2 * extended_length = 288` are
queued, and the step that emits the Schmidl-Cox pair pushes
`288 + 256 = 544` samples at once.  (Within a step the size only grows, so
the bound after the step covers the pushes in between.) -/
theorem encoder_deque_bound (K : EncoderKit σ α) (sig0 : σ) (calls : List Call) (i : Nat) :
    (state_at K sig0 calls i).buffer.max_size = 3 * extended_length ∧
    3 * extended_length = 864 ∧
    (state_at K sig0 calls i).buffer.size ≤ 864 ∧
    (produce K (state_at K sig0 calls i)).2.buffer.size ≤ 864 ∧
    ((produce K (state_at K sig0 calls i)).1 = true →
      (state_at K sig0 calls i).buffer.size ≤
        (state_at K sig0 calls i).buffer.max_size - 2 * extended_length ∧
      (state_at K sig0 calls i).buffer.size ≤ 288) ∧
    ((produce K (state_at K sig0 calls i)).1 = true →
      ((state_at K sig0 calls i).count_down = 4 ∨
        ((state_at K sig0 calls i).count_down = 5 ∧
          (state_at K sig0 calls i).noise_count = 0)) →
      (produce K (state_at K sig0 calls i)).2.buffer.size =
        (state_at K sig0 calls i).buffer.size + 544) := by
  have hs : (state_at K sig0 calls i).buffer.size ≤ 864 :=
    read_loop_size_le K i _ (run_size_le K calls _ (Nat.zero_le 864))
  generalize state_at K sig0 calls i = s at hs ⊢
  refine ⟨rfl, by simp, hs, produce_size_le K s hs, ?_, ?_⟩
  · intro he
    rcases produce_size K s with ⟨h1, _⟩ | ⟨_, h2, _, _⟩
    · rw [h1] at he; cases he
    · rw [max_size_eq]; simp only [extended_length_eq]; omega
  · intro he hc
    have h288 : s.buffer.size ≤ 288 := by
      rcases produce_size K s with ⟨h1, _⟩ | ⟨_, h2, _, _⟩
      · rw [h1] at he; cases he
      · exact h2
    rcases hc with hc | ⟨hc, hn⟩
    · rw [produce_four K s h288 hc]
      simp only [produce_case4, schmidl_cox, symbol_size]
      simp
    · rw [produce_fall_through K s h288 hc hn]
      simp only [produce_case4, schmidl_cox, symbol_size]
      simp

/-! ### Frame order -/

theorem phase_zero_init (K : EncoderKit σ α) (s : Encoder σ α) (payload : List Nat) :
    Phase 0 (init K s payload) :=
  ⟨by omega, rfl, rfl, rfl⟩

theorem frame_eq_map : frame = (List.range 49).map emission_at := by decide

theorem frame_getElem (k : Nat) (hk : k < 49) : frame[k]? = some (emission_at k) := by
  rw [frame_eq_map, List.getElem?_map, List.getElem?_range hk]
  rfl

theorem emits_noise (K : EncoderKit σ α) (s : Encoder σ α) (n : Int) :
    Emits K Emission.noise s (noise_symbol K { s with noise_count := n }) :=
  ⟨by simp only [noise_symbol, symbol_sig],
   Deque.ext_items (by simp only [noise_symbol, symbol_items])⟩

theorem emits_pair (K : EncoderKit σ α) (s : Encoder σ α) (n : Int) :
    Emits K Emission.schmidl_cox_pair s (produce_case4 K { s with count_down := n }) :=
  ⟨by simp only [produce_case4, schmidl_cox, symbol_sig],
   Deque.ext_items (by simp only [produce_case4, schmidl_cox, symbol_items, symbol_sig]),
   by simp only [produce_case4, schmidl_cox, symbol_size]; simp⟩

theorem emits_preamble (K : EncoderKit σ α) (s : Encoder σ α) (n : Int) :
    Emits K Emission.preamble s { preamble K s 1 with count_down := n } := by
  simp only [Emits, and_self]

theorem emits_payload (K : EncoderKit σ α) (s : Encoder σ α) (n m : Int) :
    Emits K (Emission.payload s.symbol_number) s
      { payload_symbol K s with symbol_number := n, count_down := m } := by
  simp only [Emits, and_self]

theorem emits_silence (K : EncoderKit σ α) (s : Encoder σ α) (n : Int) :
    Emits K Emission.silence s { silence K s with count_down := n } := by
  simp only [Emits, and_self]

/-- An ungated produce step after `k < 49` emissions performs emission
number `k` and moves the control state on. -/
theorem produce_phase (K : EncoderKit σ α) (s : Encoder σ α) (k : Nat) (hk : k < 49)
    (hp : Phase k s) (h : s.buffer.size ≤ 288) :
    (produce K s).1 = true ∧ Phase (k + 1) (produce K s).2 ∧
    Emits K (emission_at k) s (produce K s).2 := by
  obtain ⟨_, hcd, hnc, hsn⟩ := hp
  have hr : k < 14 ∨ k = 14 ∨ k = 15 ∨ (16 ≤ k ∧ k < 47) ∨ k = 47 ∨ k = 48 := by omega
  rcases hr with hr | hr | hr | hr | hr | hr
  · have h1 : s.count_down = 5 := by rw [hcd]; unfold phase_count_down; split_ifs <;> omega
    have h2 : s.noise_count = 14 - (k : Int) := by
      rw [hnc]; unfold phase_noise_count; rw [if_pos hr]
    have he : emission_at k = Emission.noise := by
      unfold emission_at; rw [if_pos hr]
    rw [produce_noise K s h h1 (by omega), he]
    refine ⟨rfl, ⟨by omega, ?_, ?_, ?_⟩, emits_noise K s _⟩
    · show s.count_down = _
      rw [h1]; unfold phase_count_down; split_ifs <;> omega
    · show s.noise_count - 1 = _
      rw [h2]; unfold phase_noise_count; split_ifs <;> omega
    · show s.symbol_number = _
      rw [hsn]; unfold phase_symbol_number; split_ifs <;> omega
  · subst hr
    have h1 : s.count_down = 5 := by rw [hcd]; rfl
    have h2 : s.noise_count = 0 := by rw [hnc]; rfl
    rw [produce_fall_through K s h h1 h2]
    refine ⟨rfl, ⟨by omega, ?_, ?_, ?_⟩, emits_pair K s _⟩
    · show s.count_down - 1 - 1 = _
      rw [h1]; rfl
    · exact h2
    · exact hsn
  · subst hr
    have h1 : s.count_down = 3 := by rw [hcd]; rfl
    rw [produce_three K s h h1]
    refine ⟨rfl, ⟨by omega, ?_, ?_, ?_⟩, emits_preamble K s _⟩
    · show s.count_down - 1 = _
      rw [h1]; rfl
    · exact hnc
    · exact hsn
  · have h1 : s.count_down = 2 := by rw [hcd]; unfold phase_count_down; split_ifs <;> omega
    have h2 : s.noise_count = 0 := by rw [hnc]; unfold phase_noise_count; split_ifs <;> omega
    have h3 : s.symbol_number = (k : Int) - 16 := by
      rw [hsn]; unfold phase_symbol_number; split_ifs <;> omega
    have he : emission_at k = Emission.payload s.symbol_number := by
      rw [h3]; unfold emission_at; split_ifs <;> first | rfl | omega
    rw [produce_two K s h h1 (by rw [payload_symbols_eq]; omega), he]
    refine ⟨rfl, ⟨by omega, ?_, ?_, ?_⟩, emits_payload K s _ _⟩
    · show s.count_down = _
      rw [h1]; unfold phase_count_down; split_ifs <;> omega
    · show s.noise_count = _
      rw [h2]; unfold phase_noise_count; split_ifs <;> omega
    · show s.symbol_number + 1 = _
      rw [h3]; unfold phase_symbol_number; split_ifs <;> omega
  · subst hr
    have h1 : s.count_down = 2 := by rw [hcd]; rfl
    have h3 : s.symbol_number = 31 := by rw [hsn]; rfl
    have he : emission_at 47 = Emission.payload s.symbol_number := by rw [h3]; rfl
    rw [produce_two_last K s h h1 (by rw [payload_symbols_eq]; omega), he]
    refine ⟨rfl, ⟨by omega, ?_, ?_, ?_⟩, emits_payload K s _ _⟩
    · show s.count_down - 1 = _
      rw [h1]; rfl
    · exact hnc
    · show s.symbol_number + 1 = _
      rw [h3]; rfl
  · subst hr
    have h1 : s.count_down = 1 := by rw [hcd]; rfl
    rw [produce_one K s h h1]
    refine ⟨rfl, ⟨by omega, ?_, ?_, ?_⟩, emits_silence K s _⟩
    · show s.count_down - 1 = _
      rw [h1]; rfl
    · exact hnc
    · exact hsn

theorem read_sample_ctl (K : EncoderKit σ α) (s : Encoder σ α) :
    (read_sample K s).2.count_down = (produce K s).2.count_down ∧
    (read_sample K s).2.noise_count = (produce K s).2.noise_count ∧
    (read_sample K s).2.symbol_number = (produce K s).2.symbol_number := by
  unfold read_sample
  simp only
  split_ifs <;> exact ⟨rfl, rfl, rfl⟩

theorem read_sample_size (K : EncoderKit σ α) (s : Encoder σ α) :
    (read_sample K s).2.buffer.size = (produce K s).2.buffer.size - 1 := by
  unfold read_sample
  simp only
  split_ifs with h
  · simp only [Deque.pop_back, Deque.size, List.length_tail]
  · simp only [ne_eq, not_not] at h
    rw [h]

theorem read_sample_phase (K : EncoderKit σ α) (s : Encoder σ α) (k : Nat)
    (h : Phase k (produce K s).2) : Phase k (read_sample K s).2 := by
  obtain ⟨h1, h2, h3⟩ := read_sample_ctl K s
  exact ⟨h.le, h1.trans h.cd, h2.trans h.nc, h3.trans h.sn⟩

theorem produce_phase_end (K : EncoderKit σ α) (s : Encoder σ α) (hp : Phase 49 s) :
    produce K s = (false, s) :=
  produce_idle K s (Or.inl (by rw [hp.cd]; decide))

/-- The emitting produce steps met while reading `n` samples from a state
that has made `k` emissions are emissions `k, k+1, ...` of the frame. -/
theorem emitting_steps_phase (K : EncoderKit σ α) (n : Nat) (s : Encoder σ α) (k : Nat)
    (hp : Phase k s) :
    k + (emitting_steps K n s).length ≤ 49 ∧
    Phase (k + (emitting_steps K n s).length) (read_loop K n s).2 ∧
    ∀ (i : Nat) (p : Encoder σ α × Encoder σ α), (emitting_steps K n s)[i]? = some p →
      Phase (k + i) p.1 ∧ p.1.buffer.size ≤ 288 ∧ p.2 = (produce K p.1).2 ∧
      Emits K (emission_at (k + i)) p.1 p.2 := by
  induction n generalizing s k with
  | zero =>
    refine ⟨hp.le, hp, ?_⟩
    intro i p h
    simp [emitting_steps] at h
  | succ n ih =>
    have hloop : (read_loop K (n + 1) s).2 = (read_loop K n (read_sample K s).2).2 := rfl
    rw [hloop]
    by_cases hg : 288 < s.buffer.size
    · have hprod := produce_gated K s hg
      have hstep : emitting_steps K (n + 1) s = emitting_steps K n (read_sample K s).2 := by
        rw [emitting_steps, hprod]; rfl
      rw [hstep]
      exact ih _ k (read_sample_phase K s k (by rw [hprod]; exact hp))
    · by_cases hk : k = 49
      · subst hk
        have hprod := produce_phase_end K s hp
        have hstep : emitting_steps K (n + 1) s = emitting_steps K n (read_sample K s).2 := by
          rw [emitting_steps, hprod]; rfl
        rw [hstep]
        exact ih _ 49 (read_sample_phase K s 49 (by rw [hprod]; exact hp))
      · have hk2 : k < 49 := by have := hp.le; omega
        obtain ⟨h1, h2, h3⟩ := produce_phase K s k hk2 hp (by omega)
        have hstep : emitting_steps K (n + 1) s =
            (s, (produce K s).2) :: emitting_steps K n (read_sample K s).2 := by
          rw [emitting_steps, if_pos h1]
        rw [hstep]
        obtain ⟨i1, i2, i3⟩ := ih _ (k + 1) (read_sample_phase K s (k + 1) h2)
        simp only [List.length_cons]
        refine ⟨by omega, ?_, ?_⟩
        · have e : k + ((emitting_steps K n (read_sample K s).2).length + 1) =
              k + 1 + (emitting_steps K n (read_sample K s).2).length := by omega
          rw [e]; exact i2
        · intro i p h
          cases i with
          | zero =>
            simp only [List.getElem?_cons_zero, Option.some.injEq] at h
            subst h
            exact ⟨hp, Nat.le_of_not_lt hg, rfl, h3⟩
          | succ j =>
            simp only [List.getElem?_cons_succ] at h
            have e : k + (j + 1) = k + 1 + j := by omega
            rw [e]
            exact i3 j p h

/-- Once `545` samples per outstanding emission plus the queued samples
have been read, every emission of the frame has been made. -/
theorem emitting_steps_complete (K : EncoderKit σ α) (n : Nat) (s : Encoder σ α) (k : Nat)
    (hp : Phase k s) (hn : 545 * (49 - k) + s.buffer.size ≤ n) :
    (emitting_steps K n s).length = 49 - k := by
  induction n generalizing s k with
  | zero =>
    have := hp.le
    have : k = 49 := by omega
    subst this
    rfl
  | succ n ih =>
    by_cases hg : 288 < s.buffer.size
    · have hprod := produce_gated K s hg
      have hstep : emitting_steps K (n + 1) s = emitting_steps K n (read_sample K s).2 := by
        rw [emitting_steps, hprod]; rfl
      rw [hstep]
      refine ih _ k (read_sample_phase K s k (by rw [hprod]; exact hp)) ?_
      rw [read_sample_size, hprod]
      show 545 * (49 - k) + (s.buffer.size - 1) ≤ n
      omega
    · by_cases hk : k = 49
      · have := (emitting_steps_phase K (n + 1) s k hp).1
        omega
      · have hk2 : k < 49 := by have := hp.le; omega
        obtain ⟨h1, h2, _⟩ := produce_phase K s k hk2 hp (by omega)
        have hstep : emitting_steps K (n + 1) s =
            (s, (produce K s).2) :: emitting_steps K n (read_sample K s).2 := by
          rw [emitting_steps, if_pos h1]
        rw [hstep, List.length_cons, ih _ (k + 1) (read_sample_phase K s (k + 1) h2)]
        · omega
        · rw [read_sample_size]
          rcases produce_size K s with ⟨h5, _⟩ | ⟨_, _, _, h6⟩
          · rw [h1] at h5; cases h5
          · omega

/-- Every state reached by `init` and `read` calls on a constructed encoder
has the control state of some number `k ≤ 49` of emissions, so
`count_down ∈ [0, 5]`, `noise_count ∈ [0, 14]` and `symbol_number ∈ [0, 32]`:
the `int` counters never wrap. -/
theorem run_phase (K : EncoderKit σ α) (sig0 : σ) (calls : List Call) :
    ∃ k, Phase k (run K (fresh sig0) calls) := by
  have key : ∀ (cs : List Call) (s : Encoder σ α) (k : Nat), Phase k s →
      ∃ k1, Phase k1 (run K s cs) := by
    intro cs
    induction cs with
    | nil => exact fun s k h => ⟨k, h⟩
    | cons c cs ih =>
      intro s k h
      cases c with
      | init payload => exact ih _ 0 (phase_zero_init K s payload)
      | read n => exact ih _ _ (emitting_steps_phase K n s k h).2.1
  exact key calls _ 49 ⟨le_refl _, rfl, rfl, rfl⟩

/-- C3 (frame order): among the produce steps run while any number `n` of
samples is read after `init`, those that emit are, in order, the emissions
of the frame `14·Noise, SchmidlCoxPair, Preamble, Payload 0 .. Payload 31,
Silence` (49 steps, all of them made once enough samples were read); the
step taken with `count_down == 5` and `noise_count == 0` emits the pair (a
symbol with guard, then one without) itself and leaves `count_down == 3`;
the silence step leaves `count_down == 0`, and from then on no produce step
emits. -/
theorem frame_order (K : EncoderKit σ α) (s : Encoder σ α) (payload : List Nat) (n : Nat) :
    frame.length = 49 ∧
    (emitting_steps K n (init K s payload)).length ≤ 49 ∧
    (∀ (i : Nat) (p : Encoder σ α × Encoder σ α),
      (emitting_steps K n (init K s payload))[i]? = some p →
      ∃ e, frame[i]? = some e ∧ Emits K e p.1 p.2) ∧
    (545 * 49 + s.buffer.size ≤ n → (emitting_steps K n (init K s payload)).length = 49) ∧
    (∀ t : Encoder σ α, t.buffer.size ≤ 288 → t.count_down = 5 → t.noise_count = 0 →
      (produce K t).1 = true ∧ Emits K Emission.schmidl_cox_pair t (produce K t).2 ∧
      (produce K t).2.count_down = 3) ∧
    (∀ p : Encoder σ α × Encoder σ α,
      (emitting_steps K n (init K s payload))[48]? = some p →
      Emits K Emission.silence p.1 p.2 ∧ p.2.count_down = 0 ∧
      (read_loop K n (init K s payload)).2.count_down = 0 ∧
      ∀ m, emitting_steps K m (read_loop K n (init K s payload)).2 = []) ∧
    (∀ t : Encoder σ α, t.count_down = 0 → produce K t = (false, t)) := by
  have h0 := phase_zero_init K s payload
  obtain ⟨h1, h2, h3⟩ := emitting_steps_phase K n _ 0 h0
  refine ⟨by decide, by omega, ?_, ?_, ?_, ?_, ?_⟩
  · intro i p hi
    obtain ⟨_, _, _, h4⟩ := h3 i p hi
    have hlt : i < 49 := by
      have := (List.getElem?_eq_some_iff.1 hi).1
      omega
    rw [Nat.zero_add] at h4
    exact ⟨emission_at i, frame_getElem i hlt, h4⟩
  · intro hn
    have := emitting_steps_complete K n _ 0 h0 (by
      show 545 * (49 - 0) + s.buffer.size ≤ n
      omega)
    simpa using this
  · intro t ht hc hn
    rw [produce_fall_through K t ht hc hn]
    refine ⟨rfl, emits_pair K t _, ?_⟩
    show t.count_down - 1 - 1 = 3
    omega
  · intro p hp
    obtain ⟨h4, h5, h6, h7⟩ := h3 48 p hp
    have hlen : (emitting_steps K n (init K s payload)).length = 49 := by
      have := (List.getElem?_eq_some_iff.1 hp).1
      omega
    have h8 := (produce_phase K p.1 48 (by omega) h4 h5).2.1
    rw [← h6] at h8
    rw [hlen] at h2
    refine ⟨h7, by rw [h8.cd]; rfl, by rw [h2.cd]; rfl, ?_⟩
    intro m
    have := (emitting_steps_phase K m _ 49 h2).1
    exact List.eq_nil_of_length_eq_zero (by omega)
  · intro t ht
    exact produce_idle K t (Or.inl (by omega))

/-! ### The sample stream -/

theorem eq_of_fields {s t : Encoder σ α} (h1 : s.sig = t.sig)
    (h2 : s.buffer.items = t.buffer.items) (h3 : s.mesg = t.mesg) (h4 : s.code = t.code)
    (h5 : s.symbol_number = t.symbol_number) (h6 : s.count_down = t.count_down)
    (h7 : s.noise_count = t.noise_count) : s = t := by
  cases s
  cases t
  simp only [Encoder.mk.injEq]
  exact ⟨h1, Deque.ext_items h2, h3, h4, h5, h6, h7⟩

theorem frame_samples_buffer (K : EncoderKit σ α) (f : Nat) (s : Encoder σ α) (b : Deque α) :
    frame_samples K f { s with buffer := b } = frame_samples K f s := by
  cases f with
  | zero => simp only [frame_samples]
  | succ f => simp only [frame_samples]

/-- With head-room, a produce step on `s` is the step on the emptied deque
with the queued samples put back in front of it. -/
theorem produce_buffer (K : EncoderKit σ α) (s : Encoder σ α) (h : s.buffer.size ≤ 288) :
    (produce K s).1 = (produce K { s with buffer := ⟨[]⟩ }).1 ∧
    (produce K s).2 = { (produce K { s with buffer := ⟨[]⟩ }).2 with
      buffer := ⟨s.buffer.items ++ (produce K { s with buffer := ⟨[]⟩ }).2.buffer.items⟩ } := by
  have h0 : ({ s with buffer := ⟨[]⟩ } : Encoder σ α).buffer.size ≤ 288 := Nat.zero_le _
  rcases produce_cases s with hg | hi | ⟨_, h1 | h1 | h1 | h1 | h1 | h1 | h1⟩
  · omega
  · rw [produce_idle K s hi, produce_idle K { s with buffer := ⟨[]⟩ } hi]
    refine ⟨rfl, eq_of_fields ?_ ?_ ?_ ?_ ?_ ?_ ?_⟩ <;> simp only [List.append_nil]
  · rw [produce_noise K s h h1.1 h1.2, produce_noise K { s with buffer := ⟨[]⟩ } h0 h1.1 h1.2]
    refine ⟨rfl, eq_of_fields ?_ ?_ ?_ ?_ ?_ ?_ ?_⟩ <;>
      simp only [noise_symbol, symbol_sig, symbol_items, symbol_mesg, symbol_code,
        symbol_symbol_number, symbol_count_down, symbol_noise_count, List.nil_append]
  · rw [produce_fall_through K s h h1.1 h1.2,
      produce_fall_through K { s with buffer := ⟨[]⟩ } h0 h1.1 h1.2]
    refine ⟨rfl, eq_of_fields ?_ ?_ ?_ ?_ ?_ ?_ ?_⟩ <;>
      simp only [produce_case4, schmidl_cox, symbol_sig, symbol_items, symbol_mesg, symbol_code,
        symbol_symbol_number, symbol_count_down, symbol_noise_count, List.nil_append,
        List.append_assoc]
  · rw [produce_four K s h h1, produce_four K { s with buffer := ⟨[]⟩ } h0 h1]
    refine ⟨rfl, eq_of_fields ?_ ?_ ?_ ?_ ?_ ?_ ?_⟩ <;>
      simp only [produce_case4, schmidl_cox, symbol_sig, symbol_items, symbol_mesg, symbol_code,
        symbol_symbol_number, symbol_count_down, symbol_noise_count, List.nil_append,
        List.append_assoc]
  · rw [produce_three K s h h1, produce_three K { s with buffer := ⟨[]⟩ } h0 h1]
    refine ⟨rfl, eq_of_fields ?_ ?_ ?_ ?_ ?_ ?_ ?_⟩ <;>
      simp only [preamble, symbol_sig, symbol_items, symbol_mesg, symbol_code,
        symbol_symbol_number, symbol_count_down, symbol_noise_count, List.nil_append]
  · rw [produce_two_last K s h h1.1 h1.2,
      produce_two_last K { s with buffer := ⟨[]⟩ } h0 h1.1 h1.2]
    refine ⟨rfl, eq_of_fields ?_ ?_ ?_ ?_ ?_ ?_ ?_⟩ <;>
      simp only [payload_symbol, symbol_sig, symbol_items, symbol_mesg, symbol_code,
        symbol_symbol_number, symbol_count_down, symbol_noise_count, List.nil_append]
  · rw [produce_two K s h h1.1 h1.2, produce_two K { s with buffer := ⟨[]⟩ } h0 h1.1 h1.2]
    refine ⟨rfl, eq_of_fields ?_ ?_ ?_ ?_ ?_ ?_ ?_⟩ <;>
      simp only [payload_symbol, symbol_sig, symbol_items, symbol_mesg, symbol_code,
        symbol_symbol_number, symbol_count_down, symbol_noise_count, List.nil_append]
  · rw [produce_one K s h h1, produce_one K { s with buffer := ⟨[]⟩ } h0 h1]
    refine ⟨rfl, eq_of_fields ?_ ?_ ?_ ?_ ?_ ?_ ?_⟩ <;>
      simp only [silence, symbol_sig, symbol_items, symbol_mesg, symbol_code,
        symbol_symbol_number, symbol_count_down, symbol_noise_count, List.nil_append]

theorem phase_buffer (k : Nat) (s : Encoder σ α) (b : Deque α) (hp : Phase k s) :
    Phase k { s with buffer := b } :=
  ⟨hp.le, hp.cd, hp.nc, hp.sn⟩

theorem emits_size (K : EncoderKit σ α) (k : Nat) (s s1 : Encoder σ α)
    (h : Emits K (emission_at k) s s1) :
    s1.buffer.size = s.buffer.size + (if k = 14 then 544 else 288) := by
  unfold emission_at at h
  split_ifs at h with h1 h2 h3 h4
  · simp only [Emits] at h
    rw [h.2, if_neg (by omega)]
    simp only [noise_symbol, symbol_size, if_true]
  · simp only [Emits, extended_length_eq, symbol_length_eq] at h
    rw [h.2.2, if_pos h2]
  · simp only [Emits] at h
    rw [h.2, if_neg (by omega)]
    simp only [preamble, symbol_size, if_true]
  · simp only [Emits] at h
    rw [h.2.2, if_neg (by omega)]
    simp only [payload_symbol, symbol_size, if_true]
  · simp only [Emits] at h
    rw [h.2, if_neg (by omega)]
    simp only [silence, symbol_size, if_true]

theorem phase_pending_succ (k : Nat) (hk : k < 49) :
    phase_pending k = (if k = 14 then 544 else 288) + phase_pending (k + 1) := by
  unfold phase_pending
  split_ifs <;> omega

/-- The samples still to be produced after `k` emissions number
`phase_pending k`. -/
theorem frame_samples_length (K : EncoderKit σ α) (m : Nat) (k : Nat) (s : Encoder σ α)
    (hp : Phase k s) (hm : m = 49 - k) :
    (frame_samples K m s).length = phase_pending k := by
  induction m generalizing k s with
  | zero =>
    have := hp.le
    have hk : k = 49 := by omega
    subst hk
    rfl
  | succ m ih =>
    have hk : k < 49 := by omega
    obtain ⟨h1, h2, h3⟩ := produce_phase K { s with buffer := ⟨[]⟩ } k hk
      (phase_buffer k s _ hp) (Nat.zero_le _)
    have hsz := emits_size K k _ _ h3
    rw [frame_samples]
    rw [if_pos h1, List.length_append, ih (k + 1) _ h2 (by omega), phase_pending_succ k hk]
    simp only [Deque.size, List.length_nil, Nat.zero_add] at hsz
    rw [hsz]

/-- A produce step does not change the stream, and leaves at least two
queued samples unless the frame is complete. -/
theorem produce_stream (K : EncoderKit σ α) (s : Encoder σ α) (k : Nat) (hp : Phase k s) :
    ∃ k1, Phase k1 (produce K s).2 ∧ stream K k1 (produce K s).2 = stream K k s ∧
      (k1 = 49 ∨ 2 ≤ (produce K s).2.buffer.size) := by
  by_cases hg : 288 < s.buffer.size
  · rw [produce_gated K s hg]
    exact ⟨k, hp, rfl, Or.inr (by show 2 ≤ s.buffer.size; omega)⟩
  · by_cases hk : k = 49
    · subst hk
      rw [produce_phase_end K s hp]
      exact ⟨49, hp, rfl, Or.inl rfl⟩
    · have hk2 : k < 49 := by have := hp.le; omega
      have h288 : s.buffer.size ≤ 288 := by omega
      obtain ⟨h1, h2, h3⟩ := produce_phase K s k hk2 hp h288
      obtain ⟨b1, b2⟩ := produce_buffer K s h288
      have hsz := produce_size K s
      refine ⟨k + 1, h2, ?_, Or.inr ?_⟩
      · have e : 49 - k = (49 - (k + 1)) + 1 := by omega
        unfold stream
        rw [e, frame_samples]
        rw [← b1, if_pos h1]
        rw [b2]
        simp only [frame_samples_buffer, List.append_assoc]
      · rcases hsz with ⟨h5, _⟩ | ⟨_, _, h6, _⟩
        · rw [h1] at h5; cases h5
        · omega

/-- The second half of the loop body of `read`: pop the head of the stream,
or write zero when the stream has ended. -/
theorem pop_stream (K : EncoderKit σ α) (s : Encoder σ α) (k : Nat) (hp : Phase k s)
    (h2 : k = 49 ∨ 2 ≤ s.buffer.size) :
    Phase k (if s.buffer.size ≠ 0 then
        (s.buffer.back K.zero, { s with buffer := s.buffer.pop_back }) else (K.zero, s)).2 ∧
    (if s.buffer.size ≠ 0 then
        (s.buffer.back K.zero, { s with buffer := s.buffer.pop_back }) else (K.zero, s)).1 =
      (stream K k s).headD K.zero ∧
    stream K k (if s.buffer.size ≠ 0 then
        (s.buffer.back K.zero, { s with buffer := s.buffer.pop_back }) else (K.zero, s)).2 =
      (stream K k s).tail ∧
    ((if s.buffer.size ≠ 0 then
        (s.buffer.back K.zero, { s with buffer := s.buffer.pop_back })
        else (K.zero, s)).2.buffer.size = 0 ↔ (stream K k s).tail = []) := by
  obtain ⟨sig, ⟨items⟩, mesg, code, sn, cd, nc⟩ := s
  cases items with
  | nil =>
    have hk : k = 49 := by
      rcases h2 with h2 | h2
      · exact h2
      · simp [Deque.size] at h2
    subst hk
    simp [Deque.size, stream, frame_samples, hp]
  | cons x rest =>
    simp only [Deque.size, List.length_cons, ne_eq, Nat.add_one_ne_zero, not_false_eq_true,
      if_true, Deque.back, List.headD_cons, Deque.pop_back, List.tail_cons, stream,
      List.cons_append, List.length_eq_zero, List.append_eq_nil, true_and]
    refine ⟨⟨hp.le, hp.cd, hp.nc, hp.sn⟩, ?_, ?_⟩
    · exact congrArg _ (frame_samples_buffer K (49 - k)
        ⟨sig, ⟨x :: rest⟩, mesg, code, sn, cd, nc⟩ ⟨rest⟩)
    · constructor
      · intro h
        subst h
        rcases h2 with h2 | h2
        · subst h2
          exact ⟨rfl, rfl⟩
        · simp [Deque.size] at h2
      · intro h
        exact h.1

theorem read_sample_stream (K : EncoderKit σ α) (s : Encoder σ α) (k : Nat) (hp : Phase k s) :
    ∃ k1, Phase k1 (read_sample K s).2 ∧
      (read_sample K s).1 = (stream K k s).headD K.zero ∧
      stream K k1 (read_sample K s).2 = (stream K k s).tail ∧
      ((read_sample K s).2.buffer.size = 0 ↔ (stream K k s).tail = []) := by
  obtain ⟨k1, h1, h2, h3⟩ := produce_stream K s k hp
  obtain ⟨p1, p2, p3, p4⟩ := pop_stream K (produce K s).2 k1 h1 h3
  rw [h2] at p2 p3 p4
  exact ⟨k1, p1, p2, p3, p4⟩

theorem read_loop_stream (K : EncoderKit σ α) (n : Nat) (s : Encoder σ α) (k : Nat)
    (hp : Phase k s) :
    ∃ k1, Phase k1 (read_loop K n s).2 ∧
      (read_loop K n s).1 =
        (stream K k s).take n ++ List.replicate (n - (stream K k s).length) K.zero ∧
      stream K k1 (read_loop K n s).2 = (stream K k s).drop n ∧
      (1 ≤ n → ((read_loop K n s).2.buffer.size = 0 ↔ (stream K k s).drop n = [])) := by
  induction n generalizing s k with
  | zero =>
    refine ⟨k, hp, ?_, rfl, ?_⟩
    · simp [read_loop]
    · intro h; omega
  | succ n ih =>
    obtain ⟨k1, h1, h2, h3, h4⟩ := read_sample_stream K s k hp
    obtain ⟨k2, i1, i2, i3, i4⟩ := ih (read_sample K s).2 k1 h1
    have hl : read_loop K (n + 1) s =
        ((read_sample K s).1 :: (read_loop K n (read_sample K s).2).1,
          (read_loop K n (read_sample K s).2).2) := rfl
    rw [hl]
    rw [h3] at i2 i3 i4
    refine ⟨k2, i1, ?_, ?_, ?_⟩
    · show (read_sample K s).1 :: (read_loop K n (read_sample K s).2).1 = _
      rw [h2, i2]
      cases hst : stream K k s with
      | nil => simp [List.replicate_succ]
      | cons x t => simp
    · show stream K k2 (read_loop K n (read_sample K s).2).2 = _
      rw [i3, List.drop_tail]
    · intro _
      show (read_loop K n (read_sample K s).2).2.buffer.size = 0 ↔ _
      rcases Nat.eq_zero_or_pos n with hn | hn
      · subst hn
        show (read_sample K s).2.buffer.size = 0 ↔ _
        rw [h4]
        cases stream K k s <;> simp
      · rw [i4 hn, List.drop_tail]

/-- The results of a sequence of non-empty `read` calls, in terms of the
stream of the state they start from. -/
theorem reads_stream (K : EncoderKit σ α) (ns : List Nat) (s : Encoder σ α) (k : Nat)
    (hp : Phase k s) (hpos : ∀ n ∈ ns, 1 ≤ n) :
    ((reads K s ns).map (fun r => r.2)).flatten =
        (stream K k s).take ns.sum ++
          List.replicate (ns.sum - (stream K k s).length) K.zero ∧
    ∀ i, i < ns.length →
      ((reads K s ns).map (fun r => r.1))[i]? =
        some (decide ((stream K k s).length ≤ (ns.take (i + 1)).sum)) := by
  induction ns generalizing s k with
  | nil =>
    refine ⟨by simp [reads], ?_⟩
    intro i hi
    simp at hi
  | cons n rest ih =>
    obtain ⟨k1, h1, h2, h3, h4⟩ := read_loop_stream K n s k hp
    have hn : 1 ≤ n := hpos n (List.mem_cons_self _ _)
    obtain ⟨j1, j2⟩ := ih (read K s n).2.2 k1 h1 (fun m hm => hpos m (List.mem_cons_of_mem _ hm))
    have hst : stream K k1 (read K s n).2.2 = (stream K k s).drop n := h3
    rw [hst] at j1 j2
    have hout : (read K s n).2.1 =
        (stream K k s).take n ++ List.replicate (n - (stream K k s).length) K.zero := h2
    have hflag : (read K s n).1 = decide ((stream K k s).length ≤ n) := by
      show ((read_loop K n s).2.buffer.size == 0) = _
      have h5 := h4 hn
      rw [List.drop_eq_nil_iff] at h5
      by_cases hz : (read_loop K n s).2.buffer.size = 0
      · rw [hz]
        simp [h5.1 hz]
      · have : ¬ (stream K k s).length ≤ n := fun hh => hz (h5.2 hh)
        simp [hz, this]
    constructor
    · simp only [reads, List.map_cons, List.flatten_cons, List.sum_cons]
      rw [j1, hout]
      simp only [List.length_drop]
      rcases Nat.lt_or_ge n (stream K k s).length with hlt | hge
      · have e1 : n - (stream K k s).length = 0 := by omega
        have e2 : rest.sum - ((stream K k s).length - n) =
            n + rest.sum - (stream K k s).length := by omega
        rw [e1, e2, List.replicate_zero, List.append_nil, ← List.append_assoc,
          ← List.take_add]
      · have e1 : List.drop n (stream K k s) = [] := List.drop_eq_nil_iff.2 hge
        have e2 : (stream K k s).length - n = 0 := by omega
        have e3 : n + rest.sum - (stream K k s).length =
            (n - (stream K k s).length) + rest.sum := by omega
        rw [e1, e2, List.take_nil, List.nil_append, Nat.sub_zero, List.take_of_length_le hge,
          List.take_of_length_le (by omega), e3, List.replicate_add, List.append_assoc]
    · intro i hi
      cases i with
      | zero =>
        simp only [reads, List.map_cons, List.getElem?_cons_zero, hflag]
        simp
      | succ j =>
        simp only [reads, List.map_cons, List.getElem?_cons_succ]
        rw [j2 j (by simpa using hi)]
        simp only [List.length_drop, List.take_succ_cons, List.sum_cons, Option.some.injEq,
          decide_eq_decide]
        omega

/-- C4 (streaming length and done flag): on a freshly constructed encoder,
after `init(payload)` and for every split of the reads into calls of at
least one sample, the samples delivered are the
`14368 = 50 * 256 + 49 * 32` samples pushed by the emitting produce steps,
in order and without a gap, followed by zeros only; the call number `i`
returns true exactly when at least 14368 samples have been read up to and
including it. -/
theorem streaming_length (K : EncoderKit σ α) (sig0 : σ) (payload : List Nat)
    (ns : List Nat) (hpos : ∀ n ∈ ns, 1 ≤ n) :
    (frame_samples K 49 (init K (fresh sig0) payload)).length = 14368 ∧
    50 * symbol_length + 49 * guard_length = 14368 ∧
    ((reads K (init K (fresh sig0) payload) ns).map (fun r => r.2)).flatten =
      (frame_samples K 49 (init K (fresh sig0) payload)).take ns.sum ++
        List.replicate (ns.sum - 14368) K.zero ∧
    ∀ i, i < ns.length →
      ((reads K (init K (fresh sig0) payload) ns).map (fun r => r.1))[i]? =
        some (decide (14368 ≤ (ns.take (i + 1)).sum)) := by
  have h0 := phase_zero_init K (fresh sig0) payload
  have hlen := frame_samples_length K 49 0 _ h0 rfl
  have hst : stream K 0 (init K (fresh sig0) payload) =
      frame_samples K 49 (init K (fresh sig0) payload) := by
    have hb : (init K (fresh sig0) payload).buffer.items = [] := rfl
    unfold stream
    rw [hb, List.nil_append]
  have hp : phase_pending 0 = 14368 := by decide
  rw [hp] at hlen
  obtain ⟨r1, r2⟩ := reads_stream K ns _ 0 h0 hpos
  rw [hst, hlen] at r1 r2
  exact ⟨hlen, by simp, r1, r2⟩

/-- C4 witness: three reads of 100, 14268 and 5 samples on the counting
toolkit. -/
theorem streaming_length_witness :
    (∀ n ∈ [100, 14268, 5], 1 ≤ n) ∧
    ((frame_samples counting_kit 49 (init counting_kit (fresh 0) [])).length = 14368 ∧
    50 * symbol_length + 49 * guard_length = 14368 ∧
    ((reads counting_kit (init counting_kit (fresh 0) []) [100, 14268, 5]).map
        (fun r => r.2)).flatten =
      (frame_samples counting_kit 49 (init counting_kit (fresh 0) [])).take
          [100, 14268, 5].sum ++
        List.replicate ([100, 14268, 5].sum - 14368) counting_kit.zero ∧
    ∀ i, i < [100, 14268, 5].length →
      ((reads counting_kit (init counting_kit (fresh 0) []) [100, 14268, 5]).map
          (fun r => r.1))[i]? =
        some (decide (14368 ≤ ([100, 14268, 5].take (i + 1)).sum))) :=
  ⟨by decide, streaming_length counting_kit 0 [] [100, 14268, 5] (by decide)⟩

end Encoder

/-! ## Decoder: control state -/

namespace Decoder

variable {δ α ρ β : Type}

@[simp] theorem demap_symbol_number (K : DecoderKit δ α ρ β) (s : Decoder δ ρ β) :
    (demap K s).symbol_number = s.symbol_number := by simp only [demap]

@[simp] theorem demap_dsp (K : DecoderKit δ α ρ β) (s : Decoder δ ρ β) :
    (demap K s).dsp = s.dsp := by simp only [demap]

@[simp] theorem demap_accumulated (K : DecoderKit δ α ρ β) (s : Decoder δ ρ β) :
    (demap K s).accumulated = s.accumulated := by simp only [demap]

@[simp] theorem demap_stored_check (K : DecoderKit δ α ρ β) (s : Decoder δ ρ β) :
    (demap K s).stored_check = s.stored_check := by simp only [demap]

@[simp] theorem demap_staged_check (K : DecoderKit δ α ρ β) (s : Decoder δ ρ β) :
    (demap K s).staged_check = s.staged_check := by simp only [demap]

@[simp] theorem demap_stored_position (K : DecoderKit δ α ρ β) (s : Decoder δ ρ β) :
    (demap K s).stored_position = s.stored_position := by simp only [demap]

@[simp] theorem demap_staged_position (K : DecoderKit δ α ρ β) (s : Decoder δ ρ β) :
    (demap K s).staged_position = s.staged_position := by simp only [demap]

@[simp] theorem demap_stored_cfo_rad (K : DecoderKit δ α ρ β) (s : Decoder δ ρ β) :
    (demap K s).stored_cfo_rad = s.stored_cfo_rad := by simp only [demap]

@[simp] theorem demap_staged_cfo_rad (K : DecoderKit δ α ρ β) (s : Decoder δ ρ β) :
    (demap K s).staged_cfo_rad = s.staged_cfo_rad := by simp only [demap]

/-- The payload part of `process` keeps `symbol_number` in range and
leaves the sync latch alone. -/
theorem demodulate_fields (K : DecoderKit δ α ρ β) (s : Decoder δ ρ β) :
    (-1 ≤ s.symbol_number ∧ s.symbol_number ≤ 32 →
      -1 ≤ (demodulate K s).2.symbol_number ∧ (demodulate K s).2.symbol_number ≤ 32) ∧
    (demodulate K s).2.accumulated = s.accumulated ∧
    (demodulate K s).2.stored_check = s.stored_check ∧
    (demodulate K s).2.staged_check = s.staged_check ∧
    (demodulate K s).2.stored_position = s.stored_position ∧
    (demodulate K s).2.staged_position = s.staged_position ∧
    (demodulate K s).2.stored_cfo_rad = s.stored_cfo_rad ∧
    (demodulate K s).2.staged_cfo_rad = s.staged_cfo_rad := by
  unfold demodulate
  by_cases h : s.symbol_number < payload_symbols
  · rw [if_pos h]
    rw [payload_symbols_eq] at h
    by_cases h0 : s.symbol_number ≥ 0
    · simp only [h0, if_true, demap_symbol_number, demap_accumulated, demap_stored_check,
        demap_staged_check, demap_stored_position, demap_staged_position,
        demap_stored_cfo_rad, demap_staged_cfo_rad, and_true]
      intro _
      omega
    · simp only [h0, if_false, and_true]
      intro _
      omega
  · rw [if_neg h]
    simp only [and_true]
    exact fun hh => hh

theorem process_range (K : DecoderKit δ α ρ β) (s : Decoder δ ρ β)
    (h : -1 ≤ s.symbol_number ∧ s.symbol_number ≤ 32) :
    -1 ≤ (process K s).2.symbol_number ∧ (process K s).2.symbol_number ≤ 32 := by
  unfold process
  by_cases hc : s.staged_check = true
  · rw [if_pos hc]
    simp only
    split_ifs
    · exact ⟨le_refl _, show (-1 : Int) ≤ 32 by decide⟩
    · exact (demodulate_fields K _).1 h
  · rw [if_neg hc]
    exact (demodulate_fields K _).1 h

theorem feed_sample_symbol_number (K : DecoderKit δ α ρ β) (s : Decoder δ ρ β) (x : α) :
    (feed_sample K s x).symbol_number = s.symbol_number := by
  unfold feed_sample
  simp only
  split_ifs <;> rfl

theorem foldl_feed_sample_symbol_number (K : DecoderKit δ α ρ β) (audio : List α)
    (s : Decoder δ ρ β) :
    (audio.foldl (feed_sample K) s).symbol_number = s.symbol_number := by
  induction audio generalizing s with
  | nil => rfl
  | cons x xs ih => rw [List.foldl_cons, ih, feed_sample_symbol_number]

theorem migrate_symbol_number (s : Decoder δ ρ β) :
    (migrate s).symbol_number = s.symbol_number := by
  unfold migrate
  simp only
  split_ifs <;> rfl

theorem feed_range (K : DecoderKit δ α ρ β) (s : Decoder δ ρ β) (audio : List α)
    (h : -1 ≤ s.symbol_number ∧ s.symbol_number ≤ 32) :
    -1 ≤ (feed K s audio).2.symbol_number ∧ (feed K s audio).2.symbol_number ≤ 32 := by
  unfold feed
  simp only
  split_ifs
  · apply process_range
    rw [migrate_symbol_number, foldl_feed_sample_symbol_number]
    exact h
  · show -1 ≤ (audio.foldl (feed_sample K) s).symbol_number ∧ _
    rw [foldl_feed_sample_symbol_number]
    exact h

/-- C5 (decoder symbol counter range): in every state reached from a
constructed decoder by any sequence of `feed` and `fetch` calls, for every
toolkit (so whatever the correlator and the preamble gate report),
`symbol_number` lies in `[-1, payload_symbols] = [-1, 32]`. -/
theorem symbol_number_range (K : DecoderKit δ α ρ β) (P : PolarKit) (dsp0 : δ) (buf0 : β)
    (cfo0 : ρ) (calls : List (Call α)) :
    payload_symbols = 32 ∧
    -1 ≤ (run K P (fresh dsp0 buf0 cfo0) calls).symbol_number ∧
    (run K P (fresh dsp0 buf0 cfo0) calls).symbol_number ≤ payload_symbols := by
  have key : ∀ (cs : List (Call α)) (s : Decoder δ ρ β),
      -1 ≤ s.symbol_number ∧ s.symbol_number ≤ 32 →
      -1 ≤ (run K P s cs).symbol_number ∧ (run K P s cs).symbol_number ≤ 32 := by
    intro cs
    induction cs with
    | nil => exact fun s h => h
    | cons c cs ih =>
      intro s h
      cases c with
      | feed audio => exact ih _ (feed_range K s audio h)
      | fetch payload => exact ih _ h
  have h0 : -1 ≤ (fresh dsp0 buf0 cfo0 : Decoder δ ρ β).symbol_number ∧
      (fresh dsp0 buf0 cfo0 : Decoder δ ρ β).symbol_number ≤ 32 := by
    show -1 ≤ payload_symbols ∧ payload_symbols ≤ 32
    decide
  exact ⟨rfl, key calls _ h0⟩

/-! ### The sync latch -/

/-- What one iteration of the loop of `feed` does to the control state. -/
theorem feed_sample_fields (K : DecoderKit δ α ρ β) (s : Decoder δ ρ β) (x : α) :
    (feed_sample K s x).accumulated = s.accumulated + 1 ∧
    (feed_sample K s x).staged_check = s.staged_check ∧
    (feed_sample K s x).staged_position = s.staged_position ∧
    (feed_sample K s x).staged_cfo_rad = s.staged_cfo_rad ∧
    (feed_sample K s x).dsp = (K.correlate s.dsp x).1 ∧
    (feed_sample K s x).stored_check = ((K.correlate s.dsp x).2 || s.stored_check) ∧
    (feed_sample K s x).stored_position =
      (if (K.correlate s.dsp x).2 then
        K.symbol_pos (K.correlate s.dsp x).1 + s.accumulated - (extended_length : Int)
      else s.stored_position) ∧
    (feed_sample K s x).stored_cfo_rad =
      (if (K.correlate s.dsp x).2 then K.cfo_rad (K.correlate s.dsp x).1
      else s.stored_cfo_rad) := by
  simp only [feed_sample]
  cases hc : (K.correlate s.dsp x).2
  · simp only [Bool.false_eq_true, if_false, Bool.false_or]
    split_ifs <;> simp only [and_self]
  · simp only [if_true, Bool.true_or]
    split_ifs <;> simp only [and_self]

theorem foldl_feed_sample_fields (K : DecoderKit δ α ρ β) (audio : List α)
    (s : Decoder δ ρ β) :
    (audio.foldl (feed_sample K) s).accumulated = s.accumulated + (audio.length : Int) ∧
    (audio.foldl (feed_sample K) s).staged_check = s.staged_check ∧
    (audio.foldl (feed_sample K) s).staged_position = s.staged_position ∧
    (audio.foldl (feed_sample K) s).staged_cfo_rad = s.staged_cfo_rad := by
  induction audio generalizing s with
  | nil => simp
  | cons x xs ih =>
    obtain ⟨h1, h2, h3, h4, _⟩ := feed_sample_fields K s x
    obtain ⟨i1, i2, i3, i4⟩ := ih (feed_sample K s x)
    rw [List.foldl_cons, i1, i2, i3, i4, h1, h2, h3, h4]
    refine ⟨?_, rfl, rfl, rfl⟩
    simp only [List.length_cons, Nat.cast_add, Nat.cast_one]
    omega

/-- After the loop of `feed` the stored event is the last hit of the call,
or the event stored before the call when the call has no hit. -/
theorem foldl_feed_sample_stored (K : DecoderKit δ α ρ β) (audio : List α)
    (s : Decoder δ ρ β) :
    (audio.foldl (feed_sample K) s).stored_check =
      ((hits K s audio).getLast?.isSome || s.stored_check) ∧
    (audio.foldl (feed_sample K) s).stored_cfo_rad =
      ((hits K s audio).getLast?.map (fun e => e.1)).getD s.stored_cfo_rad ∧
    (audio.foldl (feed_sample K) s).stored_position =
      ((hits K s audio).getLast?.map (fun e => e.2)).getD s.stored_position := by
  induction audio generalizing s with
  | nil => simp [hits]
  | cons x xs ih =>
    obtain ⟨_, _, _, _, _, h6, h7, h8⟩ := feed_sample_fields K s x
    obtain ⟨i1, i2, i3⟩ := ih (feed_sample K s x)
    rw [List.foldl_cons, i1, i2, i3, h6, h7, h8]
    simp only [hits, List.getLast?_append]
    cases hl : (hits K (feed_sample K s x) xs).getLast? with
    | some e => simp
    | none => cases hc : (K.correlate s.dsp x).2 <;> simp

theorem migrate_fields (s : Decoder δ ρ β) :
    (migrate s).accumulated = s.accumulated - (extended_length : Int) ∧
    (migrate s).stored_check = false ∧
    (migrate s).staged_check = (s.stored_check || s.staged_check) ∧
    (migrate s).dsp = s.dsp ∧
    (migrate s).staged_position =
      (if s.stored_check then s.stored_position else s.staged_position) ∧
    (migrate s).staged_cfo_rad =
      (if s.stored_check then s.stored_cfo_rad else s.staged_cfo_rad) := by
  unfold migrate
  cases hc : s.stored_check <;> simp [hc]

/-- `process` clears the staged flag and leaves the staged event, the
stored flag and `accumulated` alone. -/
theorem process_fields (K : DecoderKit δ α ρ β) (s : Decoder δ ρ β) :
    (process K s).2.staged_check = false ∧
    (process K s).2.stored_check = s.stored_check ∧
    (process K s).2.accumulated = s.accumulated ∧
    (process K s).2.staged_position = s.staged_position ∧
    (process K s).2.staged_cfo_rad = s.staged_cfo_rad := by
  unfold process
  cases hc : s.staged_check
  · simp only [Bool.false_eq_true, if_false]
    obtain ⟨_, h2, h3, h4, h5, h6, h7, h8⟩ := demodulate_fields K s
    exact ⟨by rw [h4, hc], h3, h2, h6, h8⟩
  · simp only [if_true]
    split_ifs
    · exact ⟨rfl, rfl, rfl, rfl, rfl⟩
    · obtain ⟨_, h2, h3, h4, h5, h6, h7, h8⟩ := demodulate_fields K
        { s with staged_check := false,
                 dsp := (K.preamble s.dsp s.buf s.staged_position s.staged_cfo_rad).1 }
      exact ⟨h4, h3, h2, h6, h8⟩

theorem demodulate_counting (K : DecoderKit δ α ρ β) (s : Decoder (δ × Nat) ρ β) :
    (demodulate (counting K) s).2.dsp.2 = s.dsp.2 := by
  simp only [demodulate]
  by_cases h : s.symbol_number < payload_symbols
  · rw [if_pos h]
    by_cases h0 : s.symbol_number ≥ 0
    · simp only [h0, if_true, demap_dsp, counting]
    · simp only [h0, if_false, counting]
  · rw [if_neg h]

/-- `process` evaluates the preamble gate once when an event is staged, and
not at all otherwise. -/
theorem process_counting (K : DecoderKit δ α ρ β) (s : Decoder (δ × Nat) ρ β) :
    (process (counting K) s).2.dsp.2 = s.dsp.2 + (if s.staged_check then 1 else 0) := by
  unfold process
  cases hc : s.staged_check
  · simp only [Bool.false_eq_true, if_false, demodulate_counting, Nat.add_zero]
  · simp only [if_true]
    split_ifs
    · simp only [counting]
    · rw [demodulate_counting]
      simp only [counting]

theorem foldl_feed_sample_counting (K : DecoderKit δ α ρ β) (audio : List α)
    (s : Decoder (δ × Nat) ρ β) :
    (audio.foldl (feed_sample (counting K)) s).dsp.2 = s.dsp.2 := by
  induction audio generalizing s with
  | nil => rfl
  | cons x xs ih =>
    rw [List.foldl_cons, ih, (feed_sample_fields (counting K) s x).2.2.2.2.1]
    simp only [counting]

/-- One `feed` call from a state with the staged flag clear and
`accumulated` in `[0, extended_length)`. -/
theorem feed_latch (K : DecoderKit δ α ρ β) (s : Decoder (δ × Nat) ρ β) (audio : List α)
    (hs : s.staged_check = false) (ha : 0 ≤ s.accumulated ∧ s.accumulated < 288)
    (hlen : audio.length ≤ 288) :
    (feed (counting K) s audio).2.dsp.2 ≤ s.dsp.2 + 1 ∧
    ((feed (counting K) s audio).2.dsp.2 ≠ s.dsp.2 →
      288 ≤ s.accumulated + (audio.length : Int)) ∧
    (feed (counting K) s audio).2.staged_check = false ∧
    (288 ≤ s.accumulated + (audio.length : Int) →
      (feed (counting K) s audio).2.stored_check = false) ∧
    0 ≤ (feed (counting K) s audio).2.accumulated ∧
    (feed (counting K) s audio).2.accumulated < 288 := by
  obtain ⟨f1, f2, _, _⟩ := foldl_feed_sample_fields (counting K) audio s
  have f3 := foldl_feed_sample_counting K audio s
  unfold feed
  simp only [extended_length_eq, Nat.cast_ofNat, ge_iff_le]
  by_cases hx : (288 : Int) ≤ (audio.foldl (feed_sample (counting K)) s).accumulated
  · rw [if_pos hx]
    obtain ⟨m1, m2, m3, m4, _⟩ := migrate_fields (audio.foldl (feed_sample (counting K)) s)
    obtain ⟨p1, p2, p3, _⟩ := process_fields (counting K)
      (migrate (audio.foldl (feed_sample (counting K)) s))
    rw [process_counting, p1, p2, p3, m1, m2, m4, f3, f1]
    simp only [extended_length_eq, Nat.cast_ofNat]
    rw [f1] at hx
    refine ⟨?_, fun _ => hx, trivial, fun _ => trivial, by omega, by omega⟩
    split_ifs <;> omega
  · rw [if_neg hx]
    simp only [f1, f2, f3, hs]
    rw [f1] at hx
    refine ⟨by omega, fun h => absurd rfl h, trivial, fun h => absurd h hx, by omega, by omega⟩

theorem feeds_latch (K : DecoderKit δ α ρ β) (audios : List (List α))
    (s : Decoder (δ × Nat) ρ β)
    (hs : s.staged_check = false) (ha : 0 ≤ s.accumulated ∧ s.accumulated < 288)
    (hlen : ∀ a ∈ audios, a.length ≤ 288) :
    (feeds (counting K) s audios).staged_check = false ∧
    0 ≤ (feeds (counting K) s audios).accumulated ∧
    (feeds (counting K) s audios).accumulated < 288 := by
  induction audios generalizing s with
  | nil => exact ⟨hs, ha⟩
  | cons a rest ih =>
    obtain ⟨_, _, h3, _, h5, h6⟩ := feed_latch K s a hs ha (hlen a (List.mem_cons_self _ _))
    exact ih _ h3 ⟨h5, h6⟩ (fun b hb => hlen b (List.mem_cons_of_mem _ hb))

/-! ### The instrumented toolkit runs the same decoder -/

theorem uncount_feed_sample (K : DecoderKit δ α ρ β) (s : Decoder (δ × Nat) ρ β) (x : α) :
    uncount (feed_sample (counting K) s x) = feed_sample K (uncount s) x := by
  simp only [feed_sample, counting, uncount]
  cases (K.correlate s.dsp.1 x).2 <;> simp only [Bool.false_eq_true, if_false, if_true] <;>
    split_ifs <;> rfl

theorem uncount_foldl (K : DecoderKit δ α ρ β) (audio : List α) (s : Decoder (δ × Nat) ρ β) :
    uncount (audio.foldl (feed_sample (counting K)) s) =
      audio.foldl (feed_sample K) (uncount s) := by
  induction audio generalizing s with
  | nil => rfl
  | cons x xs ih => rw [List.foldl_cons, List.foldl_cons, ih, uncount_feed_sample]

theorem uncount_migrate (s : Decoder (δ × Nat) ρ β) :
    uncount (migrate s) = migrate (uncount s) := by
  simp only [migrate, uncount]
  split_ifs <;> rfl

theorem uncount_demap (K : DecoderKit δ α ρ β) (s : Decoder (δ × Nat) ρ β) :
    uncount (demap (counting K) s) = demap K (uncount s) := by
  simp only [demap, counting, uncount]

theorem uncount_demodulate (K : DecoderKit δ α ρ β) (s : Decoder (δ × Nat) ρ β) :
    (demodulate (counting K) s).1 = (demodulate K (uncount s)).1 ∧
    uncount (demodulate (counting K) s).2 = (demodulate K (uncount s)).2 := by
  have hd := uncount_demap K
    { s with dsp := (counting K).demod ((counting K).transform s.dsp s.buf s.symbol_position) }
  simp only [demodulate]
  have e1 : (uncount s).symbol_number = s.symbol_number := rfl
  rw [e1]
  by_cases h : s.symbol_number < payload_symbols
  · rw [if_pos h, if_pos h]
    by_cases h0 : s.symbol_number ≥ 0
    · simp only [h0, if_true, demap_symbol_number]
      refine ⟨trivial, ?_⟩
      simp only [uncount, demap_symbol_number, demap_accumulated, demap_stored_check,
        demap_staged_check, demap_stored_position, demap_staged_position,
        demap_stored_cfo_rad, demap_staged_cfo_rad, demap_dsp]
      simp only [demap, counting]
    · simp only [h0, if_false]
      exact ⟨trivial, rfl⟩
  · rw [if_neg h, if_neg h]
    exact ⟨rfl, rfl⟩

theorem uncount_process (K : DecoderKit δ α ρ β) (s : Decoder (δ × Nat) ρ β) :
    (process (counting K) s).1 = (process K (uncount s)).1 ∧
    uncount (process (counting K) s).2 = (process K (uncount s)).2 := by
  simp only [process]
  have e1 : (uncount s).staged_check = s.staged_check := rfl
  rw [e1]
  cases hc : s.staged_check
  · simp only [Bool.false_eq_true, if_false]
    exact uncount_demodulate K s
  · simp only [if_true]
    have e2 : ((counting K).preamble s.dsp s.buf s.staged_position s.staged_cfo_rad).2 =
        (K.preamble (uncount s).dsp (uncount s).buf (uncount s).staged_position
          (uncount s).staged_cfo_rad).2 := rfl
    rw [e2]
    split_ifs
    · exact ⟨rfl, rfl⟩
    · exact uncount_demodulate K _

/-- A `feed` call on the instrumented toolkit is the `feed` call on the
toolkit itself. -/
theorem uncount_feed (K : DecoderKit δ α ρ β) (s : Decoder (δ × Nat) ρ β) (audio : List α) :
    (feed (counting K) s audio).1 = (feed K (uncount s) audio).1 ∧
    uncount (feed (counting K) s audio).2 = (feed K (uncount s) audio).2 := by
  simp only [feed]
  rw [← uncount_foldl]
  have e1 : (uncount (audio.foldl (feed_sample (counting K)) s)).accumulated =
      (audio.foldl (feed_sample (counting K)) s).accumulated := rfl
  rw [e1]
  split_ifs
  · rw [← uncount_migrate]
    exact uncount_process K _
  · exact ⟨rfl, rfl⟩

theorem uncount_feeds (K : DecoderKit δ α ρ β) (audios : List (List α))
    (s : Decoder (δ × Nat) ρ β) :
    uncount (feeds (counting K) s audios) = feeds K (uncount s) audios := by
  induction audios generalizing s with
  | nil => rfl
  | cons a rest ih =>
    show uncount (feeds (counting K) (feed (counting K) s a).2 rest) = _
    rw [ih, (uncount_feed K s a).2]
    rfl

/-! ### The claims on the sync latch -/

/-- C9, as stated, fails: one sample before a boundary (287 samples fed),
a call of two samples with a hit on each.  The first sample is the one at
which the count reaches `extended_length`; the last hit up to it is
`(cfo 1, position 100 + 287 - 288 = 99)`, but the event moved to staged by
the call is the later hit `(cfo 2, position 200 + 288 - 288 = 200)`. -/
theorem promotion_counterexample :
    boundary_audio.length ≤ extended_length ∧
    boundary_state.accumulated = 287 ∧
    up_to_boundary boundary_state boundary_audio = [some (1, 100)] ∧
    (hits (scripted_kit 0) boundary_state
      (up_to_boundary boundary_state boundary_audio)).getLast? = some (1, 99) ∧
    (feed (scripted_kit 0) boundary_state boundary_audio).2.staged_cfo_rad = 2 ∧
    (feed (scripted_kit 0) boundary_state boundary_audio).2.staged_position = 200 ∧
    ¬ ((hits (scripted_kit 0) boundary_state
        (up_to_boundary boundary_state boundary_audio)).getLast? =
      some ((feed (scripted_kit 0) boundary_state boundary_audio).2.staged_cfo_rad,
        (feed (scripted_kit 0) boundary_state boundary_audio).2.staged_position)) := by
  set_option maxRecDepth 100000 in decide

/-- C9, amended: in a `feed` call during which the accumulated count
reaches `extended_length`, the sync event moved from stored to staged is the
last correlator hit of the whole call, hits on samples after the boundary
sample included; when the call has no hit it is the event stored before the
call, if one is pending, and otherwise staged is left as it was.  (The bound
`sample_count <= extended_length` is not needed for this.) -/
theorem promotion_last_hit (K : DecoderKit δ α ρ β) (s : Decoder δ ρ β) (audio : List α)
    (hcross : (extended_length : Int) ≤ s.accumulated + (audio.length : Int)) :
    match (hits K s audio).getLast? with
    | some e =>
      (feed K s audio).2.staged_cfo_rad = e.1 ∧ (feed K s audio).2.staged_position = e.2
    | none =>
      (feed K s audio).2.staged_cfo_rad =
        (if s.stored_check then s.stored_cfo_rad else s.staged_cfo_rad) ∧
      (feed K s audio).2.staged_position =
        (if s.stored_check then s.stored_position else s.staged_position) := by
  obtain ⟨f1, _, f3, f4⟩ := foldl_feed_sample_fields K audio s
  obtain ⟨g1, g2, g3⟩ := foldl_feed_sample_stored K audio s
  have hfeed : feed K s audio = process K (migrate (audio.foldl (feed_sample K) s)) := by
    simp only [feed]
    rw [if_pos (by rw [f1]; exact hcross)]
  obtain ⟨_, _, _, p4, p5⟩ := process_fields K (migrate (audio.foldl (feed_sample K) s))
  obtain ⟨_, _, _, _, m5, m6⟩ := migrate_fields (audio.foldl (feed_sample K) s)
  rw [hfeed, p4, p5, m5, m6, g1, g2, g3, f3, f4]
  cases (hits K s audio).getLast? with
  | some e => simp
  | none => simp

/-- C9 witness: the call of `promotion_counterexample`; the event staged is
the hit on the second sample. -/
theorem promotion_last_hit_witness :
    (extended_length : Int) ≤ boundary_state.accumulated + (boundary_audio.length : Int) ∧
    (hits (scripted_kit 0) boundary_state boundary_audio).getLast? = some (2, 200) ∧
    match (hits (scripted_kit 0) boundary_state boundary_audio).getLast? with
    | some e =>
      (feed (scripted_kit 0) boundary_state boundary_audio).2.staged_cfo_rad = e.1 ∧
      (feed (scripted_kit 0) boundary_state boundary_audio).2.staged_position = e.2
    | none =>
      (feed (scripted_kit 0) boundary_state boundary_audio).2.staged_cfo_rad =
        (if boundary_state.stored_check then boundary_state.stored_cfo_rad
          else boundary_state.staged_cfo_rad) ∧
      (feed (scripted_kit 0) boundary_state boundary_audio).2.staged_position =
        (if boundary_state.stored_check then boundary_state.stored_position
          else boundary_state.staged_position) :=
  ⟨by set_option maxRecDepth 100000 in decide, by set_option maxRecDepth 100000 in decide,
    promotion_last_hit (scripted_kit 0) boundary_state boundary_audio
      (by set_option maxRecDepth 100000 in decide)⟩

/-- C10 (sync latch discipline): after any sequence of `feed` calls of at
most `extended_length` samples on a constructed decoder, a further such call
evaluates the preamble gate at most once (the counter of the instrumented
toolkit, which runs the same decoder, grows by at most one), and only if the
accumulated count reached `extended_length` during the call; after the call
`staged_check` is false, and `stored_check` is false as well when the call
crossed a boundary. -/
theorem sync_latch (K : DecoderKit δ α ρ β) (dsp0 : δ) (buf0 : β) (cfo0 : ρ)
    (audios : List (List α)) (audio : List α)
    (h1 : ∀ a ∈ audios, a.length ≤ extended_length) (h2 : audio.length ≤ extended_length) :
    uncount (latched K dsp0 buf0 cfo0 audios) = feeds K (fresh dsp0 buf0 cfo0) audios ∧
    uncount (feed (counting K) (latched K dsp0 buf0 cfo0 audios) audio).2 =
      (feed K (feeds K (fresh dsp0 buf0 cfo0) audios) audio).2 ∧
    (feed (counting K) (latched K dsp0 buf0 cfo0 audios) audio).2.dsp.2 ≤
      (latched K dsp0 buf0 cfo0 audios).dsp.2 + 1 ∧
    ((feed (counting K) (latched K dsp0 buf0 cfo0 audios) audio).2.dsp.2 ≠
        (latched K dsp0 buf0 cfo0 audios).dsp.2 →
      (extended_length : Int) ≤
        (feeds K (fresh dsp0 buf0 cfo0) audios).accumulated + (audio.length : Int)) ∧
    (feed K (feeds K (fresh dsp0 buf0 cfo0) audios) audio).2.staged_check = false ∧
    ((extended_length : Int) ≤
        (feeds K (fresh dsp0 buf0 cfo0) audios).accumulated + (audio.length : Int) →
      (feed K (feeds K (fresh dsp0 buf0 cfo0) audios) audio).2.stored_check = false) := by
  have hu : uncount (latched K dsp0 buf0 cfo0 audios) = feeds K (fresh dsp0 buf0 cfo0) audios :=
    uncount_feeds K audios _
  have hf := (uncount_feed K (latched K dsp0 buf0 cfo0 audios) audio).2
  rw [hu] at hf
  obtain ⟨i1, i2, i3⟩ := feeds_latch K audios (fresh (dsp0, 0) buf0 cfo0) rfl
    ⟨le_refl _, show (0 : Int) < 288 by decide⟩ (by simpa using h1)
  obtain ⟨l1, l2, l3, l4, _, _⟩ := feed_latch K (latched K dsp0 buf0 cfo0 audios) audio i1
    ⟨i2, i3⟩ (by simpa using h2)
  have ha : (latched K dsp0 buf0 cfo0 audios).accumulated =
      (feeds K (fresh dsp0 buf0 cfo0) audios).accumulated := by rw [← hu]; rfl
  rw [ha] at l2 l4
  refine ⟨hu, hf, l1, ?_, ?_, ?_⟩
  · simpa using l2
  · rw [← hf]; exact l3
  · intro h
    rw [← hf]
    exact l4 (by simpa using h)

/-- C10 witness: two calls on the scripted toolkit, then a third. -/
theorem sync_latch_witness :
    (∀ a ∈ [[none, some (1, 2)], [none]], a.length ≤ extended_length) ∧
    ([some ((3 : Int), (4 : Int))].length ≤ extended_length) ∧
    (feed (scripted_kit 1) (feeds (scripted_kit 1) (fresh (0, 0) () 0)
      [[none, some (1, 2)], [none]]) [some (3, 4)]).2.staged_check = false :=
  ⟨by decide, by decide,
    (sync_latch (scripted_kit 1) (0, 0) () 0 [[none, some (1, 2)], [none]] [some (3, 4)]
      (by decide) (by decide)).2.2.2.2.1⟩

end Decoder




end Ribbit

namespace Ribbit

namespace Encoder

variable {σ α : Type}

/-- The samples delivered by a sequence of `read` calls of any sizes are the
stream of the state they start from, then zeros. -/
theorem reads_output (K : EncoderKit σ α) (ns : List Nat) (s : Encoder σ α) (k : Nat)
    (hp : Phase k s) :
    ((reads K s ns).map (fun r => r.2)).flatten =
      (stream K k s).take ns.sum ++
        List.replicate (ns.sum - (stream K k s).length) K.zero := by
  induction ns generalizing s k with
  | nil => simp [reads]
  | cons n rest ih =>
    obtain ⟨k1, h1, h2, h3, _⟩ := read_loop_stream K n s k hp
    have j1 := ih (read K s n).2.2 k1 h1
    have hst : stream K k1 (read K s n).2.2 = (stream K k s).drop n := h3
    rw [hst] at j1
    have hout : (read K s n).2.1 =
        (stream K k s).take n ++ List.replicate (n - (stream K k s).length) K.zero := h2
    simp only [reads, List.map_cons, List.flatten_cons, List.sum_cons]
    rw [j1, hout]
    simp only [List.length_drop]
    rcases Nat.lt_or_ge n (stream K k s).length with hlt | hge
    · have e1 : n - (stream K k s).length = 0 := by omega
      have e2 : rest.sum - ((stream K k s).length - n) =
          n + rest.sum - (stream K k s).length := by omega
      rw [e1, e2, List.replicate_zero, List.append_nil, ← List.append_assoc,
        ← List.take_add]
    · have e1 : List.drop n (stream K k s) = [] := List.drop_eq_nil_iff.2 hge
      have e2 : (stream K k s).length - n = 0 := by omega
      have e3 : n + rest.sum - (stream K k s).length =
          (n - (stream K k s).length) + rest.sum := by omega
      rw [e1, e2, List.take_nil, List.nil_append, Nat.sub_zero, List.take_of_length_le hge,
        List.take_of_length_le (by omega), e3, List.replicate_add, List.append_assoc]

/-- C18 (init does not flush queued audio): `init` leaves the output deque
as it is, and for every state and every sequence of `read` calls after
`init` the samples delivered are the samples that were queued, in their
order, then the 14368 samples of the new frame, then zeros; so the first
`k` samples delivered are the `k` queued ones. -/
theorem init_keeps_queue (K : EncoderKit σ α) (s : Encoder σ α) (payload : List Nat)
    (ns : List Nat) :
    (init K s payload).buffer = s.buffer ∧
    (frame_samples K 49 (init K s payload)).length = 14368 ∧
    ((reads K (init K s payload) ns).map (fun r => r.2)).flatten =
      (s.buffer.items ++ frame_samples K 49 (init K s payload)).take ns.sum ++
        List.replicate (ns.sum - (s.buffer.size + 14368)) K.zero ∧
    (((reads K (init K s payload) ns).map (fun r => r.2)).flatten).take s.buffer.size =
      s.buffer.items.take ns.sum := by
  have h0 := phase_zero_init K s payload
  have hlen := frame_samples_length K 49 0 _ h0 rfl
  have hp : phase_pending 0 = 14368 := by decide
  rw [hp] at hlen
  have hb : (init K s payload).buffer = s.buffer := rfl
  have hst : stream K 0 (init K s payload) =
      s.buffer.items ++ frame_samples K 49 (init K s payload) := by
    unfold stream
    rw [hb]
  have hr := reads_output K ns _ 0 h0
  rw [hst] at hr
  have hl : (s.buffer.items ++ frame_samples K 49 (init K s payload)).length =
      s.buffer.size + 14368 := by
    rw [List.length_append, hlen]; rfl
  rw [hl] at hr
  refine ⟨hb, hlen, hr, ?_⟩
  rw [hr, List.take_append_eq_append_take, List.take_take, List.take_append_eq_append_take]
  simp only [List.length_take, List.length_append, hlen, Deque.size]
  have e1 : min s.buffer.items.length ns.sum - s.buffer.items.length = 0 := by omega
  have e3 : List.take (s.buffer.items.length - min ns.sum (s.buffer.items.length + 14368))
      (List.replicate (ns.sum - (s.buffer.items.length + 14368)) K.zero) = [] := by
    rcases Nat.lt_or_ge ns.sum (s.buffer.items.length + 14368) with h | h
    · have : ns.sum - (s.buffer.items.length + 14368) = 0 := by omega
      rw [this, List.replicate_zero, List.take_nil]
    · have : s.buffer.items.length - min ns.sum (s.buffer.items.length + 14368) = 0 := by omega
      rw [this, List.take_zero]
  rw [e1, e3, List.take_zero, List.append_nil, List.append_nil]
  rcases Nat.lt_or_ge ns.sum s.buffer.items.length with h | h
  · rw [Nat.min_eq_right (Nat.le_of_lt h)]
  · rw [Nat.min_eq_left h, List.take_of_length_le (le_refl _), List.take_of_length_le h]

end Encoder

end Ribbit

namespace Ribbit

namespace Decoder

variable {δ α ρ β : Type}

/-! ### False sync -/

/-- C11, as stated, fails with a frame in progress: on `echo_kit`, after a
sync and the warm-up step (`symbol_number == 0`) a call stages a hit that
fails the gate (it decodes 0, not 1); `process` discards the staged event
and goes on to demodulate the payload symbol, so `symbol_number` is 1 after
the step, not 0. -/
theorem false_sync_counterexample :
    false_sync_entry.staged_check = true ∧
    (echo_kit.preamble false_sync_entry.dsp false_sync_entry.buf
      false_sync_entry.staged_position false_sync_entry.staged_cfo_rad).2 = 0 ∧
    false_sync_entry.symbol_number = 0 ∧
    (process echo_kit false_sync_entry).2.staged_check = false ∧
    (process echo_kit false_sync_entry).2.symbol_number = 1 ∧
    ¬ ((process echo_kit false_sync_entry).2.symbol_number =
      false_sync_entry.symbol_number) := by
  decide!

/-- C11, amended: when `process` consumes a staged event whose preamble
decodes to a value other than 1, the staged event is discarded and the step
continues as a step without a staged event: in the idle state
(`symbol_number == payload_symbols`) it returns false and `symbol_number`
stays as it was; with a frame in progress
(`symbol_number < payload_symbols`) the current symbol is demodulated and
`symbol_number` is one more than before. -/
theorem false_sync (K : DecoderKit δ α ρ β) (s : Decoder δ ρ β)
    (hs : s.staged_check = true)
    (hg : (K.preamble s.dsp s.buf s.staged_position s.staged_cfo_rad).2 ≠ 1) :
    (process K s).2.staged_check = false ∧
    process K s = demodulate K { s with
      staged_check := false,
      dsp := (K.preamble s.dsp s.buf s.staged_position s.staged_cfo_rad).1 } ∧
    (payload_symbols ≤ s.symbol_number →
      (process K s).1 = false ∧ (process K s).2.symbol_number = s.symbol_number) ∧
    (s.symbol_number < payload_symbols →
      (process K s).2.symbol_number = s.symbol_number + 1) := by
  have hp : process K s = demodulate K { s with
      staged_check := false,
      dsp := (K.preamble s.dsp s.buf s.staged_position s.staged_cfo_rad).1 } := by
    simp only [process]
    rw [if_pos hs, if_neg hg]
  refine ⟨(process_fields K s).1, hp, ?_, ?_⟩
  · intro h
    rw [hp]
    simp only [demodulate]
    rw [if_neg (by omega)]
    exact ⟨rfl, rfl⟩
  · intro h
    rw [hp]
    simp only [demodulate]
    rw [if_pos h]
    by_cases h0 : s.symbol_number ≥ 0
    · simp only [h0, if_true, demap_symbol_number]
    · simp only [h0, if_false]

/-- C11 witness: the failing gate step on `echo_kit` with a frame in progress. -/
theorem false_sync_witness :
    false_sync_entry.staged_check = true ∧
    (echo_kit.preamble false_sync_entry.dsp false_sync_entry.buf
      false_sync_entry.staged_position false_sync_entry.staged_cfo_rad).2 ≠ 1 ∧
    (process echo_kit false_sync_entry).2.staged_check = false :=
  ⟨by decide!,
    by decide!,
    (false_sync echo_kit false_sync_entry
      (by decide!)
      (by decide!)).1⟩

end Decoder

end Ribbit

namespace Ribbit

namespace Decoder

variable {δ α ρ β : Type}

/-! ### The steps of `process` over a sequence of calls -/

theorem feed_eq_entry (K : DecoderKit δ α ρ β) (s : Decoder δ ρ β) (audio : List α) :
    feed K s audio =
      match process_entry K s audio with
      | some e => process K e
      | none => (false, audio.foldl (feed_sample K) s) := by
  simp only [feed, process_entry]
  split_ifs <;> rfl

theorem process_of_gate (K : DecoderKit δ α ρ β) (s : Decoder δ ρ β)
    (hg : gate_value K s ≠ some 1) : process K s = demodulate K (after_gate K s) := by
  simp only [process, after_gate]
  simp only [gate_value] at hg
  cases hc : s.staged_check
  · simp only [Bool.false_eq_true, if_false]
  · simp only [hc, if_true, ne_eq, Option.some.injEq] at hg
    simp only [if_true]
    rw [if_neg hg]

theorem after_gate_fields (K : DecoderKit δ α ρ β) (s : Decoder δ ρ β) :
    (after_gate K s).symbol_number = s.symbol_number ∧ (after_gate K s).code = s.code ∧
    (after_gate K s).buf = s.buf ∧ (after_gate K s).symbol_position = s.symbol_position := by
  simp only [after_gate]
  split_ifs <;> exact ⟨rfl, rfl, rfl, rfl⟩

theorem feed_sample_code (K : DecoderKit δ α ρ β) (s : Decoder δ ρ β) (x : α) :
    (feed_sample K s x).code = s.code := by
  simp only [feed_sample]
  split_ifs <;> rfl

theorem foldl_feed_sample_code (K : DecoderKit δ α ρ β) (audio : List α) (s : Decoder δ ρ β) :
    (audio.foldl (feed_sample K) s).code = s.code := by
  induction audio generalizing s with
  | nil => rfl
  | cons x xs ih => rw [List.foldl_cons, ih, feed_sample_code]

theorem migrate_code (s : Decoder δ ρ β) : (migrate s).code = s.code := by
  simp only [migrate]
  split_ifs <;> rfl

theorem process_entry_fields (K : DecoderKit δ α ρ β) (s : Decoder δ ρ β) (audio : List α)
    (e : Decoder δ ρ β) (h : process_entry K s audio = some e) :
    e.symbol_number = s.symbol_number ∧ e.code = s.code := by
  simp only [process_entry] at h
  split_ifs at h
  simp only [Option.some.injEq] at h
  subst h
  rw [migrate_symbol_number, foldl_feed_sample_symbol_number, migrate_code,
    foldl_feed_sample_code]
  exact ⟨rfl, rfl⟩

/-- What a `process` step whose gate does not succeed does, by
`symbol_number` on entry: the warm-up step only transforms and captures
`prev`; a payload step demaps with the `symbol_number` on entry and returns
true when the counter reaches `payload_symbols`; an idle step does nothing
more than consume the staged event. -/
theorem process_step_cases (K : DecoderKit δ α ρ β) (e : Decoder δ ρ β)
    (hg : gate_value K e ≠ some 1) :
    (e.symbol_number < 0 → e.symbol_number < payload_symbols →
      process K e = (decide (e.symbol_number + 1 = payload_symbols),
        { after_gate K e with
          dsp := K.capture_prev (K.transform (after_gate K e).dsp (after_gate K e).buf
            (after_gate K e).symbol_position),
          symbol_number := e.symbol_number + 1 })) ∧
    (0 ≤ e.symbol_number → e.symbol_number < payload_symbols →
      (process K e).1 = decide (e.symbol_number + 1 = payload_symbols) ∧
      (process K e).2.symbol_number = e.symbol_number + 1 ∧
      (process K e).2.code =
        (demap K { after_gate K e with
          dsp := K.demod (K.transform (after_gate K e).dsp (after_gate K e).buf
            (after_gate K e).symbol_position) }).code ∧
      (demap K { after_gate K e with
          dsp := K.demod (K.transform (after_gate K e).dsp (after_gate K e).buf
            (after_gate K e).symbol_position) }).symbol_number = e.symbol_number) ∧
    (payload_symbols ≤ e.symbol_number → process K e = (false, after_gate K e)) := by
  obtain ⟨a1, a2, a3, a4⟩ := after_gate_fields K e
  rw [process_of_gate K e hg]
  refine ⟨?_, ?_, ?_⟩
  · intro h0 h1
    simp only [demodulate]
    rw [if_pos (by rw [a1]; exact h1)]
    have h2 : ¬ e.symbol_number ≥ 0 := by omega
    simp only [a1, h2, if_false]
  · intro h0 h1
    simp only [demodulate]
    rw [if_pos (by rw [a1]; exact h1)]
    have h2 : e.symbol_number ≥ 0 := by omega
    simp only [a1, h2, if_true, demap_symbol_number, and_self]
  · intro h
    simp only [demodulate]
    rw [if_neg (by rw [a1]; omega)]

theorem process_steps_cons (K : DecoderKit δ α ρ β) (s : Decoder δ ρ β) (audio : List α)
    (rest : List (List α)) :
    process_steps K s (audio :: rest) =
      (match process_entry K s audio with
        | some e => [(e, (process K e).1, (process K e).2)]
        | none => []) ++ process_steps K (feed K s audio).2 rest := rfl

theorem gate_values_cons (K : DecoderKit δ α ρ β) (s : Decoder δ ρ β) (audio : List α)
    (rest : List (List α)) :
    gate_values K s (audio :: rest) =
      (match process_entry K s audio with
        | some e => (gate_value K e).toList
        | none => []) ++ gate_values K (feed K s audio).2 rest := by
  simp only [gate_values, process_steps_cons, List.filterMap_append]
  congr 1
  cases process_entry K s audio with
  | none => rfl
  | some e => cases h : gate_value K e <;> simp [List.filterMap, h]

theorem gate_ne_of_not_mem (K : DecoderKit δ α ρ β) (s : Decoder δ ρ β) (audio : List α)
    (rest : List (List α)) (h : 1 ∉ gate_values K s (audio :: rest)) :
    (∀ e, process_entry K s audio = some e → gate_value K e ≠ some 1) ∧
    1 ∉ gate_values K (feed K s audio).2 rest := by
  rw [gate_values_cons, List.mem_append, not_or] at h
  refine ⟨?_, h.2⟩
  intro e he hv
  apply h.1
  rw [he]
  simp [hv]

end Decoder

end Ribbit

namespace Ribbit

namespace Decoder

variable {δ α ρ β : Type}

theorem process_sn_of_gate (K : DecoderKit δ α ρ β) (e : Decoder δ ρ β)
    (hg : gate_value K e ≠ some 1) (hlo : -1 ≤ e.symbol_number) (hhi : e.symbol_number ≤ 32) :
    (process K e).2.symbol_number = min (e.symbol_number + 1) 32 ∧
    (process K e).1 = decide (e.symbol_number = 31) := by
  obtain ⟨c1, c2, c3⟩ := process_step_cases K e hg
  rw [payload_symbols_eq] at c1 c2 c3
  by_cases h0 : e.symbol_number < 0
  · rw [c1 h0 (by omega)]
    refine ⟨?_, ?_⟩
    · show e.symbol_number + 1 = _
      omega
    · show decide (e.symbol_number + 1 = 32) = _
      rw [decide_eq_decide]; omega
  · by_cases h1 : e.symbol_number < 32
    · obtain ⟨d1, d2, _⟩ := c2 (by omega) h1
      rw [d1, d2]
      refine ⟨by omega, ?_⟩
      rw [decide_eq_decide]; omega
    · rw [c3 (by omega)]
      refine ⟨?_, ?_⟩
      · show (after_gate K e).symbol_number = _
        rw [(after_gate_fields K e).1]; omega
      · show false = _
        symm
        rw [decide_eq_false_iff_not]; omega

/-- The `process` steps of a sequence of calls in which the gate never
decodes 1, started with `symbol_number == m`: step number `i` is entered
with `symbol_number == min (m + i) 32` and returns true exactly when that
is 31. -/
theorem process_steps_count (K : DecoderKit δ α ρ β) (audios : List (List α))
    (s : Decoder δ ρ β) (m : Int) (hs : s.symbol_number = m) (hlo : -1 ≤ m) (hhi : m ≤ 32)
    (hg : 1 ∉ gate_values K s audios) :
    (feeds K s audios).symbol_number = min (m + ((process_steps K s audios).length : Int)) 32 ∧
    ∀ (i : Nat) (p : Decoder δ ρ β × Bool × Decoder δ ρ β),
      (process_steps K s audios)[i]? = some p →
      gate_value K p.1 ≠ some 1 ∧ p.1.symbol_number = min (m + (i : Int)) 32 ∧
      p.2.1 = (process K p.1).1 ∧ p.2.2 = (process K p.1).2 ∧
      p.2.1 = decide (min (m + (i : Int)) 32 = 31) := by
  induction audios generalizing s m with
  | nil =>
    refine ⟨?_, ?_⟩
    · show s.symbol_number = _
      simp only [process_steps, List.length_nil, Nat.cast_zero]
      omega
    · intro i p h
      simp [process_steps] at h
  | cons audio rest ih =>
    obtain ⟨g1, g2⟩ := gate_ne_of_not_mem K s audio rest hg
    have hfeed := feed_eq_entry K s audio
    rw [process_steps_cons]
    show (feeds K (feed K s audio).2 rest).symbol_number = _ ∧ _
    cases he : process_entry K s audio with
    | none =>
      rw [he] at hfeed
      have hsn : (feed K s audio).2.symbol_number = m := by
        rw [hfeed]
        show (audio.foldl (feed_sample K) s).symbol_number = m
        rw [foldl_feed_sample_symbol_number, hs]
      obtain ⟨i1, i2⟩ := ih (feed K s audio).2 m hsn hlo hhi g2
      simp only [List.nil_append]
      exact ⟨i1, i2⟩
    | some e =>
      rw [he] at hfeed
      have hge := g1 e he
      have hes : e.symbol_number = m := by rw [(process_entry_fields K s audio e he).1, hs]
      obtain ⟨q1, q2⟩ := process_sn_of_gate K e hge (by omega) (by omega)
      have hsn : (feed K s audio).2.symbol_number = min (m + 1) 32 := by
        rw [hfeed, q1, hes]
      obtain ⟨i1, i2⟩ := ih (feed K s audio).2 (min (m + 1) 32) hsn (by omega) (by omega) g2
      simp only [List.singleton_append, List.length_cons]
      refine ⟨?_, ?_⟩
      · rw [i1]
        push_cast
        omega
      · intro i p h
        cases i with
        | zero =>
          simp only [List.getElem?_cons_zero, Option.some.injEq] at h
          subst h
          refine ⟨hge, ?_, rfl, rfl, ?_⟩
          · show e.symbol_number = _
            rw [hes]; simp only [Nat.cast_zero]; omega
          · show (process K e).1 = _
            rw [q2, hes, decide_eq_decide]
            simp only [Nat.cast_zero]; omega
        | succ j =>
          simp only [List.getElem?_cons_succ] at h
          obtain ⟨r1, r2, r3, r4, r5⟩ := i2 j p h
          have e1 : min (min (m + 1) 32 + (j : Int)) 32 = min (m + ((j + 1 : Nat) : Int)) 32 := by
            push_cast; omega
          rw [e1] at r2 r5
          exact ⟨r1, r2, r3, r4, r5⟩

end Decoder

end Ribbit

namespace Ribbit

namespace Decoder

variable {δ α ρ β : Type}

/-- From an idle state, calls in which the gate never decodes 1 leave the
decoder idle. -/
theorem idle_stays (K : DecoderKit δ α ρ β) (audios : List (List α)) (s : Decoder δ ρ β)
    (hs : s.symbol_number = payload_symbols) (hg : 1 ∉ gate_values K s audios) :
    (∀ b ∈ feed_results K s audios, b = false) ∧
    (feeds K s audios).symbol_number = payload_symbols ∧
    (feeds K s audios).code = s.code ∧
    ∀ p ∈ process_steps K s audios,
      p.1.symbol_number = payload_symbols ∧ p.2.1 = false ∧ p.2.2 = after_gate K p.1 := by
  induction audios generalizing s with
  | nil =>
    refine ⟨?_, hs, rfl, ?_⟩
    · intro b hb
      simp [feed_results] at hb
    · intro p hp
      simp [process_steps] at hp
  | cons audio rest ih =>
    obtain ⟨g1, g2⟩ := gate_ne_of_not_mem K s audio rest hg
    have hfeed := feed_eq_entry K s audio
    rw [process_steps_cons]
    show (∀ b ∈ (feed K s audio).1 :: feed_results K (feed K s audio).2 rest, b = false) ∧
      (feeds K (feed K s audio).2 rest).symbol_number = payload_symbols ∧
      (feeds K (feed K s audio).2 rest).code = s.code ∧ _
    cases he : process_entry K s audio with
    | none =>
      rw [he] at hfeed
      replace hfeed : feed K s audio = (false, audio.foldl (feed_sample K) s) := hfeed
      have hsn : (feed K s audio).2.symbol_number = payload_symbols := by
        rw [hfeed]
        show (audio.foldl (feed_sample K) s).symbol_number = _
        rw [foldl_feed_sample_symbol_number, hs]
      have hcode : (feed K s audio).2.code = s.code := by
        rw [hfeed]
        exact foldl_feed_sample_code K audio s
      have hres : (feed K s audio).1 = false := by rw [hfeed]
      obtain ⟨i1, i2, i3, i4⟩ := ih (feed K s audio).2 hsn g2
      refine ⟨?_, i2, by rw [i3, hcode], ?_⟩
      · intro b hb
        rcases List.mem_cons.1 hb with h | h
        · rw [h, hres]
        · exact i1 b h
      · simpa using i4
    | some e =>
      rw [he] at hfeed
      replace hfeed : feed K s audio = process K e := hfeed
      obtain ⟨e1, e2⟩ := process_entry_fields K s audio e he
      have hidle := (process_step_cases K e (g1 e he)).2.2 (by rw [e1, hs])
      obtain ⟨a1, a2, _, _⟩ := after_gate_fields K e
      have hsn : (feed K s audio).2.symbol_number = payload_symbols := by
        rw [hfeed, hidle]
        show (after_gate K e).symbol_number = _
        rw [a1, e1, hs]
      have hcode : (feed K s audio).2.code = s.code := by
        rw [hfeed, hidle]
        show (after_gate K e).code = _
        rw [a2, e2]
      have hres : (feed K s audio).1 = false := by rw [hfeed, hidle]
      obtain ⟨i1, i2, i3, i4⟩ := ih (feed K s audio).2 hsn g2
      refine ⟨?_, i2, by rw [i3, hcode], ?_⟩
      · intro b hb
        rcases List.mem_cons.1 hb with h | h
        · rw [h, hres]
        · exact i1 b h
      · intro p hp
        simp only [List.singleton_append, List.mem_cons] at hp
        rcases hp with h | h
        · subst h
          refine ⟨by rw [e1, hs], ?_, ?_⟩
          · show (process K e).1 = false
            rw [hidle]
          · show (process K e).2 = _
            rw [hidle]
        · exact i4 p h

/-- C14 (quiescent start): a constructed decoder has
`symbol_number == payload_symbols`, and over every sequence of `feed` calls
in which no evaluation of the preamble gate decodes 1, every call returns
false, every `process` step only consumes the staged event (no payload
symbol is demodulated, `code` is not written) and `symbol_number` stays
equal to `payload_symbols`. -/
theorem quiescent_start (K : DecoderKit δ α ρ β) (dsp0 : δ) (buf0 : β) (cfo0 : ρ)
    (audios : List (List α)) (hg : 1 ∉ gate_values K (fresh dsp0 buf0 cfo0) audios) :
    (fresh dsp0 buf0 cfo0 : Decoder δ ρ β).symbol_number = payload_symbols ∧
    (∀ b ∈ feed_results K (fresh dsp0 buf0 cfo0) audios, b = false) ∧
    (feeds K (fresh dsp0 buf0 cfo0) audios).symbol_number = payload_symbols ∧
    (feeds K (fresh dsp0 buf0 cfo0) audios).code =
      (fresh dsp0 buf0 cfo0 : Decoder δ ρ β).code ∧
    ∀ p ∈ process_steps K (fresh dsp0 buf0 cfo0) audios,
      p.1.symbol_number = payload_symbols ∧ p.2.1 = false ∧ p.2.2 = after_gate K p.1 :=
  ⟨rfl, idle_stays K audios _ rfl hg⟩

/-- C14 witness: two calls on the scripted toolkit whose gate decodes 0, the
first with a hit, the second crossing the boundary. -/
theorem quiescent_start_witness :
    1 ∉ gate_values (scripted_kit 0) (fresh (0, 0) () 0)
      [[none, some (1, 2)], List.replicate 286 none] ∧
    (∀ b ∈ feed_results (scripted_kit 0) (fresh (0, 0) () 0)
      [[none, some (1, 2)], List.replicate 286 none], b = false) :=
  ⟨by decide!,
    (quiescent_start (scripted_kit 0) (0, 0) () 0
      [[none, some (1, 2)], List.replicate 286 none] (by decide!)).2.1⟩

end Decoder

end Ribbit

namespace Ribbit

namespace Decoder

variable {δ α ρ β : Type}

/-! ### The symbol clock -/

/-- Line 192 runs at a sample exactly when the incremented count equals
`extended_length`, and then `buf` is the window of the ring at that sample;
otherwise `buf` is left alone. -/
theorem feed_sample_buf (K : DecoderKit δ α ρ β) (s : Decoder δ ρ β) (x : α) :
    ((feed_sample K s x).accumulated = (extended_length : Int) →
      (feed_sample K s x).buf = K.window (feed_sample K s x).dsp) ∧
    ((feed_sample K s x).accumulated ≠ (extended_length : Int) →
      (feed_sample K s x).buf = s.buf) := by
  obtain ⟨h1, _⟩ := feed_sample_fields K s x
  rw [h1]
  simp only [feed_sample]
  cases (K.correlate s.dsp x).2 <;> simp only [Bool.false_eq_true, if_false, if_true] <;>
    constructor <;> intro h <;> first | rw [if_pos h] | rw [if_neg h]

theorem snapshot_flags_eq (K : DecoderKit δ α ρ β) (audio : List α) (s : Decoder δ ρ β) :
    snapshot_flags K s audio =
      (List.range audio.length).map
        (fun (i : Nat) => decide (s.accumulated + (i : Int) + 1 = 288)) := by
  induction audio generalizing s with
  | nil => rfl
  | cons x xs ih =>
    rw [snapshot_flags, ih, List.length_cons, List.range_succ_eq_map, List.map_cons,
      List.map_map, (feed_sample_fields K s x).1]
    simp only [extended_length_eq, Nat.cast_ofNat, Nat.cast_zero, add_zero]
    congr 1
    apply List.map_congr_left
    intro i _
    simp only [Function.comp, Nat.succ_eq_add_one, Nat.cast_add, Nat.cast_one, decide_eq_decide]
    omega

/-- One call of at most `extended_length` samples, started after `t`
samples with `accumulated == t mod 288`. -/
theorem feed_clock (K : DecoderKit δ α ρ β) (s : Decoder δ ρ β) (audio : List α) (t : Nat)
    (ha : s.accumulated = ((t % 288 : Nat) : Int)) (hlen : audio.length ≤ 288) :
    (feed K s audio).2.accumulated = (((t + audio.length) % 288 : Nat) : Int) ∧
    snapshot_flags K s audio =
      (List.range audio.length).map (fun i => decide ((t + i + 1) % 288 = 0)) ∧
    (process_entry K s audio).isSome = decide ((t + audio.length) / 288 = t / 288 + 1) ∧
    ((process_entry K s audio).isSome = false → (t + audio.length) / 288 = t / 288) := by
  obtain ⟨f1, _⟩ := foldl_feed_sample_fields K audio s
  refine ⟨?_, ?_, ?_, ?_⟩
  · rw [feed_eq_entry]
    simp only [process_entry, extended_length_eq, Nat.cast_ofNat, ge_iff_le]
    by_cases hx : (288 : Int) ≤ (audio.foldl (feed_sample K) s).accumulated
    · rw [if_pos hx]
      show (process K (migrate (audio.foldl (feed_sample K) s))).2.accumulated = _
      rw [(process_fields K _).2.2.1, (migrate_fields _).1, f1, ha]
      rw [f1, ha] at hx
      simp only [extended_length_eq, Nat.cast_ofNat]
      omega
    · rw [if_neg hx]
      show (audio.foldl (feed_sample K) s).accumulated = _
      rw [f1, ha]
      rw [f1, ha] at hx
      omega
  · rw [snapshot_flags_eq]
    apply List.map_congr_left
    intro i hi
    have := List.mem_range.1 hi
    rw [ha, decide_eq_decide]
    omega
  · simp only [process_entry, extended_length_eq, Nat.cast_ofNat, ge_iff_le]
    rw [f1, ha]
    by_cases hx : (288 : Int) ≤ ((t % 288 : Nat) : Int) + (audio.length : Int)
    · rw [if_pos hx]
      simp only [Option.isSome_some]
      symm
      rw [decide_eq_true_iff]
      omega
    · rw [if_neg hx]
      simp only [Option.isSome_none]
      symm
      rw [decide_eq_false_iff_not]
      omega
  · simp only [process_entry, extended_length_eq, Nat.cast_ofNat, ge_iff_le]
    rw [f1, ha]
    by_cases hx : (288 : Int) ≤ ((t % 288 : Nat) : Int) + (audio.length : Int)
    · rw [if_pos hx]
      simp
    · rw [if_neg hx]
      intro _
      omega

/-- The symbol clock over a sequence of calls started after `t` samples. -/
theorem feeds_clock (K : DecoderKit δ α ρ β) (audios : List (List α)) (s : Decoder δ ρ β)
    (t : Nat) (ha : s.accumulated = ((t % 288 : Nat) : Int))
    (hlen : ∀ a ∈ audios, a.length ≤ 288) :
    (feeds K s audios).accumulated = (((t + total_samples audios) % 288 : Nat) : Int) ∧
    snapshots K s audios =
      (List.range (total_samples audios)).map (fun i => decide ((t + i + 1) % 288 = 0)) ∧
    t / 288 + (process_steps K s audios).length = (t + total_samples audios) / 288 := by
  induction audios generalizing s t with
  | nil =>
    refine ⟨?_, rfl, rfl⟩
    show s.accumulated = _
    rw [ha]
    rfl
  | cons audio rest ih =>
    obtain ⟨c1, c2, c3, c4⟩ := feed_clock K s audio t ha (hlen audio (List.mem_cons_self _ _))
    obtain ⟨i1, i2, i3⟩ := ih (feed K s audio).2 (t + audio.length) c1
      (fun a h => hlen a (List.mem_cons_of_mem _ h))
    have htot : total_samples (audio :: rest) = audio.length + total_samples rest := by
      simp [total_samples]
    rw [htot]
    refine ⟨?_, ?_, ?_⟩
    · show (feeds K (feed K s audio).2 rest).accumulated = _
      rw [i1, Nat.add_assoc]
    · show snapshot_flags K s audio ++ snapshots K (feed K s audio).2 rest = _
      rw [c2, i2, List.range_add, List.map_append, List.map_map]
      congr 1
      apply List.map_congr_left
      intro i _
      simp only [Function.comp, Nat.add_assoc]
    · rw [process_steps_cons, List.length_append, ← Nat.add_assoc t]
      cases he : process_entry K s audio with
      | none =>
        rw [he] at c4
        have := c4 rfl
        simp only [List.length_nil, Nat.add_zero]
        omega
      | some e =>
        rw [he] at c3
        simp only [Option.isSome_some] at c3
        have := of_decide_eq_true c3.symm
        simp only [List.length_singleton]
        omega

/-- C12 (chunk-size independence of the symbol clock): for every split of
a sample stream into `feed` calls of 0 to `extended_length = 288` samples
on a constructed decoder, after `T` samples in total
`accumulated == T mod 288` (so it lies in `[0, 288)`), line 192 (the
snapshot `buf = buffer()`) has run exactly at the samples whose running
count is a multiple of 288, and `process` has been invoked `T / 288` times;
hence two splits of the same stream agree on all three. -/
theorem symbol_clock (K : DecoderKit δ α ρ β) (dsp0 : δ) (buf0 : β) (cfo0 : ρ)
    (audios : List (List α)) (hlen : ∀ a ∈ audios, a.length ≤ extended_length) :
    (feeds K (fresh dsp0 buf0 cfo0) audios).accumulated =
      ((total_samples audios % 288 : Nat) : Int) ∧
    0 ≤ (feeds K (fresh dsp0 buf0 cfo0) audios).accumulated ∧
    (feeds K (fresh dsp0 buf0 cfo0) audios).accumulated < (extended_length : Int) ∧
    snapshots K (fresh dsp0 buf0 cfo0) audios =
      (List.range (total_samples audios)).map (fun i => decide ((i + 1) % 288 = 0)) ∧
    (process_steps K (fresh dsp0 buf0 cfo0) audios).length = total_samples audios / 288 ∧
    (∀ (s : Decoder δ ρ β) (x : α),
      ((feed_sample K s x).accumulated = (extended_length : Int) →
        (feed_sample K s x).buf = K.window (feed_sample K s x).dsp) ∧
      ((feed_sample K s x).accumulated ≠ (extended_length : Int) →
        (feed_sample K s x).buf = s.buf)) ∧
    ∀ audios2 : List (List α), (∀ a ∈ audios2, a.length ≤ extended_length) →
      audios2.flatten = audios.flatten →
      (feeds K (fresh dsp0 buf0 cfo0) audios2).accumulated =
        (feeds K (fresh dsp0 buf0 cfo0) audios).accumulated ∧
      snapshots K (fresh dsp0 buf0 cfo0) audios2 = snapshots K (fresh dsp0 buf0 cfo0) audios ∧
      (process_steps K (fresh dsp0 buf0 cfo0) audios2).length =
        (process_steps K (fresh dsp0 buf0 cfo0) audios).length := by
  have key : ∀ l : List (List α), (∀ a ∈ l, a.length ≤ extended_length) →
      (feeds K (fresh dsp0 buf0 cfo0) l).accumulated = ((total_samples l % 288 : Nat) : Int) ∧
      snapshots K (fresh dsp0 buf0 cfo0) l =
        (List.range (total_samples l)).map (fun i => decide ((i + 1) % 288 = 0)) ∧
      (process_steps K (fresh dsp0 buf0 cfo0) l).length = total_samples l / 288 := by
    intro l hl
    obtain ⟨k1, k2, k3⟩ := feeds_clock K l (fresh dsp0 buf0 cfo0) 0 rfl
      (by simpa using hl)
    simp only [Nat.zero_add, Nat.zero_div] at k1 k2 k3
    exact ⟨k1, k2, k3⟩
  obtain ⟨k1, k2, k3⟩ := key audios hlen
  refine ⟨k1, by rw [k1]; omega, by rw [k1, extended_length_eq]; omega, k2, k3,
    feed_sample_buf K, ?_⟩
  intro audios2 h2 hflat
  obtain ⟨j1, j2, j3⟩ := key audios2 h2
  have htot : total_samples audios2 = total_samples audios := by
    simp only [total_samples, ← List.length_flatten, hflat]
  rw [j1, j2, j3, k1, k2, k3, htot]
  exact ⟨rfl, rfl, rfl⟩

/-- C12 witness: three calls of 2, 0 and 1 samples on the scripted toolkit. -/
theorem symbol_clock_witness :
    (∀ a ∈ [[none, some (1, 2)], [], [none]], a.length ≤ extended_length) ∧
    (feeds (scripted_kit 0) (fresh (0, 0) () 0)
      [[none, some (1, 2)], [], [none]]).accumulated =
      ((total_samples [[none, some ((1 : Int), (2 : Int))], [], [none]] % 288 : Nat) : Int) :=
  ⟨by decide,
    (symbol_clock (scripted_kit 0) (0, 0) () 0 [[none, some (1, 2)], [], [none]]
      (by decide)).1⟩

end Decoder

end Ribbit

namespace Ribbit

namespace PolarDecoder

/-! ### The non-frozen positions -/

theorem frozen_add_info (P : PolarKit) :
    frozen_count P + (info_positions P).length = code_len := by
  unfold frozen_count info_positions
  have h := List.length_eq_length_filter_add (l := List.range code_len) (fun j => frozen_bit P j)
  rw [List.length_range] at h
  omega

theorem mem_info_positions (P : PolarKit) (j : Nat) :
    j ∈ info_positions P ↔ j < code_len ∧ frozen_bit P j = false := by
  unfold info_positions
  rw [List.mem_filter, List.mem_range]
  simp

theorem info_positions_sorted (P : PolarKit) :
    (info_positions P).Pairwise (fun a b => a < b) :=
  List.Pairwise.filter _ (List.pairwise_lt_range _)

theorem info_count_eq (P : PolarKit) (d j : Nat) :
    info_count P d j = ((List.range' j d).filter (fun j => !frozen_bit P j)).length := by
  induction d generalizing j with
  | zero => rfl
  | succ d ih =>
    rw [info_count, ih, List.range'_succ, List.filter_cons]
    cases frozen_bit P j
    · simp only [Bool.false_eq_true, if_false, Bool.not_false, if_true, List.length_cons]
      omega
    · simp only [if_true, Bool.not_true, Bool.false_eq_true, if_false]
      omega

theorem info_count_eq_length (P : PolarKit) :
    info_count P code_len 0 = (info_positions P).length := by
  rw [info_count_eq, info_positions, List.range_eq_range']

/-- The search of lines 97-98 finds the head of the remaining non-frozen
positions. -/
theorem next_info_filter (P : PolarKit) (d j fuel p : Nat) (rest : List Nat)
    (hd : j + d ≤ code_len) (hf : d ≤ fuel)
    (hl : (List.range' j d).filter (fun j => !frozen_bit P j) = p :: rest) :
    next_info P fuel j = some p ∧ p + 1 ≤ j + d ∧
      (List.range' (p + 1) (j + d - (p + 1))).filter (fun j => !frozen_bit P j) = rest := by
  induction d generalizing j fuel with
  | zero => simp at hl
  | succ d ih =>
    cases fuel with
    | zero => omega
    | succ fuel =>
      have hj : ¬ code_len ≤ j := by omega
      rw [List.range'_succ, List.filter_cons] at hl
      cases hfz : frozen_bit P j
      · rw [hfz] at hl
        simp only [Bool.not_false, if_true, List.cons.injEq] at hl
        obtain ⟨h1, h2⟩ := hl
        subst h1
        refine ⟨?_, by omega, ?_⟩
        · rw [next_info, if_neg hj, hfz]
          rfl
        · have : j + (d + 1) - (j + 1) = d := by omega
          rw [this, h2]
      · rw [hfz] at hl
        simp only [Bool.not_true, Bool.false_eq_true, if_false] at hl
        obtain ⟨h1, h2, h3⟩ := ih (j + 1) fuel (by omega) (by omega) hl
        refine ⟨?_, by omega, ?_⟩
        · rw [next_info, if_neg hj, hfz]
          exact h1
        · have : j + (d + 1) - (p + 1) = j + 1 + d - (p + 1) := by omega
          rw [this, h3]

/-- The positions read by the flips loop are the next non-frozen ones. -/
theorem flips_positions_eq (P : PolarKit) (n j d : Nat) (l : List Nat)
    (hd : j + d = code_len)
    (hl : (List.range' j d).filter (fun j => !frozen_bit P j) = l) (hn : n ≤ l.length) :
    flips_positions P n j = some (l.take n) := by
  induction n generalizing j d l with
  | zero => rfl
  | succ n ih =>
    cases l with
    | nil => simp at hn
    | cons p rest =>
      obtain ⟨h1, h2, h3⟩ := next_info_filter P d j code_len p rest (by omega) (by omega) hl
      rw [flips_positions, h1]
      simp only
      rw [ih (p + 1) (j + d - (p + 1)) rest (by omega) h3 (by simpa using hn)]
      rfl

/-- The flips loop in closed form: data bit `i + k` is compared at the
`k`-th of the remaining non-frozen positions. -/
theorem flips_loop_closed (P : PolarKit) (code : List Int) (mesg : Nat → Nat → Int)
    (best n i j d flips : Nat) (message : List Nat) (l : List Nat)
    (hd : j + d = code_len)
    (hl : (List.range' j d).filter (fun j => !frozen_bit P j) = l) (hn : n ≤ l.length) :
    ∃ out, flips_loop P code mesg best n i j flips message =
      some (flips + ((List.range n).filter
        (fun k => decide (code.getD (l.getD k 0) 0 < 0) != decide (mesg (i + k) best < 0))).length,
        out) := by
  induction n generalizing i j d flips message l with
  | zero => exact ⟨message, rfl⟩
  | succ n ih =>
    cases l with
    | nil => simp at hn
    | cons p rest =>
      obtain ⟨h1, h2, h3⟩ := next_info_filter P d j code_len p rest (by omega) (by omega) hl
      obtain ⟨out, ho⟩ := ih (i + 1) (p + 1) (j + d - (p + 1))
        (flips + (if decide (code.getD p 0 < 0) ≠ decide (mesg i best < 0) then 1 else 0))
        (set_le_bit message i (decide (mesg i best < 0))) rest (by omega) h3
        (by simpa using hn)
      refine ⟨out, ?_⟩
      rw [flips_loop, h1]
      simp only
      rw [ho, List.range_succ_eq_map, List.filter_cons, List.filter_map]
      simp only [List.getD_cons_zero, Nat.add_zero, List.length_map, Function.comp_def,
        Nat.succ_eq_add_one, List.getD_cons_succ]
      have e : ∀ k, i + 1 + k = i + (k + 1) := fun k => by omega
      simp only [e]
      generalize decide (code.getD p 0 < 0) = a
      generalize decide (mesg i best < 0) = b
      cases a <;> cases b <;> simp <;> omega

/-- The copy loop of `systematic` over the positions `l`, started with
`j = c`: slot `a` receives the value at the `(a - c)`-th non-frozen position
of `l` as long as `a < mesg_bits`. -/
theorem systematic_fold (P : PolarKit) (mess : Nat → Nat → Int) (l : List Nat) (c : Nat)
    (f : Nat → Nat → Int) (hc : c ≤ mesg_bits) (a : Nat) :
    (l.foldl
      (fun (st : Nat × (Nat → Nat → Int)) i =>
        if st.1 < mesg_bits ∧ frozen_bit P i = false then
          (st.1 + 1, fun a => if a = st.1 then mess i else st.2 a)
        else st)
      (c, f)).2 a =
    if c ≤ a ∧ a < mesg_bits ∧ a - c < (l.filter (fun j => !frozen_bit P j)).length then
      mess ((l.filter (fun j => !frozen_bit P j)).getD (a - c) 0)
    else f a := by
  induction l generalizing c f with
  | nil => simp
  | cons i l ih =>
    rw [List.foldl_cons, List.filter_cons]
    by_cases hfz : frozen_bit P i = false
    · by_cases hlt : c < mesg_bits
      · rw [if_pos ⟨hlt, hfz⟩, ih (c + 1) _ (by omega), hfz]
        simp only [Bool.not_false, if_true, List.length_cons]
        rcases Nat.lt_trichotomy a c with h | h | h
        · rw [if_neg (by omega), if_neg (by omega), if_neg (by omega)]
        · subst h
          rw [if_neg (by omega), if_pos rfl, if_pos ⟨le_refl _, hlt, by omega⟩, Nat.sub_self,
            List.getD_cons_zero]
        · obtain ⟨k, rfl⟩ : ∃ k, a = c + 1 + k := ⟨a - (c + 1), by omega⟩
          have e1 : c + 1 + k - (c + 1) = k := by omega
          have e2 : c + 1 + k - c = k + 1 := by omega
          rw [e1, e2, List.getD_cons_succ]
          by_cases hk : c + 1 + k < mesg_bits ∧ k < (l.filter (fun j => !frozen_bit P j)).length
          · rw [if_pos ⟨by omega, hk.1, hk.2⟩, if_pos ⟨by omega, hk.1, by omega⟩]
          · rw [if_neg (fun g => hk ⟨g.2.1, g.2.2⟩), if_neg (by omega),
              if_neg (fun g => hk ⟨g.2.1, by omega⟩)]
      · rw [if_neg (fun g => hlt g.1), ih c f hc, if_neg (by omega), if_neg (by omega)]
    · rw [if_neg (fun g => hfz g.2), ih c f hc]
      have hfz2 : frozen_bit P i = true := by simpa using hfz
      rw [hfz2]
      simp only [Bool.not_true, Bool.false_eq_true, if_false]

theorem systematic_def (P : PolarKit) (m : Nat → Nat → Int) :
    systematic P m = systematic_on P m (List.range code_len) := rfl

/-- `systematic` in closed form: slot `a < mesg_bits` receives the
re-encoded value at the `a`-th non-frozen position, when there is one. -/
theorem systematic_eq (P : PolarKit) (m : Nat → Nat → Int) (a : Nat) :
    systematic P m a =
      if a < mesg_bits ∧ a < (info_positions P).length then
        P.encode m ((info_positions P).getD a 0)
      else m a := by
  have h : ∀ l : List Nat, systematic_on P m l a =
      if 0 ≤ a ∧ a < mesg_bits ∧ a - 0 < (l.filter (fun j => !frozen_bit P j)).length then
        P.encode m ((l.filter (fun j => !frozen_bit P j)).getD (a - 0) 0)
      else m a :=
    fun l => systematic_fold P (P.encode m) l 0 m (Nat.zero_le _) a
  rw [systematic_def, h]
  simp only [Nat.zero_le, true_and, Nat.sub_zero, info_positions]

/-- C19 (flips indexing): with at least `data_bits` non-frozen positions,
the code index read by the flips loop for data bit `i` is the `i`-th entry of
the ascending list of non-frozen positions; it is below `code_len`, it is the
position from which `systematic` copied `mesg[i]`, and the loop (and so a
successful `operator()`) returns the number of data bits at which the sign
of `code` at that position differs from the sign of the accepted
candidate's re-encoded value there. -/
theorem flips_indexing (P : PolarKit) (code : List Int) (m : Nat → Nat → Int) (best : Nat)
    (message : List Nat) (hinfo : data_bits ≤ (info_positions P).length) :
    flips_positions P data_bits 0 = some ((info_positions P).take data_bits) ∧
    (info_positions P).Pairwise (fun a b => a < b) ∧
    (∀ j, j ∈ info_positions P ↔ j < code_len ∧ frozen_bit P j = false) ∧
    (∀ i, i < data_bits →
      (info_positions P).getD i 0 < code_len ∧
      frozen_bit P ((info_positions P).getD i 0) = false ∧
      systematic P m i = P.encode m ((info_positions P).getD i 0)) ∧
    (∃ out, flips_loop P code (systematic P m) best data_bits 0 0 0 message =
      some (flips_count code (systematic P m) best (info_positions P), out)) ∧
    flips_count code (systematic P m) best (info_positions P) =
      ((List.range data_bits).filter
        (fun i => decide (code.getD ((info_positions P).getD i 0) 0 < 0) !=
          decide (P.encode m ((info_positions P).getD i 0) best < 0))).length ∧
    (select (systematic P (P.decode code).2) (sorted_order P (P.decode code).1) = some best →
      ∃ out, call P message code =
        some ((flips_count code (systematic P (P.decode code).2) best (info_positions P) : Int),
          out)) := by
  have hl : (List.range' 0 code_len).filter (fun j => !frozen_bit P j) = info_positions P := by
    rw [info_positions, List.range_eq_range']
  have hsys : ∀ i, i < data_bits →
      systematic P m i = P.encode m ((info_positions P).getD i 0) := by
    intro i hi
    rw [systematic_eq, if_pos ⟨by rw [mesg_bits_eq]; rw [data_bits_eq] at hi; omega, by omega⟩]
  have hloop : ∀ (m1 : Nat → Nat → Int), ∃ out,
      flips_loop P code m1 best data_bits 0 0 0 message =
        some (flips_count code m1 best (info_positions P), out) := by
    intro m1
    obtain ⟨out, ho⟩ := flips_loop_closed P code m1 best data_bits 0 0 code_len 0 message
      (info_positions P) (Nat.zero_add _) hl hinfo
    refine ⟨out, ?_⟩
    rw [ho]
    simp only [Nat.zero_add, flips_count]
  refine ⟨flips_positions_eq P data_bits 0 code_len _ (Nat.zero_add _) hl hinfo,
    info_positions_sorted P, mem_info_positions P, ?_, hloop _, ?_, ?_⟩
  · intro i hi
    have hmem : (info_positions P).getD i 0 ∈ info_positions P := by
      rw [List.getD_eq_getElem _ _ (by omega)]
      exact List.getElem_mem _
    exact ⟨((mem_info_positions P _).1 hmem).1, ((mem_info_positions P _).1 hmem).2, hsys i hi⟩
  · unfold flips_count
    rw [List.filter_congr (fun i hi => by rw [hsys i (List.mem_range.1 hi)])]
  · intro hsel
    obtain ⟨out, ho⟩ := hloop (systematic P (P.decode code).2)
    refine ⟨out, ?_⟩
    unfold call
    simp only [hsel, ho, Option.map_some']

/-- C19 witness: `plain_kit`, whose table freezes no position. -/
theorem flips_indexing_witness :
    data_bits ≤ (info_positions plain_kit).length ∧
    flips_positions plain_kit data_bits 0 = some ((info_positions plain_kit).take data_bits) :=
  ⟨by decide!,
    (flips_indexing plain_kit [] (fun _ _ => 1) 0 [] (by decide!)).1⟩

/-- C15 counterexample: no table over the 4096 code positions has 2080 frozen
and 2080 non-frozen positions. -/
theorem frozen_mask_counts_counterexample : ¬ ∃ P : PolarKit, spec_mask_counts P := by
  rintro ⟨P, h1, h2⟩
  have := frozen_add_info P
  rw [code_len_eq] at this
  omega

/-- C15 (frozen-mask counts, amended): a table over the 4096 code positions
that leaves `mesg_bits = 2080 = 2048 + 32` non-frozen positions has 2016
frozen positions (the two counts always add up to 4096); 2080 non-frozen
positions is what `systematic` needs: it then fills every one of the 2080
message slots, slot `j` from the `j`-th non-frozen position, while a table
with fewer leaves the slots from that number on as the list decoder wrote
them. -/
theorem frozen_mask_counts (P : PolarKit) (hinfo : (info_positions P).length = mesg_bits) :
    frozen_count P = 2016 ∧ mesg_bits = 2048 + 32 ∧
    (∀ Q : PolarKit, frozen_count Q + (info_positions Q).length = 4096) ∧
    (∀ (m : Nat → Nat → Int) (j : Nat), j < mesg_bits →
      (info_positions P).getD j 0 < code_len ∧
      systematic P m j = P.encode m ((info_positions P).getD j 0)) ∧
    (∀ (Q : PolarKit) (m : Nat → Nat → Int) (j : Nat),
      (info_positions Q).length < mesg_bits → (info_positions Q).length ≤ j →
      systematic Q m j = m j) := by
  have hsum := frozen_add_info P
  rw [code_len_eq] at hsum
  rw [mesg_bits_eq] at hinfo
  refine ⟨by omega, rfl, fun Q => by rw [frozen_add_info Q, code_len_eq], ?_, ?_⟩
  · intro m j hj
    have hmem : (info_positions P).getD j 0 ∈ info_positions P := by
      rw [List.getD_eq_getElem _ _ (by rw [mesg_bits_eq] at hj; omega)]
      exact List.getElem_mem _
    refine ⟨((mem_info_positions P _).1 hmem).1, ?_⟩
    rw [systematic_eq, if_pos ⟨hj, by rw [mesg_bits_eq] at hj; omega⟩]
  · intro Q m j h1 h2
    rw [systematic_eq, if_neg (by omega)]

/-- C15 witness: the table of `mask_kit`. -/
theorem frozen_mask_counts_witness :
    (info_positions mask_kit).length = mesg_bits ∧ frozen_count mask_kit = 2016 :=
  ⟨by decide!, (frozen_mask_counts mask_kit (by decide!)).1⟩

/-- Both candidates of `failing_kit` have a nonzero CRC. -/
theorem failing_kit_crc (code : List Int) (k : Nat) :
    crc_of (systematic failing_kit (failing_kit.decode code).2) k ≠ 0 := by
  have h : ∀ i, systematic failing_kit (failing_kit.decode code).2 i k = -1 := by
    intro i
    rw [systematic_eq]
    split_ifs <;> rfl
  unfold crc_of
  simp only [h]
  decide!

end PolarDecoder

end Ribbit

namespace Ribbit

namespace Decoder

variable {δ α ρ β : Type}

/-! ### The output buffer when decoding fails -/

/-- Storing `a ^ x` in a byte keeps the low 8 bits of `x`. -/
theorem xor_byte (a x : Nat) (ha : a < 256) : (a ^^^ x) % 256 = a ^^^ (x % 256) := by
  apply Nat.eq_of_testBit_eq
  intro i
  have h256 : (256 : Nat) = 2 ^ 8 := rfl
  rw [h256, Nat.testBit_mod_two_pow, Nat.testBit_xor, Nat.testBit_xor,
    Nat.testBit_mod_two_pow]
  by_cases hi : i < 8
  · simp [hi]
  · have : a.testBit i = false := by
      apply Nat.testBit_lt_two_pow
      calc a < 2 ^ 8 := ha
        _ ≤ 2 ^ i := Nat.pow_le_pow_right (by decide) (by omega)
    simp [hi, this]

/-- C20 (output buffer on decode failure): when no candidate of the polar
decoder has CRC zero, the polar decoder returns -1 with the caller's buffer
as it was, `fetch` returns -1, and the 256 bytes after the call are the bytes
before it XOR the low bytes of the scrambler stream; so a byte changes
wherever the scrambler byte is nonzero, and is nonzero wherever it differed
from the scrambler byte. -/
theorem fetch_failure (K : DecoderKit δ α ρ β) (P : PolarKit) (s : Decoder δ ρ β)
    (payload : List Nat) (hlen : payload.length = mesg_bytes)
    (hbyte : ∀ b ∈ payload, b < 256)
    (hcrc : ∀ k, k < P.SIZE →
      PolarDecoder.crc_of (PolarDecoder.systematic P (P.decode (K.shuffle s.code)).2) k ≠ 0) :
    PolarDecoder.call P payload (K.shuffle s.code) = some (-1, payload) ∧
    ∃ out : List Nat, (fetch K P s payload).1 = some (-1, out) ∧
      out.length = mesg_bytes ∧
      ∀ i, i < mesg_bytes →
        out.getD i 0 = payload.getD i 0 ^^^ (K.scrambler i % 256) ∧
        (K.scrambler i % 256 ≠ 0 → out.getD i 0 ≠ payload.getD i 0) ∧
        (payload.getD i 0 ≠ K.scrambler i % 256 → out.getD i 0 ≠ 0) := by
  have hsel := (PolarDecoder.select_eq_none P (P.decode (K.shuffle s.code)).1 _).2 hcrc
  have hcall : PolarDecoder.call P payload (K.shuffle s.code) = some (-1, payload) := by
    unfold PolarDecoder.call
    simp only [hsel]
  refine ⟨hcall, (List.range mesg_bytes).map
    (fun i => (payload.getD i 0 ^^^ K.scrambler i) % 256), ?_, ?_, ?_⟩
  · unfold fetch
    simp only [hcall, Option.map_some']
  · rw [List.length_map, List.length_range]
  · intro i hi
    have hb : payload.getD i 0 < 256 := by
      rw [List.getD_eq_getElem _ _ (by rw [hlen]; exact hi)]
      exact hbyte _ (List.getElem_mem _)
    have hout : ((List.range mesg_bytes).map
        (fun i => (payload.getD i 0 ^^^ K.scrambler i) % 256)).getD i 0 =
        payload.getD i 0 ^^^ (K.scrambler i % 256) := by
      rw [List.getD_eq_getElem _ _ (by rw [List.length_map, List.length_range]; exact hi),
        List.getElem_map, List.getElem_range, xor_byte _ _ hb]
    rw [hout]
    refine ⟨rfl, ?_, ?_⟩
    · intro hx h
      apply hx
      have h2 := congrArg (fun v => payload.getD i 0 ^^^ v) h
      simp only [Nat.xor_cancel_left, Nat.xor_self] at h2
      exact h2
    · intro hx h
      apply hx
      exact Nat.xor_eq_zero.1 h

/-- C20 witness: `failing_kit`, whose candidates all have a nonzero CRC. -/
theorem fetch_failure_witness :
    ∃ out : List Nat,
      (fetch (scripted_kit 0) PolarDecoder.failing_kit (fresh (0, 0) () 0) (List.replicate 256 0)).1 =
        some (-1, out) ∧ out.length = mesg_bytes :=
  (fetch_failure (scripted_kit 0) PolarDecoder.failing_kit (fresh (0, 0) () 0) (List.replicate 256 0)
    (List.length_replicate _ _) (fun b hb => by rw [List.eq_of_mem_replicate hb]; decide)
    (fun k _ => PolarDecoder.failing_kit_crc _ k)).2.imp (fun _ h => ⟨h.1, h.2.1⟩)

end Decoder

end Ribbit

namespace Ribbit

namespace Permute

variable {α β : Type}

/-! ### The interleaver and its inverse -/

theorem swap_in_range (array : List α) (i j : Nat) (hi : i < array.length)
    (hj : j < array.length) :
    swap array i j = (array.set i (array.get ⟨j, hj⟩)).set j (array.get ⟨i, hi⟩) := by
  unfold swap
  rw [List.getElem?_eq_getElem hi, List.getElem?_eq_getElem hj]
  rfl

theorem swap_out_of_range (array : List α) (i j : Nat)
    (h : ¬ (i < array.length ∧ j < array.length)) : swap array i j = array := by
  unfold swap
  by_cases hi : i < array.length
  · have e : array[j]? = none := List.getElem?_eq_none (by omega)
    rw [e]
    cases array[i]? <;> rfl
  · have e : array[i]? = none := List.getElem?_eq_none (by omega)
    rw [e]

theorem swap_length (array : List α) (i j : Nat) : (swap array i j).length = array.length := by
  by_cases h : i < array.length ∧ j < array.length
  · rw [swap_in_range array i j h.1 h.2, List.length_set, List.length_set]
  · rw [swap_out_of_range array i j h]

/-- Swapping twice restores the array. -/
theorem swap_swap (array : List α) (i j : Nat) : swap (swap array i j) i j = array := by
  by_cases h : i < array.length ∧ j < array.length
  · obtain ⟨hi, hj⟩ := h
    have hi2 : i < (swap array i j).length := by rw [swap_length]; exact hi
    have hj2 : j < (swap array i j).length := by rw [swap_length]; exact hj
    rw [swap_in_range _ i j hi2 hj2]
    apply List.ext_getElem?
    intro k
    simp only [swap_in_range array i j hi hj, List.get_eq_getElem, List.getElem_set,
      List.getElem?_set, List.length_set]
    by_cases h1 : j = k
    · subst h1
      by_cases h2 : i = j
      · subst h2
        simp [hi]
      · simp [hi, hj, h2, Ne.symm h2]
    · by_cases h2 : i = k
      · subst h2
        simp [hi, hj, h1, Ne.symm h1]
      · simp [h1, h2]
  · rw [swap_out_of_range array i j h, swap_out_of_range array i j h]

theorem swap_map (f : α → β) (array : List α) (i j : Nat) :
    swap (array.map f) i j = (swap array i j).map f := by
  unfold swap
  rw [List.getElem?_map, List.getElem?_map]
  cases array[i]? <;> cases array[j]? <;> simp [List.map_set]

/-- A swap rearranges the array. -/
theorem swap_perm (array : List α) (i j : Nat) : (swap array i j).Perm array := by
  by_cases h : i < array.length ∧ j < array.length
  · obtain ⟨hi, hj⟩ := h
    rw [swap_in_range array i j hi hj]
    classical
    rw [List.perm_iff_count]
    intro c
    rw [List.count_set _ _ _ _ (by rw [List.length_set]; exact hj), List.count_set _ _ _ _ hi]
    simp only [List.get_eq_getElem, List.getElem_set]
    have h1 : (if (array[i] == c) = true then 1 else 0) ≤ array.count c := by
      split_ifs with g
      · exact List.count_pos_iff.2 (by rw [← eq_of_beq g]; exact List.getElem_mem _)
      · exact Nat.zero_le _
    have h2 : (if (array[j] == c) = true then 1 else 0) ≤ array.count c := by
      split_ifs with g
      · exact List.count_pos_iff.2 (by rw [← eq_of_beq g]; exact List.getElem_mem _)
      · exact Nat.zero_le _
    by_cases hij : i = j
    · subst hij
      simp only [if_true]
      omega
    · simp only [hij, if_false]
      omega
  · rw [swap_out_of_range array i j h]

/-- Undoing a sequence of swaps in the opposite order. -/
theorem foldr_foldl_swap (ops : List Nat) (pr : Nat → Nat) (array : List α) :
    ops.foldr (fun i a => swap a i (pr i)) (ops.foldl (fun a i => swap a i (pr i)) array) =
      array ∧
    ops.foldl (fun a i => swap a i (pr i)) (ops.foldr (fun i a => swap a i (pr i)) array) =
      array := by
  induction ops generalizing array with
  | nil => exact ⟨rfl, rfl⟩
  | cons p ps ih =>
    constructor
    · rw [List.foldl_cons, List.foldr_cons, (ih _).1, swap_swap]
    · rw [List.foldr_cons, List.foldl_cons, swap_swap, (ih _).2]

theorem foldl_swap_perm (ops : List Nat) (pr : Nat → Nat) (array : List α) :
    (ops.foldl (fun a i => swap a i (pr i)) array).Perm array := by
  induction ops generalizing array with
  | nil => exact List.Perm.refl _
  | cons p ps ih =>
    rw [List.foldl_cons]
    exact (ih _).trans (swap_perm array p (pr p))

theorem foldr_swap_perm (ops : List Nat) (pr : Nat → Nat) (array : List α) :
    (ops.foldr (fun i a => swap a i (pr i)) array).Perm array := by
  induction ops with
  | nil => exact List.Perm.refl _
  | cons p ps ih =>
    rw [List.foldr_cons]
    exact (swap_perm _ p (pr p)).trans ih

theorem foldl_swap_map (f : α → β) (ops : List Nat) (pr : Nat → Nat) (array : List α) :
    ops.foldl (fun a i => swap a i (pr i)) (array.map f) =
      (ops.foldl (fun a i => swap a i (pr i)) array).map f := by
  induction ops generalizing array with
  | nil => rfl
  | cons p ps ih => rw [List.foldl_cons, List.foldl_cons, swap_map, ih]

theorem foldr_swap_map (f : α → β) (ops : List Nat) (pr : Nat → Nat) (array : List α) :
    ops.foldr (fun i a => swap a i (pr i)) (array.map f) =
      (ops.foldr (fun i a => swap a i (pr i)) array).map f := by
  induction ops with
  | nil => rfl
  | cons p ps ih => rw [List.foldr_cons, List.foldr_cons, ih, swap_map]

/-- Every swap of the shuffle over `size` positions stays inside them. -/
theorem partner_range (prng : Nat → Nat) (size i : Nat) (hi : i < size) :
    i ≤ partner prng size i ∧ partner prng size i < size := by
  unfold partner
  have := Nat.mod_lt (prng i) (show 0 < size - i by omega)
  omega

/-- C13 (interleaver inverse): for every pseudo-random sequence and every
array of `code_len = 4096` values, `ReverseFisherYatesShuffle<4096>` after
`FisherYatesShuffle<4096>` (and the other way round) returns the array; both
only rearrange the array, every swap stays inside the 4096 positions, and
both act on positions alone (they commute with mapping a function over the
values), so each is a bijection of the 4096 positions. -/
theorem interleaver_inverse (prng : Nat → Nat) (array : List α)
    (hlen : array.length = code_len) :
    ReverseFisherYatesShuffle prng code_len (FisherYatesShuffle prng code_len array) = array ∧
    FisherYatesShuffle prng code_len (ReverseFisherYatesShuffle prng code_len array) = array ∧
    (FisherYatesShuffle prng code_len array).Perm array ∧
    (ReverseFisherYatesShuffle prng code_len array).Perm array ∧
    (FisherYatesShuffle prng code_len array).length = code_len ∧
    (ReverseFisherYatesShuffle prng code_len array).length = code_len ∧
    (∀ i, i < code_len - 1 →
      i ≤ partner prng code_len i ∧ partner prng code_len i < array.length) ∧
    (FisherYatesShuffle prng code_len (List.range code_len)).Perm (List.range code_len) ∧
    (ReverseFisherYatesShuffle prng code_len (List.range code_len)).Perm
      (List.range code_len) ∧
    ∀ (f : α → β),
      FisherYatesShuffle prng code_len (array.map f) =
        (FisherYatesShuffle prng code_len array).map f ∧
      ReverseFisherYatesShuffle prng code_len (array.map f) =
        (ReverseFisherYatesShuffle prng code_len array).map f := by
  unfold FisherYatesShuffle ReverseFisherYatesShuffle
  refine ⟨(foldr_foldl_swap _ _ array).1, (foldr_foldl_swap _ _ array).2,
    foldl_swap_perm _ _ array, foldr_swap_perm _ _ array, ?_, ?_, ?_,
    foldl_swap_perm _ _ _, foldr_swap_perm _ _ _, fun f =>
      ⟨foldl_swap_map f _ _ array, foldr_swap_map f _ _ array⟩⟩
  · rw [(foldl_swap_perm _ _ array).length_eq, hlen]
  · rw [(foldr_swap_perm _ _ array).length_eq, hlen]
  · intro i hi
    rw [hlen]
    exact partner_range prng code_len i (by omega)

/-- C13 witness: the identity array and the sequence `7 i + 3`. -/
theorem interleaver_inverse_witness :
    (List.range code_len).length = code_len ∧
    ReverseFisherYatesShuffle (fun i => 7 * i + 3) code_len
      (FisherYatesShuffle (fun i => 7 * i + 3) code_len (List.range code_len)) =
      List.range code_len :=
  ⟨List.length_range _,
    (@interleaver_inverse Nat Nat (fun i => 7 * i + 3) (List.range code_len)
      (List.length_range _)).1⟩

end Permute

end Ribbit

namespace Ribbit

/-! ### Code-bit placement -/

/-- Writing pairs of values at `B + 2 i` and `B + 2 i + 1` for `i < m`. -/
theorem foldl_set_pairs (a b : Nat → Int) (B : Nat) (c0 : List Int) (m : Nat)
    (hm : B + 2 * m ≤ c0.length) :
    ((List.range m).foldl (fun c i => (c.set (B + 2 * i) (a i)).set (B + 2 * i + 1) (b i))
      c0).length = c0.length ∧
    ∀ n, ((List.range m).foldl
        (fun c i => (c.set (B + 2 * i) (a i)).set (B + 2 * i + 1) (b i)) c0).getD n 0 =
      if B ≤ n ∧ n < B + 2 * m then
        (if (n - B) % 2 = 0 then a ((n - B) / 2) else b ((n - B) / 2))
      else c0.getD n 0 := by
  induction m with
  | zero =>
    refine ⟨rfl, fun n => ?_⟩
    rw [if_neg (by omega)]
    rfl
  | succ m ih =>
    obtain ⟨h1, h2⟩ := ih (by omega)
    rw [List.range_succ, List.foldl_append, List.foldl_cons, List.foldl_nil]
    refine ⟨by rw [List.length_set, List.length_set, h1], fun n => ?_⟩
    rw [List.getD_eq_getElem?_getD, List.getElem?_set, List.getElem?_set,
      List.length_set, h1]
    by_cases e1 : B + 2 * m + 1 = n
    · have c1 : B ≤ n ∧ n < B + 2 * (m + 1) := by omega
      have c2 : ¬ (n - B) % 2 = 0 := by omega
      have c3 : (n - B) / 2 = m := by omega
      have c4 : B + 2 * m + 1 < c0.length := by omega
      rw [if_pos e1, if_pos c4, if_pos c1, if_neg c2, c3]
      rfl
    · rw [if_neg e1]
      by_cases e2 : B + 2 * m = n
      · have c1 : B ≤ n ∧ n < B + 2 * (m + 1) := by omega
        have c2 : (n - B) % 2 = 0 := by omega
        have c3 : (n - B) / 2 = m := by omega
        have c4 : B + 2 * m < c0.length := by omega
        rw [if_pos e2, if_pos c4, if_pos c1, if_pos c2, c3]
        rfl
      · rw [if_neg e2, ← List.getD_eq_getElem?_getD, h2 n]
        by_cases e3 : B ≤ n ∧ n < B + 2 * m
        · have c1 : B ≤ n ∧ n < B + 2 * (m + 1) := ⟨e3.1, by omega⟩
          rw [if_pos e3, if_pos c1]
        · have c1 : ¬ (B ≤ n ∧ n < B + 2 * (m + 1)) := by omega
          rw [if_neg e3, if_neg c1]


theorem code_index_eq (s : Int) (i : Nat) :
    Encoder.code_index s i = Decoder.code_index s i ∧
    Decoder.code_index s i = 2 * (64 * s + (i : Int)) := by
  unfold Encoder.code_index Decoder.code_index
  rw [subcarrier_count_eq]
  constructor <;> push_cast <;> omega

theorem code_index_toNat (s : Int) (i : Nat) (hs : 0 ≤ s) :
    (Decoder.code_index s i).toNat = 2 * (64 * s.toNat) + 2 * i := by
  rw [(code_index_eq s i).2]
  omega

namespace Decoder

variable {δ α ρ β : Type}

theorem demap_code_def (K : DecoderKit δ α ρ β) (t : Decoder δ ρ β) :
    (demap K t).code = (List.range subcarrier_count).foldl
      (fun c i =>
        (c.set (code_index t.symbol_number i).toNat
          (K.soft t.dsp i (K.precision t.dsp)).1).set
          ((code_index t.symbol_number i).toNat + 1) (K.soft t.dsp i (K.precision t.dsp)).2)
      t.code := by
  simp only [demap]

/-- `demap` in closed form: the entries `2 (64 s + i)` and `2 (64 s + i) + 1`
for `i < 64` receive the two soft values of subcarrier `i`, every other
entry is left alone. -/
theorem demap_code (K : DecoderKit δ α ρ β) (t : Decoder δ ρ β) (hs : 0 ≤ t.symbol_number)
    (hlen : 2 * (64 * t.symbol_number.toNat) + 128 ≤ t.code.length) :
    (demap K t).code.length = t.code.length ∧
    ∀ n, (demap K t).code.getD n 0 =
      if 2 * (64 * t.symbol_number.toNat) ≤ n ∧ n < 2 * (64 * t.symbol_number.toNat) + 128 then
        (if (n - 2 * (64 * t.symbol_number.toNat)) % 2 = 0 then
          (K.soft t.dsp ((n - 2 * (64 * t.symbol_number.toNat)) / 2) (K.precision t.dsp)).1
        else
          (K.soft t.dsp ((n - 2 * (64 * t.symbol_number.toNat)) / 2) (K.precision t.dsp)).2)
      else t.code.getD n 0 := by
  have hf : (fun (c : List Int) i =>
        (c.set (code_index t.symbol_number i).toNat
          (K.soft t.dsp i (K.precision t.dsp)).1).set
          ((code_index t.symbol_number i).toNat + 1) (K.soft t.dsp i (K.precision t.dsp)).2) =
      (fun (c : List Int) i =>
        (c.set (2 * (64 * t.symbol_number.toNat) + 2 * i)
          (K.soft t.dsp i (K.precision t.dsp)).1).set
          (2 * (64 * t.symbol_number.toNat) + 2 * i + 1)
          (K.soft t.dsp i (K.precision t.dsp)).2) := by
    funext c i
    rw [code_index_toNat _ _ hs]
  have h := foldl_set_pairs (fun i => (K.soft t.dsp i (K.precision t.dsp)).1)
    (fun i => (K.soft t.dsp i (K.precision t.dsp)).2) (2 * (64 * t.symbol_number.toNat))
    t.code subcarrier_count (by rw [subcarrier_count_eq]; omega)
  rw [demap_code_def, hf]
  have e : 2 * subcarrier_count = 128 := by rw [subcarrier_count_eq]
  rw [e] at h
  beta_reduce at h
  exact h

/-- The only writes of `process` to `code` are those of `demap`, run with the
`symbol_number` on entry, which then lies in `[0, payload_symbols)`. -/
theorem process_code (K : DecoderKit δ α ρ β) (t : Decoder δ ρ β) :
    (process K t).2.code = t.code ∨
    (0 ≤ t.symbol_number ∧ t.symbol_number < payload_symbols ∧
      ∃ u : Decoder δ ρ β, u.symbol_number = t.symbol_number ∧ u.code = t.code ∧
        (process K t).2.code = (demap K u).code) := by
  obtain ⟨a1, a2, _, _⟩ := after_gate_fields K t
  by_cases hg : gate_value K t = some 1
  · left
    simp only [gate_value] at hg
    simp only [process]
    cases hc : t.staged_check
    · rw [hc] at hg
      simp at hg
    · rw [hc] at hg
      simp only [if_true, Option.some.injEq] at hg
      simp only [if_true, hg]
  · obtain ⟨c1, c2, c3⟩ := process_step_cases K t hg
    by_cases h0 : 0 ≤ t.symbol_number
    · by_cases h1 : t.symbol_number < payload_symbols
      · right
        refine ⟨h0, h1, _, ?_, ?_, (c2 h0 h1).2.2.1⟩
        · exact a1
        · exact a2
      · left
        rw [c3 (by omega)]
        exact a2
    · left
      have h1 : t.symbol_number < payload_symbols := by rw [payload_symbols_eq]; omega
      rw [c1 (by omega) h1]
      exact a2

end Decoder

end Ribbit

namespace Ribbit

namespace Encoder

variable {σ α : Type}

/-- `payload_symbol` reads `code` only at the entries `code_index s i` and
`code_index s i + 1` for `i < subcarrier_count`: two states that agree there
(and on `sig`, the deque and `symbol_number`) emit the same symbol. -/
theorem payload_symbol_reads (E : EncoderKit σ α) (s s2 : Encoder σ α)
    (h1 : s.sig = s2.sig) (h2 : s.buffer = s2.buffer)
    (h3 : s.symbol_number = s2.symbol_number)
    (hc : ∀ i, i < subcarrier_count →
      s.code.getD (code_index s.symbol_number i).toNat 0 =
        s2.code.getD (code_index s.symbol_number i).toNat 0 ∧
      s.code.getD ((code_index s.symbol_number i).toNat + 1) 0 =
        s2.code.getD ((code_index s.symbol_number i).toNat + 1) 0) :
    (payload_symbol E s).sig = (payload_symbol E s2).sig ∧
    (payload_symbol E s).buffer = (payload_symbol E s2).buffer := by
  have hsig : (List.range subcarrier_count).foldl
      (fun g i => E.qpsk_mul g (first_subcarrier + i)
        (s.code.getD (code_index s.symbol_number i).toNat 0)
        (s.code.getD ((code_index s.symbol_number i).toNat + 1) 0)) s.sig =
      (List.range subcarrier_count).foldl
      (fun g i => E.qpsk_mul g (first_subcarrier + i)
        (s2.code.getD (code_index s2.symbol_number i).toNat 0)
        (s2.code.getD ((code_index s2.symbol_number i).toNat + 1) 0)) s2.sig := by
    rw [← h1, ← h3]
    apply List.foldl_ext
    intro g i hi
    rw [(hc i (List.mem_range.1 hi)).1, (hc i (List.mem_range.1 hi)).2]
  unfold payload_symbol
  simp only
  constructor
  · rw [symbol_sig, symbol_sig, hsig]
  · apply Deque.ext_items
    rw [symbol_items, symbol_items, hsig, h2]

/-- A produce step that runs `payload_symbol` (`count_down == 2`) as
emission number `k` of a frame has `symbol_number == k - 16`, in
`[0, payload_symbols)`. -/
theorem payload_phase (s : Encoder σ α) (k : Nat) (hp : Phase k s) (hc : s.count_down = 2) :
    16 ≤ k ∧ k < 48 ∧ s.symbol_number = (k : Int) - 16 ∧
    0 ≤ s.symbol_number ∧ s.symbol_number < payload_symbols := by
  obtain ⟨hle, hcd, _, hsn⟩ := hp
  rw [hcd] at hc
  unfold phase_count_down at hc
  unfold phase_symbol_number at hsn
  rw [payload_symbols_eq]
  split_ifs at hc hsn <;> omega

end Encoder

end Ribbit

namespace Ribbit

end Ribbit

namespace Ribbit

namespace PolarDecoder

/-! ### Candidate selection for every outcome of the sort -/

/-- The first lane of `order` with CRC zero, for every `order` that lists
the lanes in ascending metric: it exists as soon as some lane has CRC zero,
and no lane with CRC zero has a smaller metric. -/
theorem select_order (P : PolarKit) (metric : Nat → Int) (mesg : Nat → Nat → Int)
    (order : List Nat) (hperm : order.Perm (List.range P.SIZE))
    (hsorted : order.Sorted (fun a b => metric a ≤ metric b)) :
    (select mesg order = none ↔ ∀ k, k < P.SIZE → crc_of mesg k ≠ 0) ∧
    ∀ best, select mesg order = some best →
      best < P.SIZE ∧ crc_of mesg best = 0 ∧
      (∃ pre post, order = pre ++ best :: post ∧ ∀ k ∈ pre, crc_of mesg k ≠ 0) ∧
      ∀ k, k < P.SIZE → crc_of mesg k = 0 → metric best ≤ metric k := by
  have hmem : ∀ k, k ∈ order ↔ k < P.SIZE := fun k => by
    rw [hperm.mem_iff, List.mem_range]
  constructor
  · unfold select
    rw [List.find?_eq_none]
    constructor
    · intro h k hk
      have := h k ((hmem k).2 hk)
      simpa using this
    · intro h k hk
      have := h k ((hmem k).1 hk)
      simpa using this
  · intro best h
    unfold select at h
    obtain ⟨h1, pre, post, h2, h3⟩ := List.find?_eq_some.1 h
    have hb : best ∈ order := by rw [h2]; simp
    have h3n : ∀ k ∈ pre, crc_of mesg k ≠ 0 := by
      intro k hk
      have := h3 k hk
      simpa using this
    refine ⟨(hmem best).1 hb, by simpa using h1, ⟨pre, post, h2, h3n⟩, ?_⟩
    intro k hk hz
    have hk2 : k ∈ pre ++ best :: post := by
      rw [← h2]; exact (hmem k).2 hk
    have hs := hsorted
    rw [h2] at hs
    rcases List.mem_append.1 hk2 with hp | hp
    · exact absurd hz (h3n k hp)
    · rcases List.mem_cons.1 hp with he | hq
      · rw [he]
      · have := (List.pairwise_append.1 hs).2.1
        exact (List.pairwise_cons.1 this).1 k hq

theorem call_eq_call_with (P : PolarKit) (message : List Nat) (code : List Int) :
    call P message code = call_with P (sorted_order P (P.decode code).1) message code := by
  unfold call call_with
  rfl

/-- Both lanes of `tie_kit` have CRC zero. -/
theorem tie_kit_crc (code : List Int) (k : Nat) :
    crc_of (systematic tie_kit (tie_kit.decode code).2) k = 0 := by
  have h : ∀ i, systematic tie_kit (tie_kit.decode code).2 i k = 1 := by
    intro i
    rw [systematic_eq]
    split_ifs <;> rfl
  unfold crc_of
  simp only [h]
  decide!

/-- C7 (candidate selection), for every outcome `order` of the sort, that
is every list of the lanes in ascending order of metric: a lane is accepted
(the result is not negative) exactly when some lane has CRC-32 zero over its
2080 message bits, and otherwise the result is -1 with the buffer left
alone; the accepted lane `best` has CRC zero, is the first lane in `order`
with CRC zero, no lane with CRC zero has a smaller path metric, and the 2048
message bits written to the 256-byte buffer are the hard decisions of
`best`.  The insertion sort of `call` is one such outcome. -/
theorem candidate_selection (P : PolarKit) (order : List Nat) (message : List Nat)
    (code : List Int)
    (hinfo : data_bits ≤ info_count P code_len 0) (hlen : message.length = mesg_bytes)
    (hperm : order.Perm (List.range P.SIZE))
    (hsorted : order.Sorted (fun a b => (P.decode code).1 a ≤ (P.decode code).1 b)) :
    ((∃ k, k < P.SIZE ∧ crc_of (systematic P (P.decode code).2) k = 0) →
      ∃ best flips out,
        select (systematic P (P.decode code).2) order = some best ∧
        call_with P order message code = some (((flips : Nat) : Int), out) ∧
        best < P.SIZE ∧ crc_of (systematic P (P.decode code).2) best = 0 ∧
        (∃ pre post, order = pre ++ best :: post ∧
          ∀ k ∈ pre, crc_of (systematic P (P.decode code).2) k ≠ 0) ∧
        (∀ k, k < P.SIZE → crc_of (systematic P (P.decode code).2) k = 0 →
          (P.decode code).1 best ≤ (P.decode code).1 k) ∧
        out.length = mesg_bytes ∧
        ∀ i, i < data_bits →
          get_le_bit out i = decide (systematic P (P.decode code).2 i best < 0)) ∧
    (∀ (r : Int) (out : List Nat), call_with P order message code = some (r, out) → 0 ≤ r →
      ∃ k, k < P.SIZE ∧ crc_of (systematic P (P.decode code).2) k = 0) ∧
    ((∀ k, k < P.SIZE → crc_of (systematic P (P.decode code).2) k ≠ 0) →
      call_with P order message code = some (-1, message)) ∧
    (call P message code = call_with P (sorted_order P (P.decode code).1) message code ∧
      (sorted_order P (P.decode code).1).Perm (List.range P.SIZE) ∧
      (sorted_order P (P.decode code).1).Sorted
        (fun a b => (P.decode code).1 a ≤ (P.decode code).1 b)) := by
  obtain ⟨hnone, hsome⟩ := select_order P (P.decode code).1 (systematic P (P.decode code).2)
    order hperm hsorted
  refine ⟨?_, ?_, ?_, call_eq_call_with P message code, sorted_order_perm P _,
    sorted_order_sorted P _⟩
  · rintro ⟨k, hk, hz⟩
    cases hsel : select (systematic P (P.decode code).2) order with
    | none => exact absurd hz (hnone.1 hsel k hk)
    | some best =>
      obtain ⟨fl, out, h1, _, _, h4, h5⟩ := flips_loop_spec P code
        (systematic P (P.decode code).2) best data_bits 0 0 0 message code_len
        (Nat.zero_add _) hinfo
      obtain ⟨hb, hz2, hfirst, hmin⟩ := hsome best hsel
      have hbits := (h5 (by rw [hlen]; decide)).1
      refine ⟨best, fl, out, rfl, ?_, hb, hz2, hfirst, hmin, by rw [h4, hlen], ?_⟩
      · simp only [call_with, hsel, h1, Option.map_some']
      · intro i hi
        exact hbits i (Nat.zero_le _) (by omega)
  · intro r out hcall hr
    cases hsel : select (systematic P (P.decode code).2) order with
    | none =>
      simp only [call_with, hsel, Option.some.injEq, Prod.mk.injEq] at hcall
      omega
    | some best =>
      obtain ⟨hb, hz2, _, _⟩ := hsome best hsel
      exact ⟨best, hb, hz2⟩
  · intro h
    simp only [call_with, hnone.2 h]

/-- C7 witness: two lanes of equal metric, both with CRC zero, tried in the
order 1, 0: lane 1 is accepted. -/
theorem candidate_selection_witness :
    data_bits ≤ info_count tie_kit code_len 0 ∧
    (List.replicate 256 0).length = mesg_bytes ∧
    [1, 0].Perm (List.range tie_kit.SIZE) ∧
    [1, 0].Sorted (fun a b => (tie_kit.decode []).1 a ≤ (tie_kit.decode []).1 b) ∧
    ∃ best flips out,
      select (systematic tie_kit (tie_kit.decode []).2) [1, 0] = some best ∧
      call_with tie_kit [1, 0] (List.replicate 256 0) [] = some (((flips : Nat) : Int), out) ∧
      best < tie_kit.SIZE ∧ crc_of (systematic tie_kit (tie_kit.decode []).2) best = 0 ∧
      (∃ pre post, [1, 0] = pre ++ best :: post ∧
        ∀ k ∈ pre, crc_of (systematic tie_kit (tie_kit.decode []).2) k ≠ 0) ∧
      (∀ k, k < tie_kit.SIZE → crc_of (systematic tie_kit (tie_kit.decode []).2) k = 0 →
        (tie_kit.decode []).1 best ≤ (tie_kit.decode []).1 k) ∧
      out.length = mesg_bytes ∧
      ∀ i, i < data_bits →
        get_le_bit out i = decide (systematic tie_kit (tie_kit.decode []).2 i best < 0) :=
  ⟨by decide!, List.length_replicate 256 0, by decide, by decide,
    (candidate_selection tie_kit [1, 0] (List.replicate 256 0) []
      (by decide!) (List.length_replicate 256 0) (by decide) (by decide)).1
      ⟨1, by decide, tie_kit_crc [] 1⟩⟩

end PolarDecoder

end Ribbit

namespace Ribbit

namespace Decoder

variable {δ α ρ β : Type}

/-! ### Frame timing and the soft bits written -/

theorem foldl_set_length (p q : Nat → Nat) (a b : Nat → Int) (l : List Nat) (c : List Int) :
    (l.foldl (fun c i => (c.set (p i) (a i)).set (q i) (b i)) c).length = c.length := by
  induction l generalizing c with
  | nil => rfl
  | cons x xs ih => rw [List.foldl_cons, ih, List.length_set, List.length_set]

theorem demap_code_length (K : DecoderKit δ α ρ β) (t : Decoder δ ρ β) :
    (demap K t).code.length = t.code.length := by
  rw [demap_code_def]
  exact foldl_set_length _ _ _ _ _ _

theorem process_code_length (K : DecoderKit δ α ρ β) (t : Decoder δ ρ β) :
    (process K t).2.code.length = t.code.length := by
  rcases process_code K t with h | ⟨_, _, u, _, hu, h⟩
  · rw [h]
  · rw [h, demap_code_length, hu]

theorem feed_code_length (K : DecoderKit δ α ρ β) (s : Decoder δ ρ β) (audio : List α) :
    (feed K s audio).2.code.length = s.code.length := by
  have hfeed := feed_eq_entry K s audio
  cases he : process_entry K s audio with
  | none =>
    rw [he] at hfeed
    replace hfeed : feed K s audio = (false, audio.foldl (feed_sample K) s) := hfeed
    rw [hfeed]
    show (audio.foldl (feed_sample K) s).code.length = _
    rw [foldl_feed_sample_code]
  | some e =>
    rw [he] at hfeed
    replace hfeed : feed K s audio = process K e := hfeed
    rw [hfeed, process_code_length, (process_entry_fields K s audio e he).2]

/-- Every `process` step of a sequence of calls is entered with a `code`
array of the length it had at the start. -/
theorem process_steps_code_length (K : DecoderKit δ α ρ β) (audios : List (List α))
    (s : Decoder δ ρ β) :
    ∀ p ∈ process_steps K s audios, p.1.code.length = s.code.length := by
  induction audios generalizing s with
  | nil =>
    intro p hp
    simp [process_steps] at hp
  | cons audio rest ih =>
    intro p hp
    rw [process_steps_cons, List.mem_append] at hp
    rcases hp with hp | hp
    · cases he : process_entry K s audio with
      | none =>
        rw [he] at hp
        simp at hp
      | some e =>
        rw [he] at hp
        simp only [List.mem_singleton] at hp
        rw [hp]
        show e.code.length = _
        rw [(process_entry_fields K s audio e he).2]
    · rw [ih _ p hp, feed_code_length]

/-- C16 (frame timing after sync): a `process` step whose gate decodes 1
sets `symbol_number` to -1 and returns false; from such a state, as long as
no later evaluation of the gate decodes 1, the `process` step number `i`
(counted from 0, one per boundary-crossing `feed` call, whose return value
it is) returns true exactly for `i = 32`, the 33rd step; step 0 only
transforms and captures `prev` and leaves `code` alone; step `i` for
`1 ≤ i ≤ 32` runs `demap` with `symbol_number == i - 1`: with `dsp` the
toolkit state after transform and demodulation, the entries
`2 (64 (i - 1) + j)` and `2 (64 (i - 1) + j) + 1` of `code` receive the two
soft values of subcarrier `j < 64` and every entry outside
`[128 (i - 1), 128 i)` keeps its value; every later step only consumes a
staged event, with `symbol_number == payload_symbols`. -/
theorem frame_timing (K : DecoderKit δ α ρ β) (s : Decoder δ ρ β) (audios : List (List α))
    (hs : s.symbol_number = -1) (hlen : s.code.length = code_len)
    (hg : 1 ∉ gate_values K s audios) :
    (∀ t : Decoder δ ρ β, gate_value K t = some 1 →
      (process K t).1 = false ∧ (process K t).2.symbol_number = -1) ∧
    (∀ (t : Decoder δ ρ β) (audio : List α),
      (feed K t audio).1 =
        match process_entry K t audio with
        | some e => (process K e).1
        | none => false) ∧
    ∀ (i : Nat) (p : Decoder δ ρ β × Bool × Decoder δ ρ β),
      (process_steps K s audios)[i]? = some p →
      p.2.1 = (process K p.1).1 ∧ p.2.2 = (process K p.1).2 ∧
      p.1.symbol_number = min ((i : Int) - 1) 32 ∧
      p.2.1 = decide (i = 32) ∧
      (i = 0 →
        p.2.2 = { after_gate K p.1 with
          dsp := K.capture_prev (K.transform (after_gate K p.1).dsp (after_gate K p.1).buf
            (after_gate K p.1).symbol_position),
          symbol_number := 0 } ∧
        p.2.2.code = p.1.code) ∧
      (1 ≤ i → i ≤ 32 →
        p.2.2.code =
          (demap K { after_gate K p.1 with
            dsp := K.demod (K.transform (after_gate K p.1).dsp (after_gate K p.1).buf
              (after_gate K p.1).symbol_position) }).code ∧
        (demap K { after_gate K p.1 with
            dsp := K.demod (K.transform (after_gate K p.1).dsp (after_gate K p.1).buf
              (after_gate K p.1).symbol_position) }).symbol_number = (i : Int) - 1 ∧
        p.2.2.symbol_number = (i : Int) ∧
        p.2.2.code.length = code_len ∧
        (∀ j, j < subcarrier_count →
          p.2.2.code.getD (2 * (64 * (i - 1) + j)) 0 =
            (K.soft
              (K.demod (K.transform (after_gate K p.1).dsp (after_gate K p.1).buf
                (after_gate K p.1).symbol_position)) j
              (K.precision
                (K.demod (K.transform (after_gate K p.1).dsp (after_gate K p.1).buf
                  (after_gate K p.1).symbol_position)))).1 ∧
          p.2.2.code.getD (2 * (64 * (i - 1) + j) + 1) 0 =
            (K.soft
              (K.demod (K.transform (after_gate K p.1).dsp (after_gate K p.1).buf
                (after_gate K p.1).symbol_position)) j
              (K.precision
                (K.demod (K.transform (after_gate K p.1).dsp (after_gate K p.1).buf
                  (after_gate K p.1).symbol_position)))).2) ∧
        (∀ n, n < 128 * (i - 1) ∨ 128 * i ≤ n → p.2.2.code.getD n 0 = p.1.code.getD n 0)) ∧
      (33 ≤ i → p.2.2 = after_gate K p.1 ∧ p.2.2.symbol_number = payload_symbols) := by
  refine ⟨?_, ?_, ?_⟩
  · intro t ht
    simp only [gate_value] at ht
    cases hc : t.staged_check
    · simp [hc] at ht
    · simp only [hc, if_true, Option.some.injEq] at ht
      simp only [process]
      rw [if_pos hc, if_pos ht]
      exact ⟨rfl, rfl⟩
  · intro t audio
    rw [feed_eq_entry]
    cases process_entry K t audio <;> rfl
  · intro i p hp
    obtain ⟨r1, r2, r3, r4, r5⟩ :=
      (process_steps_count K audios s (-1) hs (le_refl _) (by decide) hg).2 i p hp
    obtain ⟨c1, c2, c3⟩ := process_step_cases K p.1 r1
    rw [payload_symbols_eq] at c1 c2 c3
    have hsn : p.1.symbol_number = min ((i : Int) - 1) 32 := by rw [r2]; omega
    have hpl : p.1.code.length = code_len := by
      rw [process_steps_code_length K audios s p (List.getElem?_mem hp), hlen]
    refine ⟨r3, r4, hsn, ?_, ?_, ?_, ?_⟩
    · rw [r5, decide_eq_decide]; omega
    · intro hi
      subst hi
      have h0 : p.1.symbol_number = -1 := by rw [hsn]; simp
      have := c1 (by omega) (by omega)
      rw [r4, this, h0]
      refine ⟨rfl, ?_⟩
      show (after_gate K p.1).code = _
      exact (after_gate_fields K p.1).2.1
    · intro h1 h2
      have h0 : p.1.symbol_number = (i : Int) - 1 := by rw [hsn]; omega
      obtain ⟨_, d2, d3, d4⟩ := c2 (by omega) (by omega)
      have hsn2 : ({ after_gate K p.1 with
          dsp := K.demod (K.transform (after_gate K p.1).dsp (after_gate K p.1).buf
            (after_gate K p.1).symbol_position) } : Decoder δ ρ β).symbol_number =
          (i : Int) - 1 := by
        show (after_gate K p.1).symbol_number = _
        rw [(after_gate_fields K p.1).1, h0]
      have hcode2 : ({ after_gate K p.1 with
          dsp := K.demod (K.transform (after_gate K p.1).dsp (after_gate K p.1).buf
            (after_gate K p.1).symbol_position) } : Decoder δ ρ β).code = p.1.code :=
        (after_gate_fields K p.1).2.1
      have htn : ({ after_gate K p.1 with
          dsp := K.demod (K.transform (after_gate K p.1).dsp (after_gate K p.1).buf
            (after_gate K p.1).symbol_position) } : Decoder δ ρ β).symbol_number.toNat =
          i - 1 := by
        rw [hsn2]; omega
      rw [code_len_eq] at hpl
      obtain ⟨e1, e2⟩ := demap_code K { after_gate K p.1 with
          dsp := K.demod (K.transform (after_gate K p.1).dsp (after_gate K p.1).buf
            (after_gate K p.1).symbol_position) } (by rw [hsn2]; omega)
          (by rw [htn, hcode2, hpl]; omega)
      rw [htn, hcode2] at e2
      rw [hcode2] at e1
      rw [r4, d3]
      refine ⟨rfl, by rw [d4, h0], by rw [d2, h0]; omega, by rw [e1, hpl, code_len_eq],
        ?_, ?_⟩
      · intro j hj
        rw [subcarrier_count_eq] at hj
        have c1 : 2 * (64 * (i - 1)) ≤ 2 * (64 * (i - 1) + j) ∧
            2 * (64 * (i - 1) + j) < 2 * (64 * (i - 1)) + 128 := by omega
        have c2 : 2 * (64 * (i - 1)) ≤ 2 * (64 * (i - 1) + j) + 1 ∧
            2 * (64 * (i - 1) + j) + 1 < 2 * (64 * (i - 1)) + 128 := by omega
        have c3 : (2 * (64 * (i - 1) + j) - 2 * (64 * (i - 1))) % 2 = 0 := by omega
        have c4 : ¬ (2 * (64 * (i - 1) + j) + 1 - 2 * (64 * (i - 1))) % 2 = 0 := by omega
        have c5 : (2 * (64 * (i - 1) + j) - 2 * (64 * (i - 1))) / 2 = j := by omega
        have c6 : (2 * (64 * (i - 1) + j) + 1 - 2 * (64 * (i - 1))) / 2 = j := by omega
        rw [e2, e2, if_pos c1, if_pos c2, if_pos c3, if_neg c4, c5, c6]
        exact ⟨rfl, rfl⟩
      · intro n hn
        have c1 : ¬ (2 * (64 * (i - 1)) ≤ n ∧ n < 2 * (64 * (i - 1)) + 128) := by omega
        rw [e2, if_neg c1]
    · intro h
      have h0 : p.1.symbol_number = 32 := by rw [hsn]; omega
      have := c3 (by omega)
      rw [r4, this]
      refine ⟨rfl, ?_⟩
      show (after_gate K p.1).symbol_number = _
      rw [(after_gate_fields K p.1).1, h0]
      rfl

/-- C16 witness: on `ramp_kit`, right after a sync, 33 calls of 288 samples
without a hit: step 1 writes the soft values of subcarrier 3 of symbol 0 to
entries 6 and 7, step 32 returns true and writes those of subcarrier 5 of
symbol 31 to entries 3978 and 3979. -/
theorem frame_timing_witness :
    ramp_sync.symbol_number = -1 ∧ ramp_sync.code.length = code_len ∧
    1 ∉ gate_values ramp_kit ramp_sync frame_calls ∧
    ∃ p q : Decoder (Int × Int) Int Unit × Bool × Decoder (Int × Int) Int Unit,
      (process_steps ramp_kit ramp_sync frame_calls)[1]? = some p ∧
      (process_steps ramp_kit ramp_sync frame_calls)[32]? = some q ∧
      p.2.1 = false ∧ p.2.2.code.getD 6 0 = 7 ∧ p.2.2.code.getD 7 0 = -7 ∧
      q.2.1 = true ∧ q.2.2.code.getD 3978 0 = 11 ∧ q.2.2.code.getD 3979 0 = -11 := by
  have hs : ramp_sync.symbol_number = -1 := by decide!
  have hlen : ramp_sync.code.length = code_len := by decide!
  have hg : 1 ∉ gate_values ramp_kit ramp_sync frame_calls := by decide!
  have hl : 32 < (process_steps ramp_kit ramp_sync frame_calls).length := by decide!
  have g1 := List.getElem?_eq_getElem (show 1 < (process_steps ramp_kit ramp_sync
    frame_calls).length from by omega)
  have g32 := List.getElem?_eq_getElem hl
  have h := (frame_timing ramp_kit ramp_sync frame_calls hs hlen hg).2.2
  obtain ⟨_, _, _, a1, _, a, _⟩ := h 1 _ g1
  obtain ⟨_, _, _, b1, _, b, _⟩ := h 32 _ g32
  obtain ⟨_, _, _, _, a5, _⟩ := a (by decide) (by decide)
  obtain ⟨_, _, _, _, b5, _⟩ := b (by decide) (by decide)
  exact ⟨hs, hlen, hg, _, _, g1, g32, a1, (a5 3 (by decide)).1, (a5 3 (by decide)).2, b1,
    (b5 5 (by decide)).1, (b5 5 (by decide)).2⟩

end Decoder

end Ribbit

namespace Ribbit

namespace Encoder

variable {σ α : Type}

/-! ### The code entries of a payload symbol -/

/-- `payload_symbol` in closed form, for `symbol_number == m`: the bin
`16 + i` of subcarrier `i < 64` is multiplied by the QPSK mapping of the
code entries `2 (64 m + i)` and `2 (64 m + i) + 1`, in the order
`i = 0, ..., 63`; then the symbol is emitted with its guard. -/
theorem payload_symbol_closed (E : EncoderKit σ α) (s : Encoder σ α) (m : Nat)
    (hm : s.symbol_number = (m : Int)) :
    (payload_symbol E s).sig =
      E.save_guard (E.bwd ((List.range 64).foldl
        (fun g i => E.qpsk_mul g (16 + i) (s.code.getD (2 * (64 * m + i)) 0)
          (s.code.getD (2 * (64 * m + i) + 1) 0)) s.sig)) ∧
    (payload_symbol E s).buffer.items =
      s.buffer.items ++ symbol_out E ((List.range 64).foldl
        (fun g i => E.qpsk_mul g (16 + i) (s.code.getD (2 * (64 * m + i)) 0)
          (s.code.getD (2 * (64 * m + i) + 1) 0)) s.sig) true ∧
    (payload_symbol E s).code = s.code ∧
    (payload_symbol E s).symbol_number = s.symbol_number := by
  have hf : (fun (g : σ) (i : Nat) => E.qpsk_mul g (first_subcarrier + i)
        (s.code.getD (code_index s.symbol_number i).toNat 0)
        (s.code.getD ((code_index s.symbol_number i).toNat + 1) 0)) =
      (fun (g : σ) (i : Nat) => E.qpsk_mul g (16 + i) (s.code.getD (2 * (64 * m + i)) 0)
        (s.code.getD (2 * (64 * m + i) + 1) 0)) := by
    funext g i
    have e : (code_index s.symbol_number i).toNat = 2 * (64 * m + i) := by
      rw [(code_index_eq _ _).1, (code_index_eq _ _).2, hm]
      omega
    rw [e]
    rfl
  have hsig : (List.range subcarrier_count).foldl
      (fun g i => E.qpsk_mul g (first_subcarrier + i)
        (s.code.getD (code_index s.symbol_number i).toNat 0)
        (s.code.getD ((code_index s.symbol_number i).toNat + 1) 0)) s.sig =
      (List.range 64).foldl
        (fun g i => E.qpsk_mul g (16 + i) (s.code.getD (2 * (64 * m + i)) 0)
          (s.code.getD (2 * (64 * m + i) + 1) 0)) s.sig := by
    rw [hf, subcarrier_count_eq]
  unfold payload_symbol
  simp only
  refine ⟨?_, ?_, rfl, rfl⟩
  · rw [symbol_sig, hsig]
  · rw [symbol_items, hsig]

end Encoder

end Ribbit

namespace Ribbit

/-- C17 (code-bit placement): for symbol `m` and subcarrier `j` the
encoder's `payload_symbol` multiplies bin `16 + j` by the QPSK mapping of the
code entries `2 (64 m + j)` and `2 (64 m + j) + 1`, and the decoder's `demap`
writes the two soft values of subcarrier `j` to the same two entries; the
two index expressions are equal.  For `m` in `[0, 32)` and `j` in `[0, 64)`
the entries lie in `[0, 4096)` and every `n` in `[0, 4096)` is the entry (or
its successor) of exactly one `(m, j)`.  `process` writes `code` only
through `demap`, reached only with `symbol_number` in `[0, 32)`, and `demap`
writes nothing else; `payload_symbol` reads `code` only there, and the
produce step that is emission `k` of a frame runs it with
`symbol_number == k - 16` in `[0, 32)`, once for each such value. -/
theorem code_placement {σ α δ α2 ρ β : Type} (E : EncoderKit σ α) (K : DecoderKit δ α2 ρ β) :
    (∀ (s : Int) (i : Nat),
      Encoder.code_index s i = Decoder.code_index s i ∧
      Decoder.code_index s i = 2 * (64 * s + (i : Int))) ∧
    (∀ (s : Int) (i : Nat), 0 ≤ s → s < payload_symbols → i < subcarrier_count →
      0 ≤ Decoder.code_index s i ∧ Decoder.code_index s i + 1 < (code_len : Int)) ∧
    (∀ n : Nat, n < code_len →
      ∃ (s : Int) (i b : Nat),
        (0 ≤ s ∧ s < payload_symbols ∧ i < subcarrier_count ∧ b < 2 ∧
          Decoder.code_index s i + (b : Int) = (n : Int)) ∧
        ∀ (s2 : Int) (i2 b2 : Nat), 0 ≤ s2 → s2 < payload_symbols → i2 < subcarrier_count →
          b2 < 2 → Decoder.code_index s2 i2 + (b2 : Int) = (n : Int) →
          s2 = s ∧ i2 = i ∧ b2 = b) ∧
    (∀ t : Decoder δ ρ β,
      (Decoder.process K t).2.code = t.code ∨
      (0 ≤ t.symbol_number ∧ t.symbol_number < payload_symbols ∧
        ∃ u : Decoder δ ρ β, u.symbol_number = t.symbol_number ∧ u.code = t.code ∧
          (Decoder.process K t).2.code = (Decoder.demap K u).code)) ∧
    (∀ u : Decoder δ ρ β, 0 ≤ u.symbol_number → u.symbol_number < payload_symbols →
      u.code.length = code_len →
      (Decoder.demap K u).code.length = code_len ∧
      (∀ i, i < subcarrier_count →
        (Decoder.demap K u).code.getD (Decoder.code_index u.symbol_number i).toNat 0 =
          (K.soft u.dsp i (K.precision u.dsp)).1 ∧
        (Decoder.demap K u).code.getD ((Decoder.code_index u.symbol_number i).toNat + 1) 0 =
          (K.soft u.dsp i (K.precision u.dsp)).2) ∧
      (∀ n, (∀ i, i < subcarrier_count →
          n ≠ (Decoder.code_index u.symbol_number i).toNat ∧
          n ≠ (Decoder.code_index u.symbol_number i).toNat + 1) →
        (Decoder.demap K u).code.getD n 0 = u.code.getD n 0)) ∧
    (∀ s s2 : Encoder σ α, s.sig = s2.sig → s.buffer = s2.buffer →
      s.symbol_number = s2.symbol_number →
      (∀ i, i < subcarrier_count →
        s.code.getD (Encoder.code_index s.symbol_number i).toNat 0 =
          s2.code.getD (Encoder.code_index s.symbol_number i).toNat 0 ∧
        s.code.getD ((Encoder.code_index s.symbol_number i).toNat + 1) 0 =
          s2.code.getD ((Encoder.code_index s.symbol_number i).toNat + 1) 0) →
      (Encoder.payload_symbol E s).sig = (Encoder.payload_symbol E s2).sig ∧
      (Encoder.payload_symbol E s).buffer = (Encoder.payload_symbol E s2).buffer) ∧
    (∀ (s : Encoder σ α) (k n i : Nat) (p : Encoder σ α × Encoder σ α),
      Encoder.Phase k s → (Encoder.emitting_steps E n s)[i]? = some p →
      p.1.count_down = 2 →
      p.1.symbol_number = ((k + i : Nat) : Int) - 16 ∧
      0 ≤ p.1.symbol_number ∧ p.1.symbol_number < payload_symbols) ∧
    (∀ n : Nat, n < 4096 →
      ∃ (m j b : Nat), (m < 32 ∧ j < 64 ∧ b < 2 ∧ 2 * (64 * m + j) + b = n) ∧
        ∀ (m2 j2 b2 : Nat), m2 < 32 → j2 < 64 → b2 < 2 → 2 * (64 * m2 + j2) + b2 = n →
          m2 = m ∧ j2 = j ∧ b2 = b) ∧
    (∀ (u : Decoder δ ρ β) (m : Nat), u.symbol_number = (m : Int) → m < 32 →
      u.code.length = code_len →
      ∀ j, j < 64 →
        (Decoder.demap K u).code.getD (2 * (64 * m + j)) 0 =
          (K.soft u.dsp j (K.precision u.dsp)).1 ∧
        (Decoder.demap K u).code.getD (2 * (64 * m + j) + 1) 0 =
          (K.soft u.dsp j (K.precision u.dsp)).2) ∧
    (∀ (s : Encoder σ α) (m : Nat), s.symbol_number = (m : Int) →
      (Encoder.payload_symbol E s).sig =
        E.save_guard (E.bwd ((List.range 64).foldl
          (fun g j => E.qpsk_mul g (16 + j) (s.code.getD (2 * (64 * m + j)) 0)
            (s.code.getD (2 * (64 * m + j) + 1) 0)) s.sig)) ∧
      (Encoder.payload_symbol E s).buffer.items =
        s.buffer.items ++ Encoder.symbol_out E ((List.range 64).foldl
          (fun g j => E.qpsk_mul g (16 + j) (s.code.getD (2 * (64 * m + j)) 0)
            (s.code.getD (2 * (64 * m + j) + 1) 0)) s.sig) true) ∧
    (∀ (s : Encoder σ α) (k n i : Nat) (p : Encoder σ α × Encoder σ α),
      Encoder.Phase k s → (Encoder.emitting_steps E n s)[i]? = some p →
      p.1.count_down = 2 →
      16 ≤ k + i ∧ k + i < 48 ∧
      p.2.sig =
        E.save_guard (E.bwd ((List.range 64).foldl
          (fun g j => E.qpsk_mul g (16 + j) (p.1.code.getD (2 * (64 * (k + i - 16) + j)) 0)
            (p.1.code.getD (2 * (64 * (k + i - 16) + j) + 1) 0)) p.1.sig)) ∧
      p.2.buffer.items =
        p.1.buffer.items ++ Encoder.symbol_out E ((List.range 64).foldl
          (fun g j => E.qpsk_mul g (16 + j) (p.1.code.getD (2 * (64 * (k + i - 16) + j)) 0)
            (p.1.code.getD (2 * (64 * (k + i - 16) + j) + 1) 0)) p.1.sig) true) := by
  refine ⟨code_index_eq, ?_, ?_, Decoder.process_code K, ?_,
    Encoder.payload_symbol_reads E, ?_, ?_, ?_, ?_, ?_⟩
  · intro s i h0 h1 hi
    rw [(code_index_eq s i).2, code_len_eq]
    rw [payload_symbols_eq] at h1
    rw [subcarrier_count_eq] at hi
    constructor <;> push_cast <;> omega
  · intro n hn
    rw [code_len_eq] at hn
    refine ⟨((n / 128 : Nat) : Int), n % 128 / 2, n % 2, ⟨by omega, ?_, ?_, by omega, ?_⟩, ?_⟩
    · rw [payload_symbols_eq]
      omega
    · rw [subcarrier_count_eq]
      omega
    · rw [(code_index_eq _ _).2]
      omega
    · intro s2 i2 b2 h0 h1 hi hb he
      rw [(code_index_eq _ _).2] at he
      rw [subcarrier_count_eq] at hi
      omega
  · intro u h0 h1 hlen
    rw [payload_symbols_eq] at h1
    rw [code_len_eq] at hlen
    obtain ⟨d1, d2⟩ := Decoder.demap_code K u h0 (by omega)
    refine ⟨by rw [d1, hlen, code_len_eq], ?_, ?_⟩
    · intro i hi
      rw [subcarrier_count_eq] at hi
      rw [code_index_toNat _ _ h0, d2, d2]
      have c1 : 2 * (64 * u.symbol_number.toNat) ≤ 2 * (64 * u.symbol_number.toNat) + 2 * i ∧
          2 * (64 * u.symbol_number.toNat) + 2 * i <
            2 * (64 * u.symbol_number.toNat) + 128 := by omega
      have c2 : 2 * (64 * u.symbol_number.toNat) ≤
          2 * (64 * u.symbol_number.toNat) + 2 * i + 1 ∧
          2 * (64 * u.symbol_number.toNat) + 2 * i + 1 <
            2 * (64 * u.symbol_number.toNat) + 128 := by omega
      have c3 : (2 * (64 * u.symbol_number.toNat) + 2 * i -
          2 * (64 * u.symbol_number.toNat)) % 2 = 0 := by omega
      have c4 : ¬ (2 * (64 * u.symbol_number.toNat) + 2 * i + 1 -
          2 * (64 * u.symbol_number.toNat)) % 2 = 0 := by omega
      have c5 : (2 * (64 * u.symbol_number.toNat) + 2 * i -
          2 * (64 * u.symbol_number.toNat)) / 2 = i := by omega
      have c6 : (2 * (64 * u.symbol_number.toNat) + 2 * i + 1 -
          2 * (64 * u.symbol_number.toNat)) / 2 = i := by omega
      rw [if_pos c1, if_pos c2, if_pos c3, if_neg c4, c5, c6]
      exact ⟨rfl, rfl⟩
    · intro n hn
      rw [d2, if_neg]
      intro hc
      have h := hn ((n - 2 * (64 * u.symbol_number.toNat)) / 2)
        (by rw [subcarrier_count_eq]; omega)
      rw [code_index_toNat _ _ h0] at h
      omega
  · intro s k n i p hp hi hc
    obtain ⟨_, _, h3⟩ := Encoder.emitting_steps_phase E n s k hp
    obtain ⟨q1, _, _, _⟩ := h3 i p hi
    obtain ⟨_, _, r3, r4, r5⟩ := Encoder.payload_phase p.1 (k + i) q1 hc
    exact ⟨r3, r4, r5⟩
  · intro n hn
    refine ⟨n / 128, n % 128 / 2, n % 2, ⟨by omega, by omega, by omega, by omega⟩, ?_⟩
    intro m2 j2 b2 h1 h2 h3 h4
    omega
  · intro u m hm hm32 hlen j hj
    rw [code_len_eq] at hlen
    have h0 : 0 ≤ u.symbol_number := by rw [hm]; omega
    have htn : u.symbol_number.toNat = m := by rw [hm]; omega
    obtain ⟨_, d2⟩ := Decoder.demap_code K u h0 (by rw [htn]; omega)
    rw [htn] at d2
    have c1 : 2 * (64 * m) ≤ 2 * (64 * m + j) ∧ 2 * (64 * m + j) < 2 * (64 * m) + 128 := by
      omega
    have c2 : 2 * (64 * m) ≤ 2 * (64 * m + j) + 1 ∧
        2 * (64 * m + j) + 1 < 2 * (64 * m) + 128 := by omega
    have c3 : (2 * (64 * m + j) - 2 * (64 * m)) % 2 = 0 := by omega
    have c4 : ¬ (2 * (64 * m + j) + 1 - 2 * (64 * m)) % 2 = 0 := by omega
    have c5 : (2 * (64 * m + j) - 2 * (64 * m)) / 2 = j := by omega
    have c6 : (2 * (64 * m + j) + 1 - 2 * (64 * m)) / 2 = j := by omega
    rw [d2, d2, if_pos c1, if_pos c2, if_pos c3, if_neg c4, c5, c6]
    exact ⟨rfl, rfl⟩
  · intro s m hm
    exact ⟨(Encoder.payload_symbol_closed E s m hm).1,
      (Encoder.payload_symbol_closed E s m hm).2.1⟩
  · intro s k n i p hp hi hc
    obtain ⟨_, _, h3⟩ := Encoder.emitting_steps_phase E n s k hp
    obtain ⟨q1, _, _, q4⟩ := h3 i p hi
    obtain ⟨r1, r2, r3, _, _⟩ := Encoder.payload_phase p.1 (k + i) q1 hc
    have hm : p.1.symbol_number = ((k + i - 16 : Nat) : Int) := by rw [r3]; omega
    obtain ⟨e1, e2, _, _⟩ := Encoder.payload_symbol_closed E p.1 (k + i - 16) hm
    unfold Encoder.emission_at at q4
    rw [if_neg (by omega), if_neg (by omega), if_neg (by omega), if_pos r2] at q4
    obtain ⟨_, q5, q6⟩ := q4
    refine ⟨r1, r2, ?_, ?_⟩
    · rw [q5, e1]
    · rw [q6, e2]

end Ribbit
